import Mathlib

/-!
Verification development for the REST-Response-Comparator core services.

The TypeScript services are shallowly embedded over `List Char` strings:
`hostParser.parseHost`, `hostReplacer.replaceHostInCurl` /
`replaceHostInParsedCurl`, `curlParser.normalizeCurlCommand` / `parseCurl` /
`formatParsedCurlToCommand`, `requestExecutor.executeRequest` /
`executeForAllHosts` / `executeCurlBatch`, and `diffService.applyJsonPath`.
JavaScript built-ins used by those services (the WHATWG `URL` constructor,
`JSON.parse`, the `jsonpath-plus` library) are modelled by explicit executable
functions, each marked as such in its doc comment.
-/

namespace RRC

/-- Strings are modelled as lists of characters. -/
abbrev Str := List Char

/-- Character list of a Lean string literal. -/
def chars (s : String) : Str := s.data

/-- The single-quote character. -/
def squote : Char := Char.ofNat 39

/-- The double-quote character. -/
def dquote : Char := Char.ofNat 34

/-- The backslash character. -/
def bslash : Char := Char.ofNat 92

/-- The opening-brace character. -/
def obrace : Char := Char.ofNat 123

/-- The closing-brace character. -/
def cbrace : Char := Char.ofNat 125

/-- Models the JavaScript regex class backslash-s (whitespace): space, tab,
line feed, carriage return, vertical tab, form feed, no-break space, BOM.
(The remaining Unicode space separators never occur in the strings of this
development.) -/
def jsIsSpace (c : Char) : Bool :=
  c = ' ' || c = '\t' || c = '\n' || c = '\r' ||
  c = Char.ofNat 11 || c = Char.ofNat 12 || c = Char.ofNat 160 || c = Char.ofNat 0xFEFF

/-- Models JavaScript `String.prototype.trimStart`. -/
def trimStartL (l : Str) : Str := l.dropWhile jsIsSpace

/-- Models JavaScript `String.prototype.trimEnd`. -/
def trimEndL (l : Str) : Str := (l.reverse.dropWhile jsIsSpace).reverse

/-- Models JavaScript `String.prototype.trim`. -/
def trimL (l : Str) : Str := trimEndL (trimStartL l)

/-- State machine behind `collapseWs`: `inRun` records whether the previous
character belonged to a whitespace run (for which a space was already
emitted). -/
def collapseWsAux : Bool → Str → Str
  | _, [] => []
  | inRun, c :: rest =>
    if jsIsSpace c then
      if inRun then collapseWsAux true rest else ' ' :: collapseWsAux true rest
    else c :: collapseWsAux false rest

/-- Models `str.replace(/\s+/g, ' ')`: every maximal whitespace run becomes
one space. -/
def collapseWs (l : Str) : Str := collapseWsAux false l

/-- Models JavaScript `str.split(sep)` for a single separator character. -/
def splitOnCharAux (sep : Char) : Str → Str → List Str
  | [], acc => [acc.reverse]
  | c :: rest, acc =>
    if c = sep then acc.reverse :: splitOnCharAux sep rest []
    else splitOnCharAux sep rest (c :: acc)

/-- Models JavaScript `str.split(sep)` for a single separator character. -/
def splitOnChar (sep : Char) (l : Str) : List Str := splitOnCharAux sep l []

/-- Models JavaScript `arr.join(sep)`. -/
def joinWith (sep : Str) : List Str → Str
  | [] => []
  | [x] => x
  | x :: xs => x ++ sep ++ joinWith sep xs

/-- Boolean prefix test. -/
def isPrefixL (pat l : Str) : Bool := List.isPrefixOf pat l

/-- Models JavaScript `str.includes(pat)`. -/
def containsSub (pat : Str) : Str → Bool
  | [] => isPrefixL pat []
  | l@(_ :: rest) => isPrefixL pat l || containsSub pat rest

/-- Models JavaScript `str.replace(pat, repl)` with a plain-string pattern:
only the first occurrence is replaced; the string is returned unchanged when
the pattern does not occur. -/
def replaceFirstSub (pat repl : Str) : Str → Str
  | [] => if isPrefixL pat [] then repl else []
  | l@(c :: rest) =>
    if isPrefixL pat l then repl ++ l.drop pat.length
    else c :: replaceFirstSub pat repl rest

/-- The literal placeholder token of the host replacer. -/
def hostTok : Str := chars "\x7bhost\x7d"

/-- Fuel-indexed worker for `replaceAllHost` (each step consumes at least
one character, so fuel equal to the input length always suffices). -/
def replaceAllHostAux (repl : Str) : Nat → Str → Str
  | _, [] => []
  | 0, l => l
  | fuel + 1, c :: rest =>
    if isPrefixL hostTok (c :: rest) then repl ++ replaceAllHostAux repl fuel (rest.drop 5)
    else c :: replaceAllHostAux repl fuel rest

/-- Models `str.replace(/\x7bhost\x7d/g, repl)`: every occurrence of the
(six-character) placeholder token is replaced. -/
def replaceAllHost (repl l : Str) : Str := replaceAllHostAux repl l.length l

/-- Fuel-indexed worker for `splitOnHost` (fuel equal to the input length
always suffices). -/
def splitOnHostAux : Nat → Str → Str → List Str
  | _, [], acc => [acc.reverse]
  | 0, l, acc => [acc.reverse ++ l]
  | fuel + 1, c :: rest, acc =>
    if isPrefixL hostTok (c :: rest) then acc.reverse :: splitOnHostAux fuel (rest.drop 5) []
    else splitOnHostAux fuel rest (c :: acc)

/-- Models `str.split('\x7bhost\x7d')` (the separator has six characters). -/
def splitOnHost (l : Str) : List Str := splitOnHostAux l.length l []

/-- Models `str.replace(/\/+$/, '')`: strip all trailing slashes. -/
def stripTrailingSlashes (l : Str) : Str := (l.reverse.dropWhile (· = '/')).reverse

/-- Models `str.replace(/^\/+/, '')`: strip all leading slashes. -/
def stripLeadingSlashes (l : Str) : Str := l.dropWhile (· = '/')

/-- ASCII lower-casing of one character (models JS `toLowerCase` on the
ASCII inputs of this development). -/
def lowerAscii (c : Char) : Char :=
  if 'A' ≤ c && c ≤ 'Z' then Char.ofNat (c.toNat + 32) else c

/-- ASCII upper-casing of one character (models JS `toUpperCase` on the
ASCII inputs of this development). -/
def upperAscii (c : Char) : Char :=
  if 'a' ≤ c && c ≤ 'z' then Char.ofNat (c.toNat - 32) else c

/-- Models the test `/^https?:\/\//i.test(s)`. -/
def startsWithHttpScheme (l : Str) : Bool :=
  isPrefixL (chars "http://") (l.map lowerAscii) ||
  isPrefixL (chars "https://") (l.map lowerAscii)

/-! ### Model of the WHATWG URL constructor (the JS `URL` built-in)

The host parser and resolver call `new URL(...)`, a browser built-in that is
not part of this repository.  The functions below model its behaviour for
http/https URLs of the shapes this code base feeds it: scheme, authority
(with optional port, default ports elided), path, query/fragment carried
verbatim.  Userinfo, IPv6 literals, percent-encoding, punycode and
dot-segment normalization are outside the modelled fragment. -/

/-- A parsed URL as exposed by the JS `URL` object (the fields the sources
read). `protocol` includes the trailing colon; `host` is hostname plus any
non-default port; `tail` is the raw query/fragment suffix. -/
structure JsUrl where
  protocol : Str
  host : Str
  hostname : Str
  pathname : Str
  tail : Str
deriving Repr, DecidableEq

/-- The WHATWG forbidden host code points (subset relevant to one-line
hosts); a URL whose authority contains one of these fails to parse. -/
def forbiddenHostChar (c : Char) : Bool :=
  c = ' ' || c = '\t' || c = '\n' || c = '\r' || c = '#' || c = '<' ||
  c = '>' || c = '?' || c = '@' || c = '[' || c = bslash || c = ']' ||
  c = '^' || c = '|'

/-- Authority terminators: the authority of a special URL runs up to the
first slash, query or fragment delimiter. -/
def authorityEnd (c : Char) : Bool := c = '/' || c = '?' || c = '#'

/-- Path terminators: the path runs up to the first query or fragment
delimiter. -/
def pathEnd (c : Char) : Bool := c = '?' || c = '#'

/-- Models parsing the authority (host [: port]) of the JS `URL` built-in.
Returns `(host, hostname)` or `none` on parse failure. -/
def parseAuthority (defaultPort : Nat) (auth : Str) : Option (Str × Str) :=
  if auth.any forbiddenHostChar then none
  else
    match splitOnChar ':' auth with
    | [h] =>
      if h.isEmpty then none else
      some (h.map lowerAscii, h.map lowerAscii)
    | [h, p] =>
      if h.isEmpty then none else
      if p.isEmpty then some (h.map lowerAscii, h.map lowerAscii) else
      if p.all (fun c => '0' ≤ c && c ≤ '9') then
        let portVal := p.foldl (fun n c => n * 10 + (c.toNat - 48)) 0
        if portVal = defaultPort then some (h.map lowerAscii, h.map lowerAscii)
        else some (h.map lowerAscii ++ ':' :: chars (toString portVal), h.map lowerAscii)
      else none
    | _ => none

/-- Models `new URL(s)` of the JS environment for absolute http/https URLs
(see the section comment for the modelled fragment). -/
def jsUrlParse (s : Str) : Option JsUrl :=
  let parse := fun (proto : Str) (defaultPort : Nat) (rest : Str) =>
    let auth := rest.takeWhile (fun c => !authorityEnd c)
    let afterAuth := rest.drop auth.length
    match parseAuthority defaultPort auth with
    | none => none
    | some (host, hostname) =>
      let path := afterAuth.takeWhile (fun c => !pathEnd c)
      let tail := afterAuth.drop path.length
      let pathname := if path.isEmpty then chars "/" else path
      some { protocol := proto, host := host, hostname := hostname,
             pathname := pathname, tail := tail }
  if isPrefixL (chars "http://") s then parse (chars "http:") 80 (s.drop 7)
  else if isPrefixL (chars "https://") s then parse (chars "https:") 443 (s.drop 8)
  else none

/-- Models `url.toString()` / `url.href` for the modelled URL fragment. -/
def jsUrlToString (u : JsUrl) : Str :=
  u.protocol ++ chars "//" ++ u.host ++ u.pathname ++ u.tail

/-- Models `new URL(ref, base).toString()` of the JS environment for the
reference shapes this code base produces (absolute http/https references,
path-absolute references, and plain relative paths). Returns `none` where
the built-in would throw. -/
def jsUrlResolve (ref base : Str) : Option Str :=
  if startsWithHttpScheme ref then (jsUrlParse ref).map jsUrlToString
  else
    match jsUrlParse base with
    | none => none
    | some b =>
      if isPrefixL (chars "//") ref then
        (jsUrlParse (b.protocol ++ ref)).map jsUrlToString
      else if isPrefixL (chars "/") ref then
        some (b.protocol ++ chars "//" ++ b.host ++ ref)
      else if ref.isEmpty then
        some (jsUrlToString b)
      else
        let dir := (b.pathname.reverse.dropWhile (· ≠ '/')).reverse
        some (b.protocol ++ chars "//" ++ b.host ++ dir ++ ref)

/-! ### Host parser (`hostParser.ts`) -/

/-- The `ParsedHost` record of `hostParser.ts`. -/
structure ParsedHost where
  original : Str
  normalized : Str
  hostname : Str
deriving Repr, DecidableEq

/-- Embeds `parseHost` of `hostParser.ts`. -/
def parseHost (input : Str) : ParsedHost :=
  let trimmed := trimL input
  let urlString :=
    if isPrefixL (chars "http://") trimmed || isPrefixL (chars "https://") trimmed
    then trimmed else chars "http://" ++ trimmed
  match jsUrlParse urlString with
  | some url =>
    let normalizedUrl := url.protocol ++ chars "//" ++ url.host ++ url.pathname
    let normalizedUrl :=
      if normalizedUrl.length > 1 && normalizedUrl.getLast? = some '/'
      then normalizedUrl.dropLast else normalizedUrl
    { original := trimmed, normalized := normalizedUrl, hostname := url.hostname }
  | none =>
    { original := trimmed, normalized := chars "http://" ++ trimmed, hostname := trimmed }

/-- Embeds `parseHosts` of `hostParser.ts` for a comma-separated string. -/
def parseHosts (input : Str) : List ParsedHost :=
  (((splitOnChar ',' input).map trimL).filter (fun h => h.length > 0)).map parseHost

/-! ### Curl data model (`shared/types.ts`) -/

/-- The `ParsedCurl` record. Headers are a JS object: an insertion-ordered
association list with last-write-wins keys. -/
structure ParsedCurl where
  url : Str
  method : Str
  headers : List (Str × Str)
  body : Option Str
  originalCurl : Str
deriving Repr, DecidableEq

/-! ### Host replacer (`hostReplacer.ts`) -/

/-- Embeds `replaceHostInCurl` of `hostReplacer.ts`: text-level placeholder
substitution over the whole command (the regex `/https?:\/\//` is
case-sensitive and unanchored). -/
def replaceHostInCurl (curlCommand : Str) (host : ParsedHost) : Str :=
  if containsSub (chars "http://") curlCommand || containsSub (chars "https://") curlCommand
  then replaceAllHost host.hostname curlCommand
  else replaceAllHost host.normalized curlCommand

/-- Embeds `replaceHostInParsedCurl` of `hostReplacer.ts`. -/
def replaceHostInParsedCurl (p : ParsedCurl) (h : ParsedHost) : ParsedCurl :=
  let urlToResolve := p.url
  if startsWithHttpScheme urlToResolve then
    { p with url := replaceFirstSub hostTok h.hostname urlToResolve }
  else if containsSub hostTok urlToResolve then
    let parts := splitOnHost urlToResolve
    let suffix := parts.getD 1 []
    let base := stripTrailingSlashes h.normalized
    let path := stripLeadingSlashes suffix
    { p with url := base ++ '/' :: path }
  else
    match jsUrlResolve urlToResolve h.normalized with
    | some finalUrl => { p with url := finalUrl }
    | none => p

/-! ### Curl command normalizer and parser (`curlParser.ts`) -/

/-- One step of `normalizeCurlCommand`: `trimEnd` the line, and when it ends
with a backslash continuation marker drop the marker and `trimEnd` again. -/
def normalizeLine (l : Str) : Str :=
  let t := trimEndL l
  if t.getLast? = some bslash then trimEndL t.dropLast else t

/-- Embeds `normalizeCurlCommand` of `curlParser.ts`: split into lines, strip
continuation backslashes, join with spaces, collapse whitespace runs, trim. -/
def normalizeCurlCommand (raw : Str) : Str :=
  trimL (collapseWs (joinWith (chars " ") ((splitOnChar '\n' raw).map normalizeLine)))

/-- Models `command.replace(/^curl\s+/, '')`. -/
def stripCurlPrefix (l : Str) : Str :=
  if isPrefixL (chars "curl") l then
    match l.drop 4 with
    | c :: rest => if jsIsSpace c then rest.dropWhile jsIsSpace else l
    | [] => l
  else l

/-- Word characters of the JS regex class backslash-w. -/
def isWordChar (c : Char) : Bool :=
  ('a' ≤ c && c ≤ 'z') || ('A' ≤ c && c ≤ 'Z') || ('0' ≤ c && c ≤ '9') || c = '_'

/-- Quote characters (the regex class of single and double quote). -/
def isQuote (c : Char) : Bool := c = squote || c = dquote

/-- Try to match the regex `-X\s+(\w+)` (case-insensitive on the `X`) at the
head of the string; returns `(matched text, capture)`. -/
def matchMethodAt (l : Str) : Option (Str × Str) :=
  match l with
  | '-' :: x :: rest =>
    if x = 'X' || x = 'x' then
      let ws := rest.takeWhile jsIsSpace
      if ws.isEmpty then none
      else
        let w := (rest.drop ws.length).takeWhile isWordChar
        if w.isEmpty then none
        else some ('-' :: x :: (ws ++ w), w)
    else none
  | _ => none

/-- Leftmost match of `-X\s+(\w+)`, case-insensitive (models `.exec`). -/
def findMethod : Str → Option (Str × Str)
  | [] => none
  | c :: rest =>
    match matchMethodAt (c :: rest) with
    | some r => some r
    | none => findMethod rest

/-- Try to match `-H\s+['"]([^'"]+)['"]` at the head of the string; returns
`(matched text, capture)`. -/
def matchHeaderAt (l : Str) : Option (Str × Str) :=
  match l with
  | '-' :: 'H' :: rest =>
    if (rest.takeWhile jsIsSpace).isEmpty then none
    else
      match rest.drop (rest.takeWhile jsIsSpace).length with
      | q :: rest2 =>
        if isQuote q then
          if (rest2.takeWhile (fun c => !isQuote c)).isEmpty then none
          else
            match rest2.drop (rest2.takeWhile (fun c => !isQuote c)).length with
            | q2 :: _ =>
              if isQuote q2 then
                some ('-' :: 'H' ::
                        (rest.takeWhile jsIsSpace ++
                          q :: (rest2.takeWhile (fun c => !isQuote c) ++ [q2])),
                      rest2.takeWhile (fun c => !isQuote c))
              else none
            | [] => none
        else none
      | [] => none
  | _ => none

/-- Fuel-indexed worker for `scanHeaders` (a match consumes at least two
characters, so fuel equal to the input length always suffices). -/
def scanHeadersAux : Nat → Str → List (Str × Str)
  | _, [] => []
  | 0, _ => []
  | fuel + 1, c :: rest =>
    match matchHeaderAt (c :: rest) with
    | some (full, cap) => (full, cap) :: scanHeadersAux fuel ((c :: rest).drop full.length)
    | none => scanHeadersAux fuel rest

/-- All (non-overlapping, left-to-right) matches of the global header regex,
as `(matched text, capture)` pairs: models `[...command.matchAll(headerRegex)]`. -/
def scanHeaders (l : Str) : List (Str × Str) := scanHeadersAux l.length l

/-- After a data flag of length `flagLen`, try the quoted-argument branch
`\s+['"]([^'"]+)['"]`; returns `(matched text, capture)`. -/
def matchQuotedArgAfter (flagLen : Nat) (l : Str) : Option (Str × Str) :=
  let rest := l.drop flagLen
  let ws := rest.takeWhile jsIsSpace
  if ws.isEmpty then none
  else
    match rest.drop ws.length with
    | q :: rest2 =>
      if isQuote q then
        let content := rest2.takeWhile (fun c => !isQuote c)
        if content.isEmpty then none
        else
          match rest2.drop content.length with
          | q2 :: _ =>
            if isQuote q2 then some (l.take flagLen ++ ws ++ q :: (content ++ [q2]), content)
            else none
          | [] => none
      else none
    | [] => none

/-- After a data flag of length `flagLen`, try the bare-argument branch
`\s+(\S+)`; returns `(matched text, capture)`. -/
def matchBareArgAfter (flagLen : Nat) (l : Str) : Option (Str × Str) :=
  let rest := l.drop flagLen
  let ws := rest.takeWhile jsIsSpace
  if ws.isEmpty then none
  else
    let tok := (rest.drop ws.length).takeWhile (fun c => !jsIsSpace c)
    if tok.isEmpty then none
    else some (l.take flagLen ++ ws ++ tok, tok)

/-- Try the body regex
`(?:-d|--data)\s+['"]([^'"]+)['"]|(?:-d|--data)\s+(\S+)` at the head of the
string, honouring the regex backtracking order. -/
def matchBodyAt (l : Str) : Option (Str × Str) :=
  let dashD := isPrefixL (chars "-d") l
  let dashData := isPrefixL (chars "--data") l
  (if dashD then matchQuotedArgAfter 2 l else none) <|>
  (if dashData then matchQuotedArgAfter 6 l else none) <|>
  (if dashD then matchBareArgAfter 2 l else none) <|>
  (if dashData then matchBareArgAfter 6 l else none)

/-- Leftmost match of the body regex (models `.exec`). -/
def findBody : Str → Option (Str × Str)
  | [] => none
  | c :: rest => matchBodyAt (c :: rest) <|> findBody rest

/-- The set of zero-argument flags stripped before URL extraction. -/
def standaloneFlags : List Str :=
  [chars "-L", chars "--location", chars "-k", chars "--insecure",
   chars "-s", chars "--silent", chars "-v", chars "--verbose",
   chars "--compressed", chars "--http1.0", chars "--http1.1", chars "--http2",
   chars "-G", chars "--get", chars "-I", chars "--head"]

/-- Fuel-indexed worker for `jsSplitWs`: the remainder after the first token
is `dropWhile` of the non-space predicate, whose head — when present — is
whitespace, so the whole run is consumed before recursing.  Each step
consumes at least one character, so fuel equal to the input length always
suffices. -/
def jsSplitWsAux : Nat → Str → List Str
  | 0, l => [l.takeWhile (fun c => !jsIsSpace c)]
  | fuel + 1, l =>
    match l.dropWhile (fun c => !jsIsSpace c) with
    | [] => [l.takeWhile (fun c => !jsIsSpace c)]
    | _ :: rest => l.takeWhile (fun c => !jsIsSpace c) :: jsSplitWsAux fuel (rest.dropWhile jsIsSpace)

/-- Models JavaScript `str.split(/\s+/)`: split at maximal whitespace runs,
with empty fragments at a leading or trailing run. -/
def jsSplitWs (l : Str) : List Str := jsSplitWsAux l.length l

/-- Try to match `^(['"])(.*?)\1` (a lazily captured quoted string whose
closing quote is the backreferenced opening quote); returns the capture. -/
def matchQuotedUrl (l : Str) : Option Str :=
  match l with
  | q :: rest =>
    if isQuote q then
      let cap := rest.takeWhile (· ≠ q)
      if cap.length < rest.length then some cap else none
    else none
  | [] => none

/-- Try to match `(https?:\/\/\S+|\/\S*)` at the head of the string. -/
def matchUrlTokenAt (l : Str) : Option Str :=
  (if isPrefixL (chars "https://") l then
    let tok := (l.drop 8).takeWhile (fun c => !jsIsSpace c)
    if tok.isEmpty then none else some (chars "https://" ++ tok)
  else none) <|>
  (if isPrefixL (chars "http://") l then
    let tok := (l.drop 7).takeWhile (fun c => !jsIsSpace c)
    if tok.isEmpty then none else some (chars "http://" ++ tok)
  else none) <|>
  (match l with
   | '/' :: rest => some ('/' :: rest.takeWhile (fun c => !jsIsSpace c))
   | _ => none)

/-- Leftmost match of the URL-token regex. -/
def findUrlToken : Str → Option Str
  | [] => none
  | c :: rest => matchUrlTokenAt (c :: rest) <|> findUrlToken rest

/-- Models assignment to a JS object property: an existing key is updated in
place (keeping its position), a new key is appended. -/
def jsObjSet (key val : Str) : List (Str × Str) → List (Str × Str)
  | [] => [(key, val)]
  | (k, v) :: rest =>
    if k = key then (k, val) :: rest else (k, v) :: jsObjSet key val rest

/-- Process one captured header string: split at the first colon (the colon
index must be positive), trim key and value, store last-write-wins. -/
def processHeader (headers : List (Str × Str)) (content : Str) : List (Str × Str) :=
  match content.findIdx? (· = ':') with
  | some i =>
    if 0 < i then jsObjSet (trimL (content.take i)) (trimL (content.drop (i + 1))) headers
    else headers
  | none => headers

/-- The header-collection/removal loop of `parseCurl`: each scanned match
updates the header object and erases its first occurrence from the working
command string. -/
def applyHeaderMatches : List (Str × Str) → List (Str × Str) × Str → List (Str × Str) × Str
  | [], acc => acc
  | (full, cap) :: ms, (headers, command) =>
    applyHeaderMatches ms (processHeader headers cap, replaceFirstSub full [] command)

/-- First whitespace-separated token (`cleanCommand.split(/\s+/)[0]`). -/
def firstWsToken (l : Str) : Str := l.takeWhile (fun c => !jsIsSpace c)

/-- The method statement group of `parseCurl`: extract the `-X` method
(upper-cased capture, default `GET`) and erase its first occurrence. -/
def pcMethod (command : Str) : Str × Str :=
  match findMethod command with
  | some (full, cap) => (cap.map upperAscii, replaceFirstSub full [] command)
  | none => (chars "GET", command)

/-- The header statement group of `parseCurl`: collect all header matches
and erase each from the working command. -/
def pcHdr (command : Str) : List (Str × Str) × Str :=
  applyHeaderMatches (scanHeaders command) ([], command)

/-- The body statement group of `parseCurl`: extract the data argument and
erase its first occurrence. -/
def pcBody (command : Str) : Option Str × Str :=
  match findBody command with
  | some (full, cap) => (some cap, replaceFirstSub full [] command)
  | none => (none, command)

/-- The flag-cleanup statement group of `parseCurl`: drop standalone flags
and re-join the remaining whitespace-separated fragments. -/
def pcClean (command : Str) : Str :=
  trimL (joinWith (chars " ")
    ((jsSplitWs command).filter (fun t => !standaloneFlags.contains t)))

/-- The URL statement group of `parseCurl`: the quoted-string /
pattern / first-token fallback chain. -/
def pcUrl (cleanCommand : Str) : Str :=
  match matchQuotedUrl cleanCommand with
  | some cap => trimL cap
  | none =>
    match findUrlToken cleanCommand with
    | some u => trimL u
    | none =>
      if firstWsToken cleanCommand ≠ [] && (firstWsToken cleanCommand).head? ≠ some '-'
      then firstWsToken cleanCommand else []

/-- Embeds `parseCurl` of `curlParser.ts` (the normalizing version): method,
headers and body are consumed from a working copy in that order, standalone
flags are filtered out, then the URL is extracted by the quoted-string /
pattern / first-token fallback chain. -/
def parseCurl (curlCommand : Str) : ParsedCurl :=
  let trimmed := normalizeCurlCommand curlCommand
  let command0 := stripCurlPrefix trimmed
  let methodStep := pcMethod command0
  let hdrStep := pcHdr methodStep.2
  let bodyStep := pcBody hdrStep.2
  { url := pcUrl (pcClean bodyStep.2), method := methodStep.1, headers := hdrStep.1,
    body := bodyStep.1, originalCurl := trimmed }

/-- Embeds `hasHostPlaceholder` of `curlParser.ts`. -/
def hasHostPlaceholder (curlCommand : Str) : Bool := containsSub hostTok curlCommand

/-- Models `str.replace(/'/g, "'\\''")` of `formatParsedCurlToCommand`. -/
def escapeSingleQuotes (l : Str) : Str :=
  l.flatMap (fun c => if c = squote then [squote, bslash, squote, squote] else [c])

/-- Embeds `formatParsedCurlToCommand` of `curlParser.ts`. -/
def formatParsedCurlToCommand (p : ParsedCurl) : Str :=
  let cmd := chars "curl " ++ squote :: (escapeSingleQuotes p.url ++ [squote])
  let cmd :=
    if p.method ≠ [] && p.method.map upperAscii ≠ chars "GET"
    then cmd ++ chars " -X " ++ p.method.map upperAscii else cmd
  let cmd := p.headers.foldl
    (fun acc kv =>
      acc ++ chars " -H " ++ squote ::
        (kv.1 ++ chars ": " ++ escapeSingleQuotes kv.2 ++ [squote])) cmd
  match p.body with
  | some b => if b ≠ [] then cmd ++ chars " -d " ++ squote :: (escapeSingleQuotes b ++ [squote]) else cmd
  | none => cmd

/-! ### Model of `JSON.parse` acceptance (the JS built-in)

`executeRequest` runs `JSON.parse(finalCurl.body)` while building the axios
config; a malformed body makes it throw inside the `try`.  The recognizer
below models which texts `JSON.parse` accepts (the JSON grammar of
ECMA-404). -/

/-- JSON insignificant whitespace. -/
def jsonWs (c : Char) : Bool := c = ' ' || c = '\t' || c = '\n' || c = '\r'

/-- Skip JSON whitespace. -/
def skipJsonWs (l : Str) : Str := l.dropWhile jsonWs

/-- Decimal digit. -/
def jsonDigit (c : Char) : Bool := '0' ≤ c && c ≤ '9'

/-- Hexadecimal digit. -/
def jsonHexDigit (c : Char) : Bool :=
  jsonDigit c || ('a' ≤ c && c ≤ 'f') || ('A' ≤ c && c ≤ 'F')

/-- Consume the remainder of a JSON string after its opening double quote;
returns the rest of the input past the closing quote. -/
def jsonStringRest : Str → Option Str
  | [] => none
  | c :: rest =>
    if c = dquote then some rest
    else if c = bslash then
      match rest with
      | e :: rest2 =>
        if e = dquote || e = bslash || e = '/' || e = 'b' || e = 'f' ||
           e = 'n' || e = 'r' || e = 't' then jsonStringRest rest2
        else if e = 'u' then
          match rest2 with
          | h1 :: h2 :: h3 :: h4 :: rest3 =>
            if jsonHexDigit h1 && jsonHexDigit h2 && jsonHexDigit h3 && jsonHexDigit h4
            then jsonStringRest rest3 else none
          | _ => none
        else none
      | [] => none
    else if c.toNat < 32 then none
    else jsonStringRest rest

/-- Consume the integer part of a JSON number. -/
def jsonIntRest : Str → Option Str
  | '0' :: r => some r
  | c :: r => if jsonDigit c then some (r.dropWhile jsonDigit) else none
  | [] => none

/-- Consume an optional JSON fraction part. -/
def jsonFracRest : Str → Option Str
  | '.' :: rest =>
    match rest with
    | d :: r => if jsonDigit d then some (r.dropWhile jsonDigit) else none
    | [] => none
  | l => some l

/-- Consume an optional JSON exponent part. -/
def jsonExpRest : Str → Option Str
  | c :: rest =>
    if c = 'e' || c = 'E' then
      let rest2 := match rest with
        | s :: r => if s = '+' || s = '-' then r else s :: r
        | [] => []
      match rest2 with
      | d :: r => if jsonDigit d then some (r.dropWhile jsonDigit) else none
      | [] => none
    else some (c :: rest)
  | [] => some []

/-- Consume a JSON number (optional minus, integer, fraction, exponent). -/
def jsonNumberRest (l : Str) : Option Str :=
  let l1 := match l with
    | '-' :: r => r
    | _ => l
  (jsonIntRest l1).bind jsonFracRest |>.bind jsonExpRest

mutual

/-- Consume a JSON value (fuel-indexed; callers supply fuel exceeding the
input length, which suffices since every step consumes input). -/
def jsonValueRest : Nat → Str → Option Str
  | 0, _ => none
  | fuel + 1, l =>
    match l with
    | [] => none
    | c :: rest =>
      if c = dquote then jsonStringRest rest
      else if c = obrace then jsonObjectRest fuel (skipJsonWs rest) true
      else if c = '[' then jsonArrayRest fuel (skipJsonWs rest) true
      else if isPrefixL (chars "true") (c :: rest) then some ((c :: rest).drop 4)
      else if isPrefixL (chars "false") (c :: rest) then some ((c :: rest).drop 5)
      else if isPrefixL (chars "null") (c :: rest) then some ((c :: rest).drop 4)
      else jsonNumberRest (c :: rest)

/-- Consume the members and closing brace of a JSON object. -/
def jsonObjectRest : Nat → Str → Bool → Option Str
  | 0, _, _ => none
  | fuel + 1, l, first =>
    match l with
    | [] => none
    | c :: rest =>
      if c = cbrace && first then some rest
      else if c = dquote then
        match jsonStringRest rest with
        | none => none
        | some r1 =>
          match skipJsonWs r1 with
          | ':' :: r2 =>
            match jsonValueRest fuel (skipJsonWs r2) with
            | none => none
            | some r3 =>
              match skipJsonWs r3 with
              | ',' :: r4 => jsonObjectRest fuel (skipJsonWs r4) false
              | c2 :: r4 => if c2 = cbrace then some r4 else none
              | [] => none
          | _ => none
      else none

/-- Consume the elements and closing bracket of a JSON array. -/
def jsonArrayRest : Nat → Str → Bool → Option Str
  | 0, _, _ => none
  | fuel + 1, l, first =>
    match l with
    | [] => none
    | c :: rest =>
      if c = ']' && first then some rest
      else
        match jsonValueRest fuel (c :: rest) with
        | none => none
        | some r1 =>
          match skipJsonWs r1 with
          | ',' :: r2 => jsonArrayRest fuel (skipJsonWs r2) false
          | c2 :: r2 => if c2 = ']' then some r2 else none
          | [] => none

end

/-- Models acceptance of `JSON.parse`: the whole text is one JSON value
surrounded by optional whitespace. -/
def jsonParses (s : Str) : Bool :=
  match jsonValueRest (s.length + 1) (skipJsonWs s) with
  | some r => (skipJsonWs r).isEmpty
  | none => false

/-! ### Request executor (`requestExecutor.ts`)

The network side (`axios.request` with `validateStatus: () => true` and a
fixed 30s timeout) is injected as a `transport` function: it yields `.ok`
with whatever HTTP status was received — axios never rejects on a status
because of `validateStatus` — and `.err` exactly when the promise rejects
(transport/DNS failure or timeout).  `elapsed` models the measured
wall-clock duration per dispatched pair. -/

/-- The response payload of a completed HTTP call. -/
structure HttpResponse where
  status : Nat
  statusText : Str
  headers : List (Str × Str)
  data : Str
deriving Repr, DecidableEq

/-- Result of one injected network call. -/
inductive TransportResult where
  | ok (resp : HttpResponse)
  | err (msg : Str)
deriving Repr, DecidableEq

/-- The `ExecutionResult` record of `requestExecutor.ts`. -/
structure ExecutionResult where
  hostId : Str
  hostValue : Str
  success : Bool
  response : Option HttpResponse
  error : Option Str
  responseTime : Option Nat
deriving Repr, DecidableEq

/-- Models the `SyntaxError` message thrown by `JSON.parse` on malformed
input (its exact wording is runtime-specific and irrelevant here). -/
def jsonParseErrorMsg : Str := chars "Unexpected token in JSON"

/-- Embeds `executeRequest` of `requestExecutor.ts`: resolve the placeholder,
build the config (running `JSON.parse` on a non-empty body — a JS-truthy
body — which can throw into the same `catch`), dispatch, and classify. -/
def executeRequest (transport : ParsedCurl → ParsedHost → TransportResult)
    (elapsed : ParsedCurl → ParsedHost → Nat)
    (parsedCurl : ParsedCurl) (host : ParsedHost) : ExecutionResult :=
  let finalCurl := replaceHostInParsedCurl parsedCurl host
  let time := elapsed finalCurl host
  let bodyParseFails :=
    match finalCurl.body with
    | some b => !b.isEmpty && !jsonParses b
    | none => false
  if bodyParseFails then
    { hostId := host.hostname, hostValue := host.normalized, success := false,
      response := none, error := some jsonParseErrorMsg, responseTime := some time }
  else
    match transport finalCurl host with
    | .ok resp =>
      { hostId := host.hostname, hostValue := host.normalized, success := true,
        response := some resp, error := none, responseTime := some time }
    | .err msg =>
      { hostId := host.hostname, hostValue := host.normalized, success := false,
        response := none, error := some msg, responseTime := some time }

/-- Embeds `executeForAllHosts`: parse once, dispatch across all hosts (the
`Promise.all` preserves host order). -/
def executeForAllHosts (transport : ParsedCurl → ParsedHost → TransportResult)
    (elapsed : ParsedCurl → ParsedHost → Nat)
    (curlCommand : Str) (hosts : List ParsedHost) : List ExecutionResult :=
  hosts.map (executeRequest transport elapsed (parseCurl curlCommand))

/-- The two scheduler modes. -/
inductive ParallelExecutionMode where
  | allAtOnce
  | perCurl
deriving Repr, DecidableEq

/-- One entry of the batch result. -/
structure BatchEntry where
  curlIndex : Nat
  curlCommand : Str
  results : List ExecutionResult
deriving Repr, DecidableEq

/-- Denotes the `Map`-of-arrays grouping of the all-at-once branch: results
are pushed in completion-list order onto their command's bucket, so bucket
`i` is the in-order sublist of pairs carrying index `i`. -/
def jsGroupByIndex (pairs : List (Nat × ExecutionResult)) (i : Nat) : List ExecutionResult :=
  (pairs.filter (fun pr => pr.1 = i)).map (·.2)

/-- Embeds `executeCurlBatch` of `requestExecutor.ts`.  In all-at-once mode
every (command, host) pair is dispatched and the flat result list is
regrouped by command index; in per-curl mode commands run sequentially via
`executeForAllHosts`. -/
def executeCurlBatch (transport : ParsedCurl → ParsedHost → TransportResult)
    (elapsed : ParsedCurl → ParsedHost → Nat)
    (curlCommands : List Str) (hosts : List ParsedHost)
    (mode : ParallelExecutionMode) : List BatchEntry :=
  match mode with
  | .allAtOnce =>
    let allPairs := curlCommands.enum.flatMap
      (fun ic => hosts.map
        (fun h => (ic.1, executeRequest transport elapsed (parseCurl ic.2) h)))
    curlCommands.enum.map
      (fun ic => { curlIndex := ic.1, curlCommand := ic.2,
                   results := jsGroupByIndex allPairs ic.1 })
  | .perCurl =>
    curlCommands.enum.map
      (fun ic => { curlIndex := ic.1, curlCommand := ic.2,
                   results := executeForAllHosts transport elapsed ic.2 hosts })

/-! ### Diff service: JSONPath scoping (`diffService.ts`)

`applyJsonPath` delegates matching to the external `jsonpath-plus` library
(`JSONPath({ path, json, wrap: true })`), modelled below for the dotted /
bracket path fragment this application uses; a malformed expression makes
the library throw, modelled as an `.error` result. -/

/-- Parsed JSON values. -/
inductive JVal where
  | null
  | bool (b : Bool)
  | num (n : Int)
  | str (s : Str)
  | arr (elems : List JVal)
  | obj (fields : List (Str × JVal))
deriving Repr

/-- One JSONPath segment. -/
inductive JpSeg where
  | prop (name : Str)
  | wildcard
  | index (n : Nat)
deriving Repr, DecidableEq

/-- Digits to a natural number. -/
def digitsToNat (ds : Str) : Nat := ds.foldl (fun n c => n * 10 + (c.toNat - 48)) 0

/-- Modelled from the jsonpath-plus expression syntax: a `$` root followed
by `.name`, `[*]` and `[digits]` steps; anything else fails to parse.
Fuel-indexed (every step consumes input). -/
def parseJpSegs : Nat → Str → Option (List JpSeg)
  | 0, _ => none
  | _, [] => some []
  | fuel + 1, l =>
    match l with
    | '.' :: rest =>
      let name := rest.takeWhile (fun c => c ≠ '.' && c ≠ '[')
      if name.isEmpty then none
      else (parseJpSegs fuel (rest.drop name.length)).map (JpSeg.prop name :: ·)
    | '[' :: '*' :: ']' :: rest => (parseJpSegs fuel rest).map (JpSeg.wildcard :: ·)
    | '[' :: rest =>
      let ds := rest.takeWhile jsonDigit
      if ds.isEmpty then none
      else
        match rest.drop ds.length with
        | ']' :: rest2 => (parseJpSegs fuel rest2).map (JpSeg.index (digitsToNat ds) :: ·)
        | _ => none
    | _ => none

/-- Parse a whole JSONPath expression. -/
def parseJsonPath (expr : Str) : Option (List JpSeg) :=
  match expr with
  | '$' :: rest => parseJpSegs (rest.length + 1) rest
  | _ => none

/-- Look up an object field. -/
def jsLookup (key : Str) : List (Str × JVal) → Option JVal
  | [] => none
  | (k, v) :: rest => if k = key then some v else jsLookup key rest

/-- Children selected by one segment from one node (wildcard selects array
elements, or object values). -/
def jpChild (seg : JpSeg) (v : JVal) : List JVal :=
  match seg, v with
  | .prop name, .obj fields =>
    match jsLookup name fields with
    | some x => [x]
    | none => []
  | .index n, .arr elems =>
    match elems.get? n with
    | some x => [x]
    | none => []
  | .wildcard, .arr elems => elems
  | .wildcard, .obj fields => fields.map (·.2)
  | _, _ => []

/-- Evaluate a segment list over a value, collecting matches in document
order. -/
def jpEval (segs : List JpSeg) (v : JVal) : List JVal :=
  segs.foldl (fun nodes seg => nodes.flatMap (jpChild seg)) [v]

/-- Modelled from the jsonpath-plus call `JSONPath(\x7b path, json, wrap:
true \x7d)`: the match list on success, an error when the expression is
invalid (the library throws, caught by the caller). -/
def jsonPathQuery (expression : Str) (data : JVal) : Except Str (List JVal) :=
  match parseJsonPath expression with
  | none => .error (chars "Invalid JSONPath expression")
  | some segs => .ok (jpEval segs data)

/-- The result record of `applyJsonPath` (`\x7b result \x7d` or
`\x7b error \x7d`). -/
inductive JsonPathOutcome where
  | ok (result : JVal)
  | err (msg : Str)
deriving Repr

/-- Embeds `applyJsonPath` of `diffService.ts`: blank expression is a no-op;
an invalid expression reports the thrown message; an empty match list
reports `No matches found`; a single match is unwrapped; several matches
are returned as a list. -/
def applyJsonPath (data : JVal) (expression : Str) : JsonPathOutcome :=
  if trimL expression = [] then .ok data
  else
    match jsonPathQuery expression data with
    | .error m => .err m
    | .ok found =>
      match found with
      | [] => .err (chars "No matches found")
      | [m] => .ok m
      | ms => .ok (.arr ms)

/-! ### Claim-specific definitions and proof-level predicates -/

/-- A template holding only a URL (method GET, no headers, no body). -/
def mkCurl (url : Str) : ParsedCurl :=
  { url := url, method := chars "GET", headers := [], body := none, originalCurl := [] }

/-- The host parsed from the text `example.com`. -/
def exampleHost : ParsedHost := parseHost (chars "example.com")

/-- A template carrying the placeholder in a header value and in the body. -/
def c4Template : ParsedCurl :=
  { url := chars "\x7bhost\x7d/x", method := chars "POST",
    headers := [(chars "X-Target", hostTok)], body := some hostTok,
    originalCurl := chars "curl" }

/-- The sample value of Scenario 5:
`\x7b"items":[\x7b"id":1\x7d,\x7b"id":2\x7d]\x7d`. -/
def sampleItems : JVal :=
  .obj [(chars "items", .arr [.obj [(chars "id", .num 1)], .obj [(chars "id", .num 2)]])]

/-- A transport that always succeeds with status 200. -/
def okTransport : ParsedCurl → ParsedHost → TransportResult :=
  fun _ _ => .ok { status := 200, statusText := chars "OK", headers := [], data := [] }

/-- A template whose body is not valid JSON. -/
def c2BadBodyCurl : ParsedCurl :=
  { url := chars "/x", method := chars "POST", headers := [],
    body := some (chars "a=1"), originalCurl := [] }

/-- Whitespace-normal strings: every whitespace character is a plain space
and is not followed by another whitespace character. -/
def wsNorm : Str → Bool
  | [] => true
  | c :: rest =>
    (if jsIsSpace c then
      decide (c = ' ') && (match rest with | c2 :: _ => !jsIsSpace c2 | [] => true)
     else true) && wsNorm rest

/-- Characters free of parser metacharacters: no whitespace, no quote, no
dash. -/
def plainChar (c : Char) : Bool := !jsIsSpace c && !isQuote c && !(c = '-')

/-- Every character plain. -/
def plainStr (l : Str) : Bool := l.all plainChar

/-- A well-behaved method string: non-empty, word characters only, already
upper-case. -/
def methodOk (m : Str) : Bool :=
  !m.isEmpty && m.all (fun c => isWordChar c && (upperAscii c == c))

/-- A well-behaved header pair: non-empty colon-free plain key, plain
value. -/
def headerOk (kv : Str × Str) : Bool :=
  !kv.1.isEmpty && plainStr kv.1 && kv.1.all (fun c => !(c = ':')) && plainStr kv.2

/-- A well-behaved body: absent, or non-empty and plain. -/
def bodyOk : Option Str → Bool
  | none => true
  | some b => !b.isEmpty && plainStr b

/-- The text the formatter emits for one header whose value needs no
escaping. -/
def hChunk (kv : Str × Str) : Str :=
  chars " -H " ++ squote :: (kv.1 ++ chars ": " ++ kv.2 ++ [squote])

/-- The method part of the canonical formatted command. -/
def mPart (m : Str) : Str :=
  if m ≠ chars "GET" then chars " -X " ++ m else []

/-- The body part of the canonical formatted command. -/
def dPart : Option Str → Str
  | some b => chars " -d " ++ squote :: (b ++ [squote])
  | none => []

/-- The tail of the canonical formatted command (everything after
`curl `). -/
def fmtTail (u m : Str) (hs : List (Str × Str)) (bo : Option Str) : Str :=
  (squote :: (u ++ [squote])) ++ mPart m ++ hs.flatMap hChunk ++ dPart bo

/-- The canonical formatted command for well-behaved components. -/
def fmtF (u m : Str) (hs : List (Str × Str)) (bo : Option Str) : Str :=
  chars "curl " ++ fmtTail u m hs bo

/-- The full matched text of one formatted header. -/
def hFull (kv : Str × Str) : Str :=
  chars "-H " ++ squote :: (kv.1 ++ chars ": " ++ kv.2 ++ [squote])

/-- The capture of one formatted header match. -/
def hCap (kv : Str × Str) : Str := kv.1 ++ chars ": " ++ kv.2

/-- A sample well-behaved command for the C7 witness. -/
def c7SampleCmd : Str :=
  chars "curl -X POST -H 'Accept: application/json' -d 'x=1' http://e/a"

/-! ## Theorems -/

/-! ### Shared string lemmas -/

/-- Length of `dropWhile` never exceeds the input length. -/
theorem length_dropWhile_le (p : Char → Bool) :
    ∀ l : Str, (l.dropWhile p).length ≤ l.length := by
  intro l
  induction l with
  | nil => simp [List.dropWhile]
  | cons c rest ih =>
    simp only [List.dropWhile]
    cases p c <;> simp
    omega

/-- `isPrefixL` agrees with the prefix relation. -/
theorem isPrefixL_iff {p l : Str} : isPrefixL p l = true ↔ p <+: l := by
  simp [isPrefixL, List.isPrefixOf_iff_prefix]

/-- `containsSub` holds exactly when the pattern is a prefix of some suffix. -/
theorem containsSub_iff {pat : Str} : ∀ {l : Str},
    containsSub pat l = true ↔ ∃ s, s <:+ l ∧ pat <+: s := by
  intro l
  induction l with
  | nil =>
    simp only [containsSub, isPrefixL_iff]
    constructor
    · intro h
      exact ⟨[], List.suffix_refl _, h⟩
    · rintro ⟨s, hs, hp⟩
      rw [List.suffix_nil.mp hs] at hp
      exact hp
  | cons c rest ih =>
    simp only [containsSub, Bool.or_eq_true, isPrefixL_iff, ih]
    constructor
    · rintro (h | ⟨s, hs, hp⟩)
      · exact ⟨c :: rest, List.suffix_refl _, h⟩
      · exact ⟨s, hs.trans (List.suffix_cons c rest), hp⟩
    · rintro ⟨s, hs, hp⟩
      rcases List.suffix_cons_iff.mp hs with rfl | hs'
      · exact Or.inl hp
      · exact Or.inr ⟨s, hs', hp⟩

/-- `containsSub` is monotone under the suffix relation. -/
theorem containsSub_suffix_false {pat s l : Str} (hsl : s <:+ l)
    (h : containsSub pat l = false) : containsSub pat s = false := by
  by_contra hne
  have : containsSub pat s = true := by
    cases hcs : containsSub pat s
    · exact absurd hcs hne
    · rfl
  obtain ⟨t, hts, hp⟩ := containsSub_iff.mp this
  have : containsSub pat l = true := containsSub_iff.mpr ⟨t, hts.trans hsl, hp⟩
  rw [h] at this
  exact Bool.false_ne_true this

/-- A suffix of `a ++ b` is a suffix of `b`, or a suffix of `a` glued to all
of `b`. -/
theorem suffix_append_cases {s a b : Str} (h : s <:+ a ++ b) :
    s <:+ b ∨ ∃ s1, s1 <:+ a ∧ s = s1 ++ b := by
  by_cases hlen : s.length ≤ b.length
  · exact Or.inl (List.suffix_of_suffix_length_le h (List.suffix_append a b) hlen)
  · obtain ⟨t, ht⟩ := h
    have hlt : t.length ≤ a.length := by
      have := congrArg List.length ht
      simp only [List.length_append] at this
      omega
    refine Or.inr ⟨a.drop t.length, List.drop_suffix _ _, ?_⟩
    have hsd : s = (a ++ b).drop t.length := by
      have := congrArg (List.drop t.length) ht
      rw [List.drop_left] at this
      exact this
    rw [hsd, List.drop_append_of_le_length hlt]

/-- An occurrence of `pat` in `a ++ b` lies in `a`, lies in `b`, or splits
as a nonempty suffix piece of `a` glued to a nonempty prefix piece of `b`. -/
theorem containsSub_append {pat a b : Str} (h : containsSub pat (a ++ b) = true) :
    containsSub pat a = true ∨ containsSub pat b = true ∨
    ∃ p1 p2, pat = p1 ++ p2 ∧ p1 ≠ [] ∧ p2 ≠ [] ∧ p1 <:+ a ∧ p2 <+: b := by
  obtain ⟨s, hs, hp⟩ := containsSub_iff.mp h
  rcases suffix_append_cases hs with hsb | ⟨s1, hs1, rfl⟩
  · exact Or.inr (Or.inl (containsSub_iff.mpr ⟨s, hsb, hp⟩))
  · by_cases hlen : pat.length ≤ s1.length
    · have hpat_take : pat = (s1 ++ b).take pat.length := List.prefix_iff_eq_take.mp hp
      rw [List.take_append_of_le_length hlen] at hpat_take
      have hps1 : pat <+: s1 := hpat_take ▸ List.take_prefix _ _
      exact Or.inl (containsSub_iff.mpr ⟨s1, hs1, hps1⟩)
    · push_neg at hlen
      have hs1pre : s1 <+: pat :=
        List.prefix_of_prefix_length_le (List.prefix_append _ _) hp (le_of_lt hlen)
      obtain ⟨p2, hp2⟩ := hs1pre
      rcases Decidable.em (s1 = []) with rfl | hne1
      · simp only [List.nil_append] at hp
        exact Or.inr (Or.inl (containsSub_iff.mpr ⟨b, List.suffix_refl _, hp⟩))
      · have hp2b : p2 <+: b := by
          rw [← hp2] at hp
          exact (List.prefix_append_right_inj s1).mp hp
        have hp2ne : p2 ≠ [] := by
          intro hnil
          rw [hnil, List.append_nil] at hp2
          rw [← hp2] at hlen
          omega
        exact Or.inr (Or.inr ⟨s1, p2, hp2.symm, hne1, hp2ne, hs1, hp2b⟩)

/-- No suffix of the placeholder token starts with a slash. -/
theorem hostTok_suffix_head {s : Str} (h : s <:+ hostTok) : s.head? ≠ some '/' := by
  rw [List.suffix_iff_eq_drop] at h
  rw [h]
  generalize hostTok.length - s.length = n
  match n with
  | 0 => decide
  | 1 => decide
  | 2 => decide
  | 3 => decide
  | 4 => decide
  | 5 => decide
  | n + 6 =>
    have h6 : hostTok.length = 6 := rfl
    have : hostTok.drop (n + 6) = [] := List.drop_eq_nil_of_le (by omega)
    simp [this]

/-- Stripping trailing slashes is the identity when the string does not end
with a slash. -/
theorem stripTrailingSlashes_of_no_trailing {l : Str} (h : l.getLast? ≠ some '/') :
    stripTrailingSlashes l = l := by
  unfold stripTrailingSlashes
  rcases hrev : l.reverse with _ | ⟨c, t⟩
  · have : l = [] := by simpa using congrArg List.reverse hrev
    simp [this]
  · have hc : ¬ (c = '/') := by
      intro hcc
      apply h
      rw [← List.head?_reverse, hrev, hcc]
      rfl
    rw [List.dropWhile_cons]
    simp only [decide_eq_true_eq, hc, if_false]
    rw [← hrev, List.reverse_reverse]

/-- If no nonempty suffix of the accumulated (reversed) piece begins an
occurrence of the token, the piece itself contains no token. -/
theorem acc_piece_no_tok {acc l : Str}
    (hinv : ∀ s2, s2 <:+ acc.reverse → s2 ≠ [] → isPrefixL hostTok (s2 ++ l) = false) :
    containsSub hostTok acc.reverse = false := by
  cases hcs : containsSub hostTok acc.reverse
  · rfl
  · obtain ⟨s, hsfx, hpre⟩ := containsSub_iff.mp hcs
    have hne : s ≠ [] := by
      intro h0
      subst h0
      rw [List.prefix_nil] at hpre
      exact absurd hpre (by decide)
    have hf := hinv s hsfx hne
    have ht : isPrefixL hostTok (s ++ l) = true :=
      isPrefixL_iff.mpr (hpre.trans (List.prefix_append _ _))
    rw [hf] at ht
    exact absurd ht (by simp)

/-- Invariant form of the piece lemma for `splitOnHostAux`: provided no
nonempty suffix of the accumulated (reversed) piece begins an occurrence of
the token into the remaining input, no produced piece contains the token. -/
theorem splitOnHostAux_pieces : ∀ (fuel : Nat) (l acc : Str),
    l.length ≤ fuel →
    (∀ s2, s2 <:+ acc.reverse → s2 ≠ [] → isPrefixL hostTok (s2 ++ l) = false) →
    ∀ P ∈ splitOnHostAux fuel l acc, containsSub hostTok P = false := by
  intro fuel
  induction fuel with
  | zero =>
    intro l acc hlen hinv P hP
    have hl : l = [] := List.length_eq_zero.mp (Nat.le_zero.mp hlen)
    subst hl
    simp only [splitOnHostAux, List.mem_singleton] at hP
    subst hP
    exact acc_piece_no_tok hinv
  | succ fuel ih =>
    intro l acc hlen hinv P hP
    match l with
    | [] =>
      simp only [splitOnHostAux, List.mem_singleton] at hP
      subst hP
      exact acc_piece_no_tok hinv
    | c :: rest =>
      simp only [splitOnHostAux] at hP
      by_cases hm : isPrefixL hostTok (c :: rest) = true
      · rw [if_pos hm] at hP
        rcases List.mem_cons.mp hP with hPe | hPrec
        · subst hPe
          exact acc_piece_no_tok hinv
        · refine ih (rest.drop 5) [] ?_ ?_ P hPrec
          · have : (rest.drop 5).length ≤ rest.length := by
              simp only [List.length_drop]; omega
            simp only [List.length_cons] at hlen
            omega
          · intro s2 hs2 hne
            simp only [List.reverse_nil, List.suffix_nil] at hs2
            exact absurd hs2 hne
      · rw [if_neg hm] at hP
        refine ih rest (c :: acc) ?_ ?_ P hP
        · simp only [List.length_cons] at hlen
          omega
        · intro s2 hs2 hne
          simp only [List.reverse_cons] at hs2
          rcases suffix_append_cases hs2 with hsc | ⟨s1, hs1, rfl⟩
          · have hs2c : s2 = [c] := by
              rcases (List.suffix_cons_iff.mp hsc) with rfl | hnil
              · rfl
              · rw [List.suffix_nil.mp hnil] at hne
                exact absurd rfl hne
            subst hs2c
            simp only [List.singleton_append]
            cases hq : isPrefixL hostTok (c :: rest)
            · rfl
            · exact absurd hq hm
          · by_cases hs1ne : s1 = []
            · subst hs1ne
              simp only [List.nil_append, List.singleton_append]
              cases hq : isPrefixL hostTok (c :: rest)
              · rfl
              · exact absurd hq hm
            · have := hinv s1 hs1 hs1ne
              simpa [List.append_assoc] using this

/-- No piece produced by `splitOnHost` contains the placeholder token. -/
theorem splitOnHost_pieces (u : Str) :
    ∀ P ∈ splitOnHost u, containsSub hostTok P = false := by
  intro P hP
  refine splitOnHostAux_pieces u.length u [] le_rfl ?_ P hP
  intro s2 hs2 hne
  simp only [List.reverse_nil, List.suffix_nil] at hs2
  exact absurd hs2 hne

/-- The second split piece (`parts[1] || ''`) contains no placeholder
token. -/
theorem splitOnHost_getD_one (u : Str) :
    containsSub hostTok ((splitOnHost u).getD 1 []) = false := by
  by_cases hlen : 1 < (splitOnHost u).length
  · have hmem : (splitOnHost u).getD 1 [] ∈ splitOnHost u := by
      rw [List.getD_eq_getElem _ _ hlen]
      exact List.getElem_mem _
    exact splitOnHost_pieces u _ hmem
  · rw [List.getD_eq_default _ _ (by omega)]
    decide

/-- Stripping leading slashes yields a string that does not start with a
slash. -/
theorem head_stripLeadingSlashes (l : Str) : (stripLeadingSlashes l).head? ≠ some '/' := by
  induction l with
  | nil => simp [stripLeadingSlashes]
  | cons c rest ih =>
    simp only [stripLeadingSlashes, List.dropWhile_cons] at *
    by_cases hcsl : c = '/'
    · simpa [hcsl] using ih
    · simp [hcsl]

/-- The result of stripping leading slashes contains no placeholder token
when the input contains none. -/
theorem stripLeadingSlashes_no_tok {l : Str} (h : containsSub hostTok l = false) :
    containsSub hostTok (stripLeadingSlashes l) = false :=
  containsSub_suffix_false (List.dropWhile_suffix _) h

/-! ### C1: placeholder resolution in the URL -/

/-- C1 counterexample: for the template URL `https://\x7bhost\x7d/users` —
which contains the placeholder token — resolution against the host
`example.com` yields a URL that does not start with the host's canonical
base URL (`http://example.com`): the scheme-prefixed branch substitutes only
the bare hostname.  Moreover with two placeholder occurrences, one
occurrence survives resolution. -/
theorem c1_counterexample :
    containsSub hostTok (mkCurl (chars "https://\x7bhost\x7d/users")).url = true ∧
    isPrefixL exampleHost.normalized
      (replaceHostInParsedCurl (mkCurl (chars "https://\x7bhost\x7d/users")) exampleHost).url = false ∧
    containsSub hostTok
      (replaceHostInParsedCurl (mkCurl (chars "https://\x7bhost\x7d/a/\x7bhost\x7d")) exampleHost).url = true := by
  decide

/-- C1 (amended): when the template URL contains the placeholder token and
does not begin with an http/https scheme prefix, and the host's canonical
base URL is placeholder-free with no trailing slash, the resolved URL is the
base joined to the post-placeholder remainder by exactly one slash: it
equals `base ++ "/" ++ remainder-without-leading-slashes`, starts with the
base followed by one slash, contains no placeholder token, and the remainder
part does not start with a slash. -/
theorem c1_resolve_joins_base_and_suffix (p : ParsedCurl) (h : ParsedHost)
    (hc : containsSub hostTok p.url = true)
    (hs : startsWithHttpScheme p.url = false)
    (hn : containsSub hostTok h.normalized = false)
    (ht : h.normalized.getLast? ≠ some '/') :
    (replaceHostInParsedCurl p h).url
      = h.normalized ++ '/' :: stripLeadingSlashes ((splitOnHost p.url).getD 1 []) ∧
    isPrefixL (h.normalized ++ ['/']) (replaceHostInParsedCurl p h).url = true ∧
    containsSub hostTok (replaceHostInParsedCurl p h).url = false ∧
    (stripLeadingSlashes ((splitOnHost p.url).getD 1 [])).head? ≠ some '/' := by
  have hurl : (replaceHostInParsedCurl p h).url
      = stripTrailingSlashes h.normalized ++
        '/' :: stripLeadingSlashes ((splitOnHost p.url).getD 1 []) := by
    simp only [replaceHostInParsedCurl, hs, hc]
    simp
  rw [stripTrailingSlashes_of_no_trailing ht] at hurl
  refine ⟨hurl, ?_, ?_, head_stripLeadingSlashes _⟩
  · rw [hurl]
    apply isPrefixL_iff.mpr
    have : h.normalized ++ '/' :: stripLeadingSlashes ((splitOnHost p.url).getD 1 [])
        = (h.normalized ++ ['/']) ++ stripLeadingSlashes ((splitOnHost p.url).getD 1 []) := by
      simp
    rw [this]
    exact List.prefix_append _ _
  · rw [hurl]
    have hpath : containsSub hostTok (stripLeadingSlashes ((splitOnHost p.url).getD 1 [])) = false :=
      stripLeadingSlashes_no_tok (splitOnHost_getD_one p.url)
    cases hval : containsSub hostTok
        (h.normalized ++ '/' :: stripLeadingSlashes ((splitOnHost p.url).getD 1 []))
    · rfl
    · exfalso
      rcases containsSub_append hval with hA | hB | ⟨p1, p2, hsplit, hp1ne, hp2ne, hp1, hp2⟩
      · rw [hn] at hA
        exact Bool.false_ne_true hA
      · have hB' : containsSub hostTok
            (['/'] ++ stripLeadingSlashes ((splitOnHost p.url).getD 1 [])) = true := by
          simpa using hB
        rcases containsSub_append hB' with h1 | h2 | ⟨q1, q2, hq, hq1ne, hq2ne, hq1, hq2⟩
        · exact absurd h1 (by decide)
        · rw [hpath] at h2
          exact Bool.false_ne_true h2
        · have hq1c : q1 = ['/'] := by
            rcases List.suffix_cons_iff.mp hq1 with rfl | hnil
            · rfl
            · rw [List.suffix_nil.mp hnil] at hq1ne
              exact absurd rfl hq1ne
          subst hq1c
          have : hostTok.head? = some '/' := by
            rw [hq]
            rfl
          exact absurd this (by decide)
      · have hp2sfx : p2 <:+ hostTok := hsplit ▸ List.suffix_append p1 p2
        have hp2head : p2.head? = some '/' := by
          obtain ⟨t, ht2⟩ := hp2
          match p2, ht2 with
          | [], _ => exact absurd rfl hp2ne
          | c :: p2t, ht2 =>
            have : c = '/' := by
              have := congrArg List.head? ht2
              simpa using this
            rw [this]
            rfl
        exact absurd hp2head (hostTok_suffix_head hp2sfx)

/-- C1 witness: the amended theorem applied to the template URL
`\x7bhost\x7d/users` and the host `api.example.com`. -/
theorem c1_witness :
    (replaceHostInParsedCurl (mkCurl (chars "\x7bhost\x7d/users")) (parseHost (chars "api.example.com"))).url
      = (parseHost (chars "api.example.com")).normalized ++
        '/' :: stripLeadingSlashes ((splitOnHost (mkCurl (chars "\x7bhost\x7d/users")).url).getD 1 []) ∧
    isPrefixL ((parseHost (chars "api.example.com")).normalized ++ ['/'])
      (replaceHostInParsedCurl (mkCurl (chars "\x7bhost\x7d/users")) (parseHost (chars "api.example.com"))).url = true ∧
    containsSub hostTok
      (replaceHostInParsedCurl (mkCurl (chars "\x7bhost\x7d/users")) (parseHost (chars "api.example.com"))).url = false ∧
    (stripLeadingSlashes ((splitOnHost (mkCurl (chars "\x7bhost\x7d/users")).url).getD 1 [])).head? ≠ some '/' :=
  c1_resolve_joins_base_and_suffix (mkCurl (chars "\x7bhost\x7d/users"))
    (parseHost (chars "api.example.com")) (by decide) (by decide) (by decide) (by decide)

/-! ### C4: placeholder substitution in non-URL fields -/

/-- C4 counterexample: resolving a template whose header value and body hold
the placeholder token leaves both untouched — the token is still present
afterwards, so resolution does not substitute into headers or body. -/
theorem c4_counterexample :
    ((replaceHostInParsedCurl c4Template exampleHost).headers.map
      (fun kv => containsSub hostTok kv.2)) = [true] ∧
    ((replaceHostInParsedCurl c4Template exampleHost).body.map
      (containsSub hostTok)) = some true := by
  decide

/-- C4 (amended): `replaceHostInParsedCurl` rewrites only the URL; method,
header map, body and source text pass through unchanged, with placeholder
occurrences in them preserved rather than substituted. -/
theorem c4_non_url_fields_pass_through (p : ParsedCurl) (h : ParsedHost) :
    (replaceHostInParsedCurl p h).method = p.method ∧
    (replaceHostInParsedCurl p h).headers = p.headers ∧
    (replaceHostInParsedCurl p h).body = p.body ∧
    (replaceHostInParsedCurl p h).originalCurl = p.originalCurl := by
  unfold replaceHostInParsedCurl
  by_cases h1 : startsWithHttpScheme p.url = true
  · simp [h1]
  · by_cases h2 : containsSub hostTok p.url = true
    · simp [h1, h2]
    · cases hres : jsUrlResolve p.url h.normalized <;> simp [h1, h2, hres]

/-! ### C5: the no-scheme host scenario -/

/-- C5: the command `curl \x7bhost\x7d/users` resolved against the host text
`api.example.com` (no scheme) produces `http://api.example.com/users`: host
normalization defaults the missing scheme to http, and resolution joins the
base URL with the path. -/
theorem c5_scenario_resolution :
    (parseHost (chars "api.example.com")).normalized = chars "http://api.example.com" ∧
    (replaceHostInParsedCurl (parseCurl (chars "curl \x7bhost\x7d/users"))
        (parseHost (chars "api.example.com"))).url
      = chars "http://api.example.com/users" := by
  decide

/-! ### C8: JSONPath scoping contract -/

/-- C8: `applyJsonPath` is a no-op for blank expressions, unwraps a single
match, returns several matches as a list (Scenario 5 yields `[1,2]`), and
turns both an invalid expression and a zero-match expression into typed
errors with distinct messages. -/
theorem c8_applyJsonPath_contract :
    (∀ (data : JVal) (expr : Str), trimL expr = [] → applyJsonPath data expr = .ok data) ∧
    (∀ (data : JVal) (expr : Str) (m : JVal), trimL expr ≠ [] →
      jsonPathQuery expr data = .ok [m] → applyJsonPath data expr = .ok m) ∧
    (∀ (data : JVal) (expr : Str) (m1 m2 : JVal) (ms : List JVal), trimL expr ≠ [] →
      jsonPathQuery expr data = .ok (m1 :: m2 :: ms) →
      applyJsonPath data expr = .ok (.arr (m1 :: m2 :: ms))) ∧
    (∀ (data : JVal) (expr : Str), trimL expr ≠ [] →
      jsonPathQuery expr data = .ok [] →
      applyJsonPath data expr = .err (chars "No matches found")) ∧
    (∀ (data : JVal) (expr : Str) (msg : Str), trimL expr ≠ [] →
      jsonPathQuery expr data = .error msg →
      applyJsonPath data expr = .err msg ∧ msg ≠ chars "No matches found") ∧
    applyJsonPath sampleItems (chars "$.items[*].id") = .ok (.arr [.num 1, .num 2]) := by
  refine ⟨?_, ?_, ?_, ?_, ?_, by rfl⟩
  · intro data expr he
    simp [applyJsonPath, he]
  · intro data expr m hne hq
    simp [applyJsonPath, hne, hq]
  · intro data expr m1 m2 ms hne hq
    simp [applyJsonPath, hne, hq]
  · intro data expr hne hq
    simp [applyJsonPath, hne, hq]
  · intro data expr msg hne hq
    refine ⟨by simp [applyJsonPath, hne, hq], ?_⟩
    have : msg = chars "Invalid JSONPath expression" := by
      unfold jsonPathQuery at hq
      cases hp : parseJsonPath expr with
      | none => rw [hp] at hq; exact (Except.error.injEq _ _).mp hq.symm
      | some segs => rw [hp] at hq; exact absurd hq (by simp)
    rw [this]
    decide

/-- C8 witness: the contract applied to the sample value at concrete
expressions (blank, single match, zero matches, invalid syntax). -/
theorem c8_witness :
    applyJsonPath sampleItems (chars "  ") = .ok sampleItems ∧
    applyJsonPath sampleItems (chars "$.items[0].id") = .ok (.num 1) ∧
    applyJsonPath sampleItems (chars "$.nope") = .err (chars "No matches found") ∧
    applyJsonPath sampleItems (chars "$[[[bad") = .err (chars "Invalid JSONPath expression") :=
  ⟨c8_applyJsonPath_contract.1 sampleItems (chars "  ") (by decide),
   c8_applyJsonPath_contract.2.1 sampleItems (chars "$.items[0].id") (.num 1) (by decide) (by rfl),
   c8_applyJsonPath_contract.2.2.2.1 sampleItems (chars "$.nope") (by decide) (by rfl),
   (c8_applyJsonPath_contract.2.2.2.2.1 sampleItems (chars "$[[[bad")
     (chars "Invalid JSONPath expression") (by decide) (by rfl)).1⟩

/-! ### C2: outcome classification of `executeRequest` -/

/-- C2 counterexample: with a transport that never fails (always `.ok`), a
template whose body `a=1` is not JSON still yields a failure outcome —
`JSON.parse` throws while the config is built — so failures are not produced
only by transport/DNS errors or timeouts. -/
theorem c2_counterexample :
    (executeRequest okTransport (fun _ _ => 5) c2BadBodyCurl exampleHost).success = false ∧
    ∀ pc h, okTransport pc h
      = .ok { status := 200, statusText := chars "OK", headers := [], data := [] } :=
  ⟨by decide, fun _ _ => rfl⟩

/-- C2 (amended): elapsed time is recorded on every outcome; whenever the
transport returns a response — any status, 4xx/5xx included — and the body
does not make `JSON.parse` throw, the outcome is a success carrying that
response; and a failure outcome arises only from a transport error or from a
present, non-empty body that is not valid JSON. -/
theorem c2_outcome_classification
    (transport : ParsedCurl → ParsedHost → TransportResult)
    (elapsed : ParsedCurl → ParsedHost → Nat)
    (p : ParsedCurl) (h : ParsedHost) :
    ((executeRequest transport elapsed p h).responseTime
        = some (elapsed (replaceHostInParsedCurl p h) h)) ∧
    (∀ resp, transport (replaceHostInParsedCurl p h) h = .ok resp →
      (match (replaceHostInParsedCurl p h).body with
       | some b => !b.isEmpty && !jsonParses b
       | none => false) = false →
      (executeRequest transport elapsed p h).success = true ∧
      (executeRequest transport elapsed p h).response = some resp) ∧
    ((executeRequest transport elapsed p h).success = false →
      (∃ msg, transport (replaceHostInParsedCurl p h) h = .err msg) ∨
      (∃ b, (replaceHostInParsedCurl p h).body = some b ∧ b ≠ [] ∧ jsonParses b = false)) := by
  refine ⟨?_, ?_, ?_⟩
  · by_cases hb : (match (replaceHostInParsedCurl p h).body with
        | some b => !b.isEmpty && !jsonParses b
        | none => false) = true
    · simp [executeRequest, hb]
    · rw [Bool.not_eq_true] at hb
      cases htr : transport (replaceHostInParsedCurl p h) h <;> simp [executeRequest, hb, htr]
  · intro resp hok hbf
    constructor <;> simp [executeRequest, hbf, hok]
  · intro hfail
    by_cases hb : (match (replaceHostInParsedCurl p h).body with
        | some b => !b.isEmpty && !jsonParses b
        | none => false) = true
    · right
      cases hbody : (replaceHostInParsedCurl p h).body with
      | none => rw [hbody] at hb; exact absurd hb (by simp)
      | some b =>
        rw [hbody] at hb
        simp only [Bool.and_eq_true, Bool.not_eq_true'] at hb
        refine ⟨b, rfl, ?_, hb.2⟩
        intro hnil
        rw [hnil] at hb
        simp at hb
    · rw [Bool.not_eq_true] at hb
      cases htr : transport (replaceHostInParsedCurl p h) h with
      | ok resp =>
        exfalso
        simp [executeRequest, hb, htr] at hfail
      | err msg => exact Or.inl ⟨msg, rfl⟩

/-- C2 witness: the classification applied to a transport that returns
status 500 — the outcome is a success carrying the 500 response, with its
elapsed time recorded. -/
theorem c2_witness :
    (executeRequest
        (fun _ _ => .ok { status := 500, statusText := chars "Server Error", headers := [], data := [] })
        (fun _ _ => 7) (mkCurl (chars "/x")) exampleHost).success = true ∧
    (executeRequest
        (fun _ _ => .ok { status := 500, statusText := chars "Server Error", headers := [], data := [] })
        (fun _ _ => 7) (mkCurl (chars "/x")) exampleHost).response
      = some { status := 500, statusText := chars "Server Error", headers := [], data := [] } ∧
    (executeRequest
        (fun _ _ => .ok { status := 500, statusText := chars "Server Error", headers := [], data := [] })
        (fun _ _ => 7) (mkCurl (chars "/x")) exampleHost).responseTime = some 7 :=
  ⟨((c2_outcome_classification _ _ (mkCurl (chars "/x")) exampleHost).2.1 _ rfl (by decide)).1,
   ((c2_outcome_classification _ _ (mkCurl (chars "/x")) exampleHost).2.1 _ rfl (by decide)).2,
   (c2_outcome_classification _ _ (mkCurl (chars "/x")) exampleHost).1⟩

/-! ### C3 and C9: scheduler grouping -/

/-- Membership in `enumFrom` bounds the index from below. -/
theorem enumFrom_mem_ge : ∀ (cmds : List Str) (n i : Nat) (c : Str),
    (i, c) ∈ List.enumFrom n cmds → n ≤ i := by
  intro cmds
  induction cmds with
  | nil => intro n i c h; simp [List.enumFrom] at h
  | cons c0 cs ih =>
    intro n i c h
    simp only [List.enumFrom, List.mem_cons] at h
    rcases h with h | h
    · injection h with h1 _
      omega
    · exact Nat.le_of_succ_le (ih (n + 1) i c h)

/-- `jsGroupByIndex` distributes over list append. -/
theorem jsGroupByIndex_append (A B : List (Nat × ExecutionResult)) (i : Nat) :
    jsGroupByIndex (A ++ B) i = jsGroupByIndex A i ++ jsGroupByIndex B i := by
  simp [jsGroupByIndex, List.filter_append]

theorem jsGroupByIndex_block (hosts : List ParsedHost) (r : ParsedHost → ExecutionResult) (j i : Nat) :
    jsGroupByIndex (hosts.map (fun h => (j, r h))) i = if j = i then hosts.map r else [] := by
  induction hosts with
  | nil => by_cases hj : j = i <;> simp [jsGroupByIndex, hj]
  | cons h hs ih =>
    by_cases hj : j = i
    · subst hj
      simp [jsGroupByIndex, List.filter_cons] at ih ⊢
      exact ih
    · simp [jsGroupByIndex, List.filter_cons, hj] at ih ⊢

theorem jsGroupByIndex_flat_lt (transport : ParsedCurl → ParsedHost → TransportResult)
    (elapsed : ParsedCurl → ParsedHost → Nat) (hosts : List ParsedHost) :
    ∀ (cs : List Str) (n i : Nat), i < n →
    jsGroupByIndex
      ((List.enumFrom n cs).flatMap
        (fun ic => hosts.map
          (fun h => (ic.1, executeRequest transport elapsed (parseCurl ic.2) h)))) i = [] := by
  intro cs
  induction cs with
  | nil => intro n i _; simp [List.enumFrom, jsGroupByIndex]
  | cons c0 cs ih =>
    intro n i hlt
    simp only [List.enumFrom, List.flatMap_cons]
    rw [jsGroupByIndex_append, jsGroupByIndex_block, ih (n + 1) i (by omega)]
    simp [show ¬(n = i) by omega]

theorem jsGroupByIndex_enumFrom (transport : ParsedCurl → ParsedHost → TransportResult)
    (elapsed : ParsedCurl → ParsedHost → Nat) (hosts : List ParsedHost) :
    ∀ (cmds : List Str) (n i : Nat) (c : Str), (i, c) ∈ List.enumFrom n cmds →
      jsGroupByIndex
        ((List.enumFrom n cmds).flatMap
          (fun ic => hosts.map
            (fun h => (ic.1, executeRequest transport elapsed (parseCurl ic.2) h)))) i
      = hosts.map (executeRequest transport elapsed (parseCurl c)) := by
  intro cmds
  induction cmds with
  | nil => intro n i c h; simp [List.enumFrom] at h
  | cons c0 cs ih =>
    intro n i c h
    simp only [List.enumFrom, List.mem_cons] at h
    simp only [List.enumFrom, List.flatMap_cons]
    rw [jsGroupByIndex_append, jsGroupByIndex_block]
    rcases h with h | h
    · injection h with h1 h2
      subst h1
      subst h2
      rw [jsGroupByIndex_flat_lt transport elapsed hosts cs (i + 1) i (by omega)]
      simp
    · have hgt : n < i := enumFrom_mem_ge cs (n + 1) i c h
      rw [ih (n + 1) i c h]
      simp [show ¬(n = i) by omega]


/-- Shared core: the two scheduler modes produce identical batch results
whenever the injected per-request transport and timing behave as functions
of the resolved request and host. -/
theorem executeCurlBatch_mode_eq (transport : ParsedCurl → ParsedHost → TransportResult)
    (elapsed : ParsedCurl → ParsedHost → Nat)
    (cmds : List Str) (hosts : List ParsedHost) :
    executeCurlBatch transport elapsed cmds hosts .allAtOnce
      = executeCurlBatch transport elapsed cmds hosts .perCurl := by
  unfold executeCurlBatch executeForAllHosts
  have henum : cmds.enum = List.enumFrom 0 cmds := rfl
  rw [henum]
  apply List.map_congr_left
  intro ic hic
  have hmem : (ic.1, ic.2) ∈ List.enumFrom 0 cmds := by
    rw [← henum]
    simpa using hic
  exact congrArg (BatchEntry.mk ic.1 ic.2)
    (jsGroupByIndex_enumFrom transport elapsed hosts cmds 0 ic.1 ic.2 hmem)

/-- C3: for every command list, host list and injected per-request behavior,
the all-at-once and per-curl modes of `executeCurlBatch` return identical
final groupings (same entries, same order, same per-host results). -/
theorem c3_mode_grouping_equivalence (transport : ParsedCurl → ParsedHost → TransportResult)
    (elapsed : ParsedCurl → ParsedHost → Nat)
    (cmds : List Str) (hosts : List ParsedHost) :
    executeCurlBatch transport elapsed cmds hosts .allAtOnce
      = executeCurlBatch transport elapsed cmds hosts .perCurl :=
  executeCurlBatch_mode_eq transport elapsed cmds hosts

/-- Both modes produce, entry by entry, the per-template record with one
result per host in host order. -/
theorem executeCurlBatch_get (transport : ParsedCurl → ParsedHost → TransportResult)
    (elapsed : ParsedCurl → ParsedHost → Nat)
    (cmds : List Str) (hosts : List ParsedHost) (mode : ParallelExecutionMode) :
    (executeCurlBatch transport elapsed cmds hosts mode).length = cmds.length ∧
    ∀ i (hi : i < (executeCurlBatch transport elapsed cmds hosts mode).length),
      (executeCurlBatch transport elapsed cmds hosts mode).get ⟨i, hi⟩
        = { curlIndex := i, curlCommand := cmds.getD i [],
            results := hosts.map (executeRequest transport elapsed (parseCurl (cmds.getD i []))) } := by
  have hper : executeCurlBatch transport elapsed cmds hosts mode
      = executeCurlBatch transport elapsed cmds hosts .perCurl := by
    cases mode
    · exact executeCurlBatch_mode_eq transport elapsed cmds hosts
    · rfl
  rw [hper]
  constructor
  · simp [executeCurlBatch, executeForAllHosts, List.enum_length]
  · intro i hi
    have hlen : i < cmds.length := by
      simpa [executeCurlBatch, executeForAllHosts, List.enum_length] using hi
    simp only [executeCurlBatch, executeForAllHosts]
    rw [List.get_eq_getElem, List.getElem_map, List.getElem_enum,
      List.getD_eq_getElem _ _ hlen]


/-- C9: in either mode, the batch result has exactly one entry per template
in input order, each holding exactly one outcome per host in input host
order — the outcome of that (template, host) pair. -/
theorem c9_one_outcome_per_pair (transport : ParsedCurl → ParsedHost → TransportResult)
    (elapsed : ParsedCurl → ParsedHost → Nat)
    (cmds : List Str) (hosts : List ParsedHost) (mode : ParallelExecutionMode) :
    (executeCurlBatch transport elapsed cmds hosts mode).length = cmds.length ∧
    ∀ i (hi : i < (executeCurlBatch transport elapsed cmds hosts mode).length),
      (executeCurlBatch transport elapsed cmds hosts mode).get ⟨i, hi⟩
        = { curlIndex := i, curlCommand := cmds.getD i [],
            results := hosts.map (executeRequest transport elapsed (parseCurl (cmds.getD i []))) } :=
  executeCurlBatch_get transport elapsed cmds hosts mode

/-- C9 witness: a two-command, one-host batch in all-at-once mode, with the
second entry inspected. -/
theorem c9_witness :
    (executeCurlBatch okTransport (fun _ _ => 3)
        [chars "curl /a", chars "curl /b"] [exampleHost] .allAtOnce).length = 2 ∧
    (executeCurlBatch okTransport (fun _ _ => 3)
        [chars "curl /a", chars "curl /b"] [exampleHost] .allAtOnce).get
        ⟨1, by
          rw [(c9_one_outcome_per_pair okTransport (fun _ _ => 3)
            [chars "curl /a", chars "curl /b"] [exampleHost] .allAtOnce).1]
          simp⟩
      = { curlIndex := 1, curlCommand := [chars "curl /a", chars "curl /b"].getD 1 [],
          results := [exampleHost].map
            (executeRequest okTransport (fun _ _ => 3)
              (parseCurl ([chars "curl /a", chars "curl /b"].getD 1 []))) } :=
  ⟨(c9_one_outcome_per_pair okTransport (fun _ _ => 3)
      [chars "curl /a", chars "curl /b"] [exampleHost] .allAtOnce).1,
   (c9_one_outcome_per_pair okTransport (fun _ _ => 3)
      [chars "curl /a", chars "curl /b"] [exampleHost] .allAtOnce).2 1 _⟩

/-! ### C10: headers are captured only from quoted arguments -/

/-- Characters of any piece produced by `splitOnCharAux` come from the
input or the accumulator. -/
theorem splitOnCharAux_mem (sep : Char) : ∀ (l acc : Str) (P : Str),
    P ∈ splitOnCharAux sep l acc → ∀ c ∈ P, c ∈ l ∨ c ∈ acc := by
  intro l
  induction l with
  | nil =>
    intro acc P hP c hc
    simp only [splitOnCharAux, List.mem_singleton] at hP
    subst hP
    exact Or.inr (List.mem_reverse.mp hc)
  | cons c0 rest ih =>
    intro acc P hP c hc
    simp only [splitOnCharAux] at hP
    by_cases hsep : c0 = sep
    · rw [if_pos hsep] at hP
      rcases List.mem_cons.mp hP with rfl | hPrec
      · exact Or.inr (List.mem_reverse.mp hc)
      · rcases ih [] P hPrec c hc with h | h
        · exact Or.inl (List.mem_cons_of_mem _ h)
        · simp at h
    · rw [if_neg hsep] at hP
      rcases ih (c0 :: acc) P hP c hc with h | h
      · exact Or.inl (List.mem_cons_of_mem _ h)
      · rcases List.mem_cons.mp h with rfl | h
        · exact Or.inl (List.mem_cons_self _ _)
        · exact Or.inr h

/-- `trimStartL` keeps only characters of the input. -/
theorem trimStartL_subset {l : Str} : ∀ c ∈ trimStartL l, c ∈ l :=
  fun _ hc => (List.dropWhile_suffix _).subset hc

/-- `trimEndL` keeps only characters of the input. -/
theorem trimEndL_subset {l : Str} : ∀ c ∈ trimEndL l, c ∈ l := by
  intro c hc
  unfold trimEndL at hc
  rw [List.mem_reverse] at hc
  exact List.mem_reverse.mp ((List.dropWhile_suffix _).subset hc)

/-- `trimL` keeps only characters of the input. -/
theorem trimL_subset {l : Str} : ∀ c ∈ trimL l, c ∈ l :=
  fun _ hc => trimStartL_subset _ (trimEndL_subset _ hc)

/-- `normalizeLine` keeps only characters of the input. -/
theorem normalizeLine_subset {l : Str} : ∀ c ∈ normalizeLine l, c ∈ l := by
  intro c
  show c ∈ (if (trimEndL l).getLast? = some bslash
      then trimEndL (trimEndL l).dropLast else trimEndL l) → c ∈ l
  intro hc
  split at hc
  · exact trimEndL_subset _ (List.dropLast_subset _ (trimEndL_subset _ hc))
  · exact trimEndL_subset _ hc

/-- Characters of a join come from the separator or from some piece. -/
theorem joinWith_mem (sep : Str) : ∀ (pieces : List Str) (c : Char),
    c ∈ joinWith sep pieces → c ∈ sep ∨ ∃ P ∈ pieces, c ∈ P := by
  intro pieces
  induction pieces with
  | nil => intro c hc; simp [joinWith] at hc
  | cons x xs ih =>
    intro c hc
    match xs, hc with
    | [], hc => exact Or.inr ⟨x, List.mem_singleton_self x, hc⟩
    | y :: ys, hc =>
      simp only [joinWith, List.append_assoc, List.mem_append] at hc
      rcases hc with hc | hc | hc
      · exact Or.inr ⟨x, List.mem_cons_self _ _, hc⟩
      · exact Or.inl hc
      · rcases ih c hc with h | ⟨P, hPmem, hcP⟩
        · exact Or.inl h
        · exact Or.inr ⟨P, List.mem_cons_of_mem _ hPmem, hcP⟩

/-- Characters of a whitespace-collapsed string are spaces or input
characters. -/
theorem collapseWsAux_mem : ∀ (l : Str) (b : Bool) (c : Char),
    c ∈ collapseWsAux b l → c = ' ' ∨ c ∈ l := by
  intro l
  induction l with
  | nil => intro b c hc; simp [collapseWsAux] at hc
  | cons c0 rest ih =>
    intro b c hc
    simp only [collapseWsAux] at hc
    by_cases hsp : jsIsSpace c0 = true
    · rw [if_pos hsp] at hc
      by_cases hb : b = true
      · rw [if_pos hb] at hc
        rcases ih true c hc with h | h
        · exact Or.inl h
        · exact Or.inr (List.mem_cons_of_mem _ h)
      · rw [if_neg hb] at hc
        rcases List.mem_cons.mp hc with rfl | hc
        · exact Or.inl rfl
        · rcases ih true c hc with h | h
          · exact Or.inl h
          · exact Or.inr (List.mem_cons_of_mem _ h)
    · rw [if_neg hsp] at hc
      rcases List.mem_cons.mp hc with rfl | hc
      · exact Or.inr (List.mem_cons_self _ _)
      · rcases ih false c hc with h | h
        · exact Or.inl h
        · exact Or.inr (List.mem_cons_of_mem _ h)

/-- Characters of a normalized command are spaces or input characters. -/
theorem normalizeCurlCommand_mem (raw : Str) :
    ∀ c ∈ normalizeCurlCommand raw, c = ' ' ∨ c ∈ raw := by
  intro c hc
  unfold normalizeCurlCommand at hc
  have hc1 := trimL_subset _ hc
  rcases collapseWsAux_mem _ false c hc1 with h | h
  · exact Or.inl h
  · rcases joinWith_mem (chars " ") _ c h with h2 | ⟨P, hPmem, hcP⟩
    · simp only [chars] at h2
      exact Or.inl (by simpa using h2)
    · obtain ⟨Q, hQmem, rfl⟩ := List.mem_map.mp hPmem
      have := normalizeLine_subset _ hcP
      rcases splitOnCharAux_mem '\n' raw [] Q hQmem c this with h3 | h3
      · exact Or.inr h3
      · simp at h3

/-- `stripCurlPrefix` keeps only characters of the input. -/
theorem stripCurlPrefix_subset {l : Str} : ∀ c ∈ stripCurlPrefix l, c ∈ l := by
  intro c hc
  unfold stripCurlPrefix at hc
  split at hc
  · split at hc
    · rename_i c0 rest heq
      split at hc
      · have h1 : c ∈ c0 :: rest := List.mem_cons_of_mem _ ((List.dropWhile_suffix _).subset hc)
        rw [← heq] at h1
        exact List.drop_subset _ _ h1
      · exact hc
    · exact hc
  · exact hc

/-- Erasing a match (`replaceFirstSub` with empty replacement) keeps only
characters of the input. -/
theorem replaceFirstSub_erase_subset (pat : Str) : ∀ (l : Str),
    ∀ c ∈ replaceFirstSub pat [] l, c ∈ l := by
  intro l
  induction l with
  | nil =>
    intro c hc
    simp only [replaceFirstSub] at hc
    split at hc <;> simp at hc
  | cons c0 rest ih =>
    intro c hc
    simp only [replaceFirstSub] at hc
    split at hc
    · simp only [List.nil_append] at hc
      exact List.drop_subset _ _ hc
    · rcases List.mem_cons.mp hc with rfl | hc
      · exact List.mem_cons_self _ _
      · exact List.mem_cons_of_mem _ (ih c hc)

/-- On a quote-free string the header regex has no match at any position. -/
theorem matchHeaderAt_none_noQuote {l : Str} (h : ∀ c ∈ l, isQuote c = false) :
    matchHeaderAt l = none := by
  unfold matchHeaderAt
  split
  · rename_i rest
    split
    · rfl
    · split
      · rename_i q rest2 hdrop
        have hq : isQuote q = false := by
          apply h
          have h1 : q ∈ rest.drop (rest.takeWhile jsIsSpace).length := by
            rw [hdrop]
            exact List.mem_cons_self _ _
          exact List.mem_cons_of_mem _ (List.mem_cons_of_mem _ (List.drop_subset _ _ h1))
        rw [hq]
        simp
      · rfl
  · rfl

/-- On a quote-free string the header scan finds nothing. -/
theorem scanHeadersAux_nil_noQuote : ∀ (fuel : Nat) (l : Str),
    (∀ c ∈ l, isQuote c = false) → scanHeadersAux fuel l = [] := by
  intro fuel
  induction fuel with
  | zero => intro l h; cases l <;> simp [scanHeadersAux]
  | succ fuel ih =>
    intro l h
    match l with
    | [] => simp [scanHeadersAux]
    | c0 :: rest =>
      simp only [scanHeadersAux]
      rw [matchHeaderAt_none_noQuote h]
      exact ih rest (fun c hc => h c (List.mem_cons_of_mem _ hc))

/-- C10: `parseCurl` captures a header only from a quoted `-H` argument —
on any command text containing no quote characters (such as
`curl -H Accept:application/json http://x`) the returned header map is
empty: the unquoted header is silently dropped. -/
theorem c10_unquoted_header_dropped :
    (∀ x : Str, (∀ c ∈ x, isQuote c = false) → (parseCurl x).headers = []) ∧
    (parseCurl (chars "curl -H Accept:application/json http://x")).headers = [] := by
  constructor
  · intro x hx
    have hnorm : ∀ c ∈ normalizeCurlCommand x, isQuote c = false := by
      intro c hc
      rcases normalizeCurlCommand_mem x c hc with rfl | h
      · rfl
      · exact hx c h
    have h0 : ∀ c ∈ stripCurlPrefix (normalizeCurlCommand x), isQuote c = false :=
      fun c hc => hnorm c (stripCurlPrefix_subset _ hc)
    rcases hfm : findMethod (stripCurlPrefix (normalizeCurlCommand x)) with - | ⟨full, cap⟩
    · simp only [parseCurl, pcMethod, pcHdr, hfm]
      rw [scanHeaders, scanHeadersAux_nil_noQuote _ _ h0]
      rfl
    · have h1 : ∀ c ∈ replaceFirstSub full [] (stripCurlPrefix (normalizeCurlCommand x)),
          isQuote c = false :=
        fun c hc => h0 c (replaceFirstSub_erase_subset full _ c hc)
      simp only [parseCurl, pcMethod, pcHdr, hfm]
      rw [scanHeaders, scanHeadersAux_nil_noQuote _ _ h1]
      rfl
  · decide

/-- C10 witness: the quote-free command of the claim instantiates the
universal statement. -/
theorem c10_witness :
    (parseCurl (chars "curl -H Accept:application/json http://x")).headers = [] :=
  c10_unquoted_header_dropped.1 (chars "curl -H Accept:application/json http://x") (by decide)

/-! ### C6: idempotence of the command normalizer -/

/-- The head of a collapse in run-state is never whitespace. -/
theorem collapseWsAux_true_head : ∀ (l : Str) (c : Char),
    (collapseWsAux true l).head? = some c → jsIsSpace c = false := by
  intro l
  induction l with
  | nil => intro c hc; simp [collapseWsAux] at hc
  | cons c0 rest ih =>
    intro c hc
    simp only [collapseWsAux] at hc
    by_cases hsp : jsIsSpace c0 = true
    · rw [if_pos hsp] at hc
      simp only [if_true] at hc
      exact ih c hc
    · rw [Bool.not_eq_true] at hsp
      rw [if_neg (by rw [hsp]; exact Bool.false_ne_true)] at hc
      injection hc with hc
      rw [← hc]
      exact hsp

/-- Collapsing whitespace produces a whitespace-normal string. -/
theorem wsNorm_collapseWsAux : ∀ (l : Str) (b : Bool),
    wsNorm (collapseWsAux b l) = true := by
  intro l
  induction l with
  | nil => intro b; simp [collapseWsAux, wsNorm]
  | cons c0 rest ih =>
    intro b
    simp only [collapseWsAux]
    by_cases hsp : jsIsSpace c0 = true
    · rw [if_pos hsp]
      by_cases hb : b = true
      · rw [if_pos hb]
        exact ih true
      · rw [if_neg hb]
        simp only [wsNorm]
        rw [ih true, Bool.and_true]
        have hsp2 : jsIsSpace ' ' = true := by decide
        rw [if_pos hsp2]
        simp only [decide_True, Bool.true_and]
        cases hout : collapseWsAux true rest with
        | nil => rfl
        | cons c2 r2 =>
          have : jsIsSpace c2 = false := by
            apply collapseWsAux_true_head rest
            rw [hout]
            rfl
          simp [this]
    · rw [if_neg hsp]
      simp only [wsNorm]
      rw [ih false, Bool.and_true]
      rw [if_neg hsp]

/-- Collapsing a head that is not whitespace, in either state. -/
theorem collapseWsAux_cons_nonspace {c : Char} (rest : Str) (b : Bool)
    (h : jsIsSpace c = false) :
    collapseWsAux b (c :: rest) = c :: collapseWsAux false rest := by
  simp only [collapseWsAux]
  rw [if_neg (by rw [h]; exact Bool.false_ne_true)]

/-- Collapsing is the identity on whitespace-normal strings. -/
theorem collapseWsAux_of_wsNorm : ∀ (u : Str), wsNorm u = true →
    collapseWsAux false u = u := by
  intro u
  induction u with
  | nil => intro _; rfl
  | cons c0 rest ih =>
    intro hw
    simp only [wsNorm, Bool.and_eq_true] at hw
    obtain ⟨h1, hrest⟩ := hw
    by_cases hsp : jsIsSpace c0 = true
    · rw [if_pos hsp] at h1
      simp only [Bool.and_eq_true, decide_eq_true_eq] at h1
      obtain ⟨hc0, hnext⟩ := h1
      subst hc0
      cases hr : rest with
      | nil => decide
      | cons c2 r2 =>
        rw [hr] at hnext hrest
        simp only [Bool.not_eq_true'] at hnext
        have hstep : collapseWsAux false (' ' :: c2 :: r2)
            = ' ' :: collapseWsAux true (c2 :: r2) := rfl
        rw [hstep, collapseWsAux_cons_nonspace r2 true hnext]
        have hih := ih (by rw [hr]; exact hrest)
        rw [hr, collapseWsAux_cons_nonspace r2 false hnext] at hih
        injection hih with hinj1 hinj2
        rw [hinj2]
    · rw [Bool.not_eq_true] at hsp
      rw [collapseWsAux_cons_nonspace rest false hsp]
      rw [ih hrest]

/-- Whitespace-normality is inherited by suffixes. -/
theorem wsNorm_suffix : ∀ {u s : Str}, s <:+ u → wsNorm u = true → wsNorm s = true := by
  intro u
  induction u with
  | nil =>
    intro s hs hw
    rw [List.suffix_nil.mp hs]
    rfl
  | cons c rest ih =>
    intro s hs hw
    rcases List.suffix_cons_iff.mp hs with rfl | hs'
    · exact hw
    · simp only [wsNorm, Bool.and_eq_true] at hw
      exact ih hs' hw.2

/-- Whitespace-normality is inherited by prefixes. -/
theorem wsNorm_prefix : ∀ (p u : Str), p <+: u → wsNorm u = true → wsNorm p = true := by
  intro p
  induction p with
  | nil => intro u _ _; rfl
  | cons c p' ih =>
    intro u hp hw
    match u, hp with
    | c2 :: u', hp =>
      obtain ⟨heq, hp'⟩ := List.cons_prefix_iff.mp hp
      subst heq
      simp only [wsNorm, Bool.and_eq_true] at hw ⊢
      obtain ⟨h1, h2⟩ := hw
      refine ⟨?_, ih u' hp' h2⟩
      by_cases hsp : jsIsSpace c = true
      · rw [if_pos hsp] at h1 ⊢
        simp only [Bool.and_eq_true, decide_eq_true_eq] at h1 ⊢
        obtain ⟨hc, hnext⟩ := h1
        refine ⟨hc, ?_⟩
        cases hp'' : p' with
        | nil => rfl
        | cons d p'' =>
          cases hu' : u' with
          | nil =>
            rw [hp'', hu'] at hp'
            simp at hp'
          | cons e t =>
            rw [hp'', hu'] at hp'
            obtain ⟨heq2, -⟩ := List.cons_prefix_iff.mp hp'
            rw [hu'] at hnext
            rw [heq2]
            simpa using hnext
      · rw [if_neg hsp] at h1 ⊢

/-- In a whitespace-normal string every whitespace character is a plain
space. -/
theorem wsNorm_space_mem : ∀ (u : Str), wsNorm u = true →
    ∀ c ∈ u, jsIsSpace c = true → c = ' ' := by
  intro u
  induction u with
  | nil => intro _ c hc; simp at hc
  | cons c0 rest ih =>
    intro hw c hc hsp
    simp only [wsNorm, Bool.and_eq_true] at hw
    obtain ⟨h1, h2⟩ := hw
    rcases List.mem_cons.mp hc with rfl | hc'
    · rw [if_pos hsp] at h1
      simp only [Bool.and_eq_true, decide_eq_true_eq] at h1
      exact h1.1
    · exact ih h2 c hc' hsp

/-- Splitting on an absent separator returns the single input piece. -/
theorem splitOnCharAux_no_sep (sep : Char) : ∀ (l acc : Str), sep ∉ l →
    splitOnCharAux sep l acc = [acc.reverse ++ l] := by
  intro l
  induction l with
  | nil => intro acc _; simp [splitOnCharAux]
  | cons c rest ih =>
    intro acc hmem
    have hc : ¬ (c = sep) := fun h => hmem (h ▸ List.mem_cons_self _ _)
    simp only [splitOnCharAux, if_neg hc]
    rw [ih (c :: acc) (fun h => hmem (List.mem_cons_of_mem _ h))]
    simp

/-- `trimEndL` is the identity when the string does not end in whitespace. -/
theorem trimEndL_eq_self {l : Str} (h : ∀ c, l.getLast? = some c → jsIsSpace c = false) :
    trimEndL l = l := by
  unfold trimEndL
  rcases hrev : l.reverse with - | ⟨c, t⟩
  · have : l = [] := by simpa using congrArg List.reverse hrev
    simp [this]
  · have hc : jsIsSpace c = false := by
      apply h
      rw [← List.head?_reverse, hrev]
      rfl
    rw [List.dropWhile_cons, hc]
    simp only [Bool.false_eq_true, if_false]
    rw [← hrev, List.reverse_reverse]

/-- `trimStartL` is the identity when the string does not start with
whitespace. -/
theorem trimStartL_eq_self {l : Str} (h : ∀ c, l.head? = some c → jsIsSpace c = false) :
    trimStartL l = l := by
  unfold trimStartL
  cases l with
  | nil => rfl
  | cons c rest =>
    rw [List.dropWhile_cons, h c rfl]
    simp

/-- The head of a `dropWhile` result fails the predicate. -/
theorem head_dropWhile_false (p : Char → Bool) : ∀ (l : Str) (c : Char),
    (l.dropWhile p).head? = some c → p c = false := by
  intro l
  induction l with
  | nil => intro c hc; simp [List.dropWhile] at hc
  | cons c0 rest ih =>
    intro c hc
    rw [List.dropWhile_cons] at hc
    by_cases hp : p c0 = true
    · rw [if_pos hp] at hc
      exact ih c hc
    · rw [Bool.not_eq_true] at hp
      rw [if_neg (by rw [hp]; exact Bool.false_ne_true)] at hc
      injection hc with hc
      rw [← hc]
      exact hp

/-- `trimEndL` is a prefix of its input. -/
theorem trimEndL_prefixL (u : Str) : trimEndL u <+: u := by
  unfold trimEndL
  have h2 := List.reverse_prefix.mpr (List.dropWhile_suffix (l := u.reverse) jsIsSpace)
  rw [List.reverse_reverse] at h2
  exact h2

/-- Heads agree along a prefix. -/
theorem head?_of_prefix {p u : Str} {c : Char} (hp : p <+: u) (hc : p.head? = some c) :
    u.head? = some c := by
  obtain ⟨t, rfl⟩ := hp
  cases p with
  | nil => simp at hc
  | cons c0 p' =>
    injection hc with hc
    rw [← hc]
    rfl

/-- The trimmed collapse has a whitespace-free head. -/
theorem trimL_head (z : Str) : ∀ c, (trimL z).head? = some c → jsIsSpace c = false := by
  intro c hc
  unfold trimL at hc
  have := head?_of_prefix (trimEndL_prefixL (trimStartL z)) hc
  exact head_dropWhile_false jsIsSpace z c this

/-- The trimmed collapse has a whitespace-free last character. -/
theorem trimL_getLast (z : Str) : ∀ c, (trimL z).getLast? = some c → jsIsSpace c = false := by
  intro c hc
  unfold trimL trimEndL at hc
  rw [List.getLast?_reverse] at hc
  exact head_dropWhile_false jsIsSpace _ c hc

/-- C6 counterexample: `normalizeCurlCommand` is not idempotent — on the
input `a` followed by two backslashes the first pass strips one
continuation marker and the second pass strips another. -/
theorem c6_counterexample :
    normalizeCurlCommand (normalizeCurlCommand (chars "a\\\\"))
      ≠ normalizeCurlCommand (chars "a\\\\") := by
  decide

/-- C6 (amended): `normalizeCurlCommand` is idempotent on every input whose
normalized form does not end with a backslash (the continuation marker);
only normalized outputs ending in a backslash are normalized further by a
second pass. -/
theorem c6_normalize_conditionally_idempotent (x : Str)
    (hb : (normalizeCurlCommand x).getLast? ≠ some bslash) :
    normalizeCurlCommand (normalizeCurlCommand x) = normalizeCurlCommand x := by
  have hyd : normalizeCurlCommand x
      = trimL (collapseWsAux false
          (joinWith (chars " ") ((splitOnChar '\n' x).map normalizeLine))) := rfl
  have hnorm : wsNorm (normalizeCurlCommand x) = true := by
    rw [hyd]
    unfold trimL
    apply wsNorm_prefix _ _ (trimEndL_prefixL _)
    apply wsNorm_suffix (List.dropWhile_suffix _)
    exact wsNorm_collapseWsAux _ false
  have hnl : '\n' ∉ normalizeCurlCommand x := by
    intro hmem
    have := wsNorm_space_mem _ hnorm '\n' hmem (by decide)
    exact absurd this (by decide)
  have hhead : ∀ c, (normalizeCurlCommand x).head? = some c → jsIsSpace c = false := by
    rw [hyd]
    exact trimL_head _
  have hlast : ∀ c, (normalizeCurlCommand x).getLast? = some c → jsIsSpace c = false := by
    rw [hyd]
    exact trimL_getLast _
  show trimL (collapseWsAux false (joinWith (chars " ")
      ((splitOnChar '\n' (normalizeCurlCommand x)).map normalizeLine)))
    = normalizeCurlCommand x
  rw [splitOnChar, splitOnCharAux_no_sep '\n' _ [] hnl]
  simp only [List.reverse_nil, List.nil_append, List.map_cons, List.map_nil]
  have hline : normalizeLine (normalizeCurlCommand x) = normalizeCurlCommand x := by
    show (if (trimEndL (normalizeCurlCommand x)).getLast? = some bslash
        then trimEndL (trimEndL (normalizeCurlCommand x)).dropLast
        else trimEndL (normalizeCurlCommand x)) = normalizeCurlCommand x
    rw [trimEndL_eq_self hlast, if_neg hb]
  rw [hline]
  show trimL (collapseWsAux false (normalizeCurlCommand x)) = normalizeCurlCommand x
  rw [collapseWsAux_of_wsNorm _ hnorm]
  unfold trimL
  rw [trimStartL_eq_self hhead, trimEndL_eq_self hlast]

/-- C6 witness: the amended idempotence applied to a two-line continuation
command whose normalization does not end in a backslash. -/
theorem c6_witness :
    normalizeCurlCommand (normalizeCurlCommand (chars "curl \\\n  -X GET  http://example.com"))
      = normalizeCurlCommand (chars "curl \\\n  -X GET  http://example.com") :=
  c6_normalize_conditionally_idempotent (chars "curl \\\n  -X GET  http://example.com")
    (by decide)

/-! ### C7: the format/parse round trip -/

/-- Unfolding `plainChar`. -/
theorem plainChar_split {c : Char} (h : plainChar c = true) :
    jsIsSpace c = false ∧ isQuote c = false ∧ c ≠ '-' := by
  simp only [plainChar, Bool.and_eq_true, Bool.not_eq_true', decide_eq_false_iff_not] at h
  exact ⟨h.1.1, h.1.2, h.2⟩

/-- The whitespace class enumerated. -/
theorem jsIsSpace_cases {c : Char} (h : jsIsSpace c = true) :
    c = ' ' ∨ c = '\t' ∨ c = '\n' ∨ c = '\r' ∨ c = Char.ofNat 11 ∨
      c = Char.ofNat 12 ∨ c = Char.ofNat 160 ∨ c = Char.ofNat 0xFEFF := by
  simpa [jsIsSpace, or_assoc] using h

/-- Word characters are not whitespace. -/
theorem isWordChar_not_space {c : Char} (h : isWordChar c = true) :
    jsIsSpace c = false := by
  cases hs : jsIsSpace c with
  | false => rfl
  | true =>
    rcases jsIsSpace_cases hs with rfl | rfl | rfl | rfl | rfl | rfl | rfl | rfl <;>
      exact absurd h (by decide)

/-- Word characters are not the backslash. -/
theorem isWordChar_ne_bslash {c : Char} (h : isWordChar c = true) : c ≠ bslash := by
  intro he
  rw [he] at h
  exact absurd h (by decide)

/-- Word characters are not quotes. -/
theorem isWordChar_not_quote {c : Char} (h : isWordChar c = true) :
    isQuote c = false := by
  cases hq : isQuote c with
  | false => rfl
  | true =>
    rcases (by simpa [isQuote] using hq : c = squote ∨ c = dquote) with rfl | rfl <;>
      exact absurd h (by decide)

/-- A head element is a member. -/
theorem mem_of_head? {l : Str} {c : Char} (h : l.head? = some c) : c ∈ l := by
  cases l with
  | nil => exact absurd h (by simp)
  | cons d rest =>
    injection h with h
    exact h ▸ List.mem_cons_self _ _

/-- A last element is a member. -/
theorem mem_of_getLast? {l : Str} {c : Char} (h : l.getLast? = some c) : c ∈ l := by
  rw [← List.head?_reverse] at h
  exact List.mem_reverse.mp (mem_of_head? h)

/-- `takeWhile` passes over a block of satisfying characters. -/
theorem takeWhile_append_all {p : Char → Bool} : ∀ {a : Str}, (∀ c ∈ a, p c = true) →
    ∀ (b : Str), (a ++ b).takeWhile p = a ++ b.takeWhile p := by
  intro a
  induction a with
  | nil => intro _ b; rfl
  | cons c rest ih =>
    intro h b
    rw [List.cons_append, List.takeWhile_cons, h c (List.mem_cons_self _ _)]
    rw [ih (fun c hc => h c (List.mem_cons_of_mem _ hc)) b]
    simp

/-- `takeWhile` stops at a failing head. -/
theorem takeWhile_eq_nil {p : Char → Bool} {l : Str}
    (h : ∀ c, l.head? = some c → p c = false) : l.takeWhile p = [] := by
  cases l with
  | nil => rfl
  | cons c rest => simp [List.takeWhile_cons, h c rfl]

/-- `dropWhile` is the identity when the head fails. -/
theorem dropWhile_eq_self {p : Char → Bool} {l : Str}
    (h : ∀ c, l.head? = some c → p c = false) : l.dropWhile p = l := by
  cases l with
  | nil => rfl
  | cons c rest => simp [List.dropWhile_cons, h c rfl]

/-- `trimL` is the identity on whitespace-free strings. -/
theorem trimL_of_no_space {l : Str} (h : ∀ c ∈ l, jsIsSpace c = false) :
    trimL l = l := by
  unfold trimL
  rw [trimStartL_eq_self (fun c hc => h c (mem_of_head? hc)),
      trimEndL_eq_self (fun c hc => h c (mem_of_getLast? hc))]

/-- A pointwise-fixed map is the identity. -/
theorem map_fixed {f : Char → Char} : ∀ {l : Str}, (∀ c ∈ l, f c = c) → l.map f = l := by
  intro l
  induction l with
  | nil => intro _; rfl
  | cons c rest ih =>
    intro h
    rw [List.map_cons, h c (List.mem_cons_self _ _),
        ih (fun c hc => h c (List.mem_cons_of_mem _ hc))]

/-- The header fold of the formatter appends the chunks of all headers. -/
theorem format_headers_foldl : ∀ (hs : List (Str × Str)) (cmd : Str),
    List.foldl (fun acc kv => acc ++ chars " -H " ++ squote ::
      (kv.1 ++ chars ": " ++ escapeSingleQuotes kv.2 ++ [squote])) cmd hs
      = cmd ++ hs.flatMap (fun kv => chars " -H " ++ squote ::
          (kv.1 ++ chars ": " ++ escapeSingleQuotes kv.2 ++ [squote])) := by
  intro hs
  induction hs with
  | nil => intro cmd; simp
  | cons kv rest ih =>
    intro cmd
    rw [List.foldl_cons, ih]
    simp [List.append_assoc]

/-- Escaping is the identity on quote-free strings. -/
theorem escapeSingleQuotes_eq_self : ∀ {l : Str}, (∀ c ∈ l, c ≠ squote) →
    escapeSingleQuotes l = l := by
  intro l
  induction l with
  | nil => intro _; rfl
  | cons c rest ih =>
    intro h
    have hstep : escapeSingleQuotes (c :: rest)
        = (if c = squote then [squote, bslash, squote, squote] else [c])
          ++ escapeSingleQuotes rest := by
      simp [escapeSingleQuotes]
    rw [hstep, if_neg (h c (List.mem_cons_self _ _)),
        ih (fun c hc => h c (List.mem_cons_of_mem _ hc))]
    rfl

/-- Unpacking `plainStr`. -/
theorem plainStr_spec {l : Str} (h : plainStr l = true) :
    ∀ c ∈ l, jsIsSpace c = false ∧ isQuote c = false ∧ c ≠ '-' := by
  intro c hc
  exact plainChar_split (List.all_eq_true.mp h c hc)

/-- A plain character is not a single quote. -/
theorem plainStr_ne_squote {l : Str} (h : plainStr l = true) :
    ∀ c ∈ l, c ≠ squote := by
  intro c hc he
  have := (plainStr_spec h c hc).2.1
  rw [he] at this
  exact absurd this (by decide)

/-- Index of the first colon after a colon-free prefix. -/
theorem findIdx?_colon : ∀ (k : Str), (∀ c ∈ k, ¬(c = ':')) → ∀ (t : Str),
    (k ++ ':' :: t).findIdx? (· = ':') = some k.length := by
  intro k
  induction k with
  | nil =>
    intro _ t
    simp [List.findIdx?_cons]
  | cons c rest ih =>
    intro h t
    rw [List.cons_append, List.findIdx?_cons]
    simp only [decide_eq_true_eq]
    rw [if_neg (h c (List.mem_cons_self _ _))]
    rw [List.findIdx?_succ, ih (fun c hc => h c (List.mem_cons_of_mem _ hc)) t]
    simp

/-- Unfolding `wsNorm` at a cons cell. -/
theorem wsNorm_cons (c : Char) (rest : Str) :
    wsNorm (c :: rest) = ((if jsIsSpace c then decide (c = ' ') &&
      (match rest with | c2 :: _ => !jsIsSpace c2 | [] => true) else true) && wsNorm rest) := rfl

/-- The head of a non-empty left part of an append. -/
theorem head?_append_left {a : Str} (b : Str) (h : a ≠ []) :
    (a ++ b).head? = a.head? := by
  cases a with
  | nil => exact absurd rfl h
  | cons c rest => rfl

/-- The last element of an append with non-empty right part. -/
theorem getLast?_append_right (a : Str) {b : Str} (h : b ≠ []) :
    (a ++ b).getLast? = b.getLast? := by
  rw [← List.head?_reverse, ← List.head?_reverse, List.reverse_append]
  apply head?_append_left
  intro hrev
  exact h (by simpa using congrArg List.reverse hrev)

/-- The last element of an append ending in a singleton. -/
theorem getLast?_concat (a : Str) (x : Char) : (a ++ [x]).getLast? = some x := by
  rw [getLast?_append_right a (by simp)]
  rfl

/-- Whitespace-normality of an append, given that no two whitespace
characters meet at the seam. -/
theorem wsNorm_append : ∀ {a : Str}, wsNorm a = true → ∀ {b : Str}, wsNorm b = true →
    (∀ c1 c2, a.getLast? = some c1 → b.head? = some c2 →
      jsIsSpace c1 = false ∨ jsIsSpace c2 = false) →
    wsNorm (a ++ b) = true := by
  intro a
  induction a with
  | nil => intro _ b hb _; exact hb
  | cons c rest ih =>
    intro ha b hb hab
    rw [List.cons_append]
    rw [wsNorm_cons, Bool.and_eq_true] at ha
    have htail : wsNorm (rest ++ b) = true := by
      apply ih ha.2 hb
      intro c1 c2 h1 h2
      apply hab c1 c2 _ h2
      cases rest with
      | nil => exact absurd h1 (by simp)
      | cons d t => rw [List.getLast?_cons_cons]; exact h1
    rw [wsNorm_cons, Bool.and_eq_true]
    refine ⟨?_, htail⟩
    by_cases hsp : jsIsSpace c = true
    · rw [if_pos hsp]
      rw [if_pos hsp, Bool.and_eq_true] at ha
      rw [Bool.and_eq_true]
      refine ⟨ha.1.1, ?_⟩
      cases rest with
      | cons d t =>
        rw [List.cons_append]
        exact ha.1.2
      | nil =>
        rw [List.nil_append]
        cases hbhd : b with
        | nil => rfl
        | cons c2 t2 =>
          rcases hab c c2 rfl (by rw [hbhd]; rfl) with hc | hc2
          · rw [hsp] at hc; exact absurd hc (by decide)
          · simp [hc2]
    · rw [if_neg hsp]

/-- Whitespace-free strings are whitespace-normal. -/
theorem wsNorm_of_no_space : ∀ {l : Str}, (∀ c ∈ l, jsIsSpace c = false) →
    wsNorm l = true := by
  intro l
  induction l with
  | nil => intro _; rfl
  | cons c rest ih =>
    intro h
    rw [wsNorm_cons, Bool.and_eq_true]
    refine ⟨?_, ih (fun c hc => h c (List.mem_cons_of_mem _ hc))⟩
    rw [if_neg (by rw [h c (List.mem_cons_self _ _)]; exact Bool.false_ne_true)]

/-- `wsNorm` append when the right part starts with a non-space. -/
theorem wsNorm_append_r {a b : Str} (ha : wsNorm a = true) (hb : wsNorm b = true)
    (hbh : ∀ c, b.head? = some c → jsIsSpace c = false) :
    wsNorm (a ++ b) = true :=
  wsNorm_append ha hb (fun _ c2 _ h2 => Or.inr (hbh c2 h2))

/-- `wsNorm` append when the left part ends with a non-space. -/
theorem wsNorm_append_l {a b : Str} (ha : wsNorm a = true) (hb : wsNorm b = true)
    (hal : ∀ c, a.getLast? = some c → jsIsSpace c = false) :
    wsNorm (a ++ b) = true :=
  wsNorm_append ha hb (fun c1 _ h1 _ => Or.inl (hal c1 h1))

/-- The normalizer is the identity on a whitespace-normal single line not
ending in whitespace or a backslash. -/
theorem normalizeCurlCommand_eq_self {l : Str} (h1 : '\n' ∉ l)
    (h2 : wsNorm l = true)
    (h3 : ∀ c, l.head? = some c → jsIsSpace c = false)
    (h4 : ∀ c, l.getLast? = some c → jsIsSpace c = false)
    (h5 : l.getLast? ≠ some bslash) :
    normalizeCurlCommand l = l := by
  show trimL (collapseWs (joinWith (chars " ") ((splitOnChar '\n' l).map normalizeLine))) = l
  rw [splitOnChar, splitOnCharAux_no_sep '\n' l [] h1]
  simp only [List.reverse_nil, List.nil_append, List.map_cons, List.map_nil]
  have hline : normalizeLine l = l := by
    show (if (trimEndL l).getLast? = some bslash then trimEndL (trimEndL l).dropLast
          else trimEndL l) = l
    rw [trimEndL_eq_self h4, if_neg h5]
  rw [hline]
  show trimL (collapseWsAux false l) = l
  rw [collapseWsAux_of_wsNorm l h2]
  unfold trimL
  rw [trimStartL_eq_self h3, trimEndL_eq_self h4]

/-- Stripping the `curl ` prefix from a command whose tail does not start
with whitespace. -/
theorem stripCurlPrefix_curl {l : Str} (hl : ∀ c, l.head? = some c → jsIsSpace c = false) :
    stripCurlPrefix (chars "curl " ++ l) = l := by
  have hpre : isPrefixL (chars "curl") (chars "curl " ++ l) = true := by
    rw [isPrefixL_iff]
    exact ⟨chars " " ++ l, rfl⟩
  unfold stripCurlPrefix
  rw [if_pos hpre]
  show (if jsIsSpace ' ' then l.dropWhile jsIsSpace else chars "curl " ++ l) = l
  rw [if_pos (by decide : jsIsSpace ' ' = true)]
  exact dropWhile_eq_self hl

/-- Plain strings contain no whitespace. -/
theorem plainStr_no_space {l : Str} (h : plainStr l = true) :
    ∀ c ∈ l, jsIsSpace c = false :=
  fun c hc => (plainStr_spec h c hc).1

/-- Unpacking `methodOk`. -/
theorem methodOk_spec {m : Str} (h : methodOk m = true) :
    m ≠ [] ∧ ∀ c ∈ m, isWordChar c = true ∧ upperAscii c = c := by
  simp only [methodOk, Bool.and_eq_true, Bool.not_eq_true',
    List.all_eq_true, beq_iff_eq] at h
  refine ⟨?_, fun c hc => (h.2 c hc).imp id id⟩
  intro he
  rw [he] at h
  exact absurd h.1 (by decide)

/-- Unpacking `headerOk`. -/
theorem headerOk_spec {kv : Str × Str} (h : headerOk kv = true) :
    kv.1 ≠ [] ∧ plainStr kv.1 = true ∧ (∀ c ∈ kv.1, ¬(c = ':')) ∧ plainStr kv.2 = true := by
  simp only [headerOk, Bool.and_eq_true, Bool.not_eq_true',
    List.all_eq_true, decide_eq_false_iff_not] at h
  refine ⟨?_, h.1.1.2, h.1.2, h.2⟩
  intro he
  have := h.1.1.1
  rw [he] at this
  exact absurd this (by decide)

/-- `flatMap` respects pointwise-equal functions. -/
theorem flatMap_congr {α β : Type} {f g : α → List β} : ∀ {l : List α},
    (∀ x ∈ l, f x = g x) → l.flatMap f = l.flatMap g := by
  intro l
  induction l with
  | nil => intro _; rfl
  | cons x rest ih =>
    intro h
    rw [List.flatMap_cons, List.flatMap_cons, h x (List.mem_cons_self _ _),
        ih (fun y hy => h y (List.mem_cons_of_mem _ hy))]

/-- A header chunk split at its last quote. -/
theorem hChunk_concat (kv : Str × Str) :
    hChunk kv = (chars " -H " ++ squote :: (kv.1 ++ chars ": " ++ kv.2)) ++ [squote] := by
  simp [hChunk]

/-- The last character of a header chunk. -/
theorem hChunk_getLast? (kv : Str × Str) : (hChunk kv).getLast? = some squote := by
  rw [hChunk_concat, getLast?_concat]

/-- Header chunks are whitespace-normal. -/
theorem wsNorm_hChunk {kv : Str × Str} (h : headerOk kv = true) :
    wsNorm (hChunk kv) = true := by
  obtain ⟨hk, hkp, -, hvp⟩ := headerOk_spec h
  have heq : hChunk kv
      = (chars " -H " ++ (squote :: kv.1)) ++ (chars ": " ++ (kv.2 ++ [squote])) := by
    simp [hChunk]
  rw [heq]
  apply wsNorm_append_l
  · apply wsNorm_append_r (by decide)
    · apply wsNorm_of_no_space
      intro c hc
      rcases List.mem_cons.mp hc with rfl | hc
      · decide
      · exact (plainStr_spec hkp c hc).1
    · intro c hc
      injection hc with hc
      rw [← hc]
      decide
  · apply wsNorm_append_r (by decide)
    · apply wsNorm_of_no_space
      intro c hc
      rcases List.mem_append.mp hc with hc | hc
      · exact (plainStr_spec hvp c hc).1
      · rcases List.mem_singleton.mp hc with rfl; decide
    · intro c hc
      cases hv : kv.2 with
      | nil => rw [hv] at hc; injection hc with hc; rw [← hc]; decide
      | cons d t =>
        rw [hv] at hc
        injection hc with hc
        have : jsIsSpace d = false := (plainStr_spec hvp d (by rw [hv]; exact List.mem_cons_self _ _)).1
        rw [← hc]; exact this
  · intro c hc
    rw [getLast?_append_right _ (by simp : squote :: kv.1 ≠ [])] at hc
    cases hk1 : kv.1 with
    | nil => exact absurd hk1 hk
    | cons d t =>
      rw [hk1, show squote :: d :: t = [squote] ++ d :: t from rfl,
          getLast?_append_right _ (by simp)] at hc
      exact (plainStr_spec hkp c (by rw [hk1]; exact mem_of_getLast? hc)).1

/-- The header block either is empty or ends in a quote. -/
theorem flatMap_hChunk_ends : ∀ (hs : List (Str × Str)),
    hs = [] ∨ ∃ a, hs.flatMap hChunk = a ++ [squote] := by
  intro hs
  induction hs with
  | nil => exact Or.inl rfl
  | cons kv rest ih =>
    apply Or.inr
    rcases ih with hnil | ⟨a, ha⟩
    · subst hnil
      exact ⟨chars " -H " ++ squote :: (kv.1 ++ chars ": " ++ kv.2), by
        rw [List.flatMap_cons, List.flatMap_nil, List.append_nil, hChunk_concat]⟩
    · exact ⟨hChunk kv ++ a, by rw [List.flatMap_cons, ha, List.append_assoc]⟩

/-- The header block is whitespace-normal. -/
theorem wsNorm_flatMap_hChunk : ∀ {hs : List (Str × Str)},
    (∀ kv ∈ hs, headerOk kv = true) → wsNorm (hs.flatMap hChunk) = true := by
  intro hs
  induction hs with
  | nil => intro _; rfl
  | cons kv rest ih =>
    intro h
    rw [List.flatMap_cons]
    apply wsNorm_append_l (wsNorm_hChunk (h kv (List.mem_cons_self _ _)))
        (ih (fun kv hkv => h kv (List.mem_cons_of_mem _ hkv)))
    intro c hc
    rw [hChunk_getLast? kv] at hc
    injection hc with hc
    rw [← hc]
    decide

/-- The formatted tail starts with the opening quote of the URL. -/
theorem fmtTail_head? (u m : Str) (hs : List (Str × Str)) (bo : Option Str) :
    (fmtTail u m hs bo).head? = some squote := rfl

/-- The formatted tail is whitespace-normal and ends in a character that is
neither whitespace nor a backslash. -/
theorem fmtTail_facts {u m : Str} {hs : List (Str × Str)} {bo : Option Str}
    (hu : plainStr u = true) (hm : methodOk m = true)
    (hhs : ∀ kv ∈ hs, headerOk kv = true) (hb : bodyOk bo = true) :
    wsNorm (fmtTail u m hs bo) = true ∧
      ∀ c, (fmtTail u m hs bo).getLast? = some c →
        jsIsSpace c = false ∧ c ≠ bslash := by
  obtain ⟨hmne, hmc⟩ := methodOk_spec hm
  have hA0ws : wsNorm (squote :: (u ++ [squote])) = true := by
    apply wsNorm_of_no_space
    intro c hc
    rcases List.mem_cons.mp hc with rfl | hc
    · decide
    · rcases List.mem_append.mp hc with hc | hc
      · exact (plainStr_spec hu c hc).1
      · rcases List.mem_singleton.mp hc with rfl; decide
  have hA0last : (squote :: (u ++ [squote])).getLast? = some squote := by
    rw [show squote :: (u ++ [squote]) = (squote :: u) ++ [squote] by simp, getLast?_concat]
  have hMPws : wsNorm (mPart m) = true := by
    unfold mPart
    by_cases hg : m = chars "GET"
    · rw [if_neg (not_not_intro hg)]; rfl
    · rw [if_pos hg]
      apply wsNorm_append_r (by decide)
          (wsNorm_of_no_space (fun c hc => isWordChar_not_space (hmc c hc).1))
      intro c hc
      cases hm0 : m with
      | nil => exact absurd hm0 hmne
      | cons d t =>
        rw [hm0] at hc
        injection hc with hc
        exact hc ▸ isWordChar_not_space (hmc d (by rw [hm0]; exact List.mem_cons_self _ _)).1
  have hDPws : wsNorm (dPart bo) = true := by
    cases bo with
    | none => rfl
    | some b =>
      have hbp : plainStr b = true := by
        simp only [bodyOk, Bool.and_eq_true] at hb
        exact hb.2
      show wsNorm (chars " -d " ++ squote :: (b ++ [squote])) = true
      apply wsNorm_append_r (by decide)
      · apply wsNorm_of_no_space
        intro c hc
        rcases List.mem_cons.mp hc with rfl | hc
        · decide
        · rcases List.mem_append.mp hc with hc | hc
          · exact (plainStr_spec hbp c hc).1
          · rcases List.mem_singleton.mp hc with rfl; decide
      · intro c hc; injection hc with hc; rw [← hc]; decide
  have hS2ws : wsNorm ((squote :: (u ++ [squote])) ++ mPart m) = true := by
    apply wsNorm_append_l hA0ws hMPws
    intro c hc
    rw [hA0last] at hc
    injection hc with hc
    rw [← hc]; decide
  have hS2last : ∀ c, ((squote :: (u ++ [squote])) ++ mPart m).getLast? = some c →
      jsIsSpace c = false ∧ c ≠ bslash := by
    intro c hc
    unfold mPart at hc
    by_cases hg : m = chars "GET"
    · rw [if_neg (not_not_intro hg), List.append_nil, hA0last] at hc
      injection hc with hc
      rw [← hc]
      exact ⟨by decide, by decide⟩
    · have hne : chars " -X " ++ m ≠ [] := by
        intro h0
        exact absurd (List.append_eq_nil.mp h0).1 (by decide)
      rw [if_pos hg, getLast?_append_right _ hne,
          getLast?_append_right _ hmne] at hc
      have hcm := mem_of_getLast? hc
      exact ⟨isWordChar_not_space (hmc c hcm).1, isWordChar_ne_bslash (hmc c hcm).1⟩
  have hS3ws : wsNorm ((squote :: (u ++ [squote])) ++ mPart m ++ hs.flatMap hChunk) = true := by
    apply wsNorm_append_l hS2ws (wsNorm_flatMap_hChunk hhs)
    exact fun c hc => (hS2last c hc).1
  have hS3last : ∀ c,
      ((squote :: (u ++ [squote])) ++ mPart m ++ hs.flatMap hChunk).getLast? = some c →
        jsIsSpace c = false ∧ c ≠ bslash := by
    intro c hc
    rcases flatMap_hChunk_ends hs with hnil | ⟨a, ha⟩
    · rw [hnil] at hc
      simp only [List.flatMap_nil, List.append_nil] at hc
      exact hS2last c hc
    · rw [ha, getLast?_append_right _ (by simp), getLast?_concat] at hc
      injection hc with hc
      rw [← hc]
      exact ⟨by decide, by decide⟩
  constructor
  · show wsNorm ((squote :: (u ++ [squote])) ++ mPart m ++ hs.flatMap hChunk ++ dPart bo) = true
    apply wsNorm_append_l hS3ws hDPws
    exact fun c hc => (hS3last c hc).1
  · intro c hc
    have hc' : ((squote :: (u ++ [squote])) ++ mPart m ++ hs.flatMap hChunk
        ++ dPart bo).getLast? = some c := hc
    cases bo with
    | none =>
      rw [show dPart none = [] from rfl, List.append_nil] at hc'
      exact hS3last c hc'
    | some b =>
      rw [show dPart (some b) = chars " -d " ++ squote :: (b ++ [squote]) from rfl,
          getLast?_append_right _ (by
            intro h0
            exact absurd (List.append_eq_nil.mp h0).1 (by decide)),
          show chars " -d " ++ squote :: (b ++ [squote])
              = (chars " -d " ++ squote :: b) ++ [squote] by simp,
          getLast?_concat] at hc'
      injection hc' with hc'
      rw [← hc']
      exact ⟨by decide, by decide⟩

/-- The normalizer leaves the canonical formatted command unchanged. -/
theorem normalize_fmtF {u m : Str} {hs : List (Str × Str)} {bo : Option Str}
    (hu : plainStr u = true) (hm : methodOk m = true)
    (hhs : ∀ kv ∈ hs, headerOk kv = true) (hb : bodyOk bo = true) :
    normalizeCurlCommand (fmtF u m hs bo) = fmtF u m hs bo := by
  have hT := fmtTail_facts hu hm hhs hb
  have hTne : fmtTail u m hs bo ≠ [] := by
    intro h0
    have := fmtTail_head? u m hs bo
    rw [h0] at this
    exact absurd this (by decide)
  have hws : wsNorm (fmtF u m hs bo) = true := by
    apply wsNorm_append_r (by decide) hT.1
    intro c hc
    rw [fmtTail_head? u m hs bo] at hc
    injection hc with hc
    rw [← hc]; decide
  have hlast : ∀ c, (fmtF u m hs bo).getLast? = some c →
      jsIsSpace c = false ∧ c ≠ bslash := by
    intro c hc
    have hc' : (chars "curl " ++ fmtTail u m hs bo).getLast? = some c := hc
    rw [getLast?_append_right _ hTne] at hc'
    exact hT.2 c hc'
  apply normalizeCurlCommand_eq_self
  · intro hmem
    have := wsNorm_space_mem _ hws '\n' hmem (by decide)
    exact absurd this (by decide)
  · exact hws
  · intro c hc
    have : (fmtF u m hs bo).head? = some 'c' := rfl
    rw [this] at hc
    injection hc with hc
    rw [← hc]; decide
  · exact fun c hc => (hlast c hc).1
  · intro hc
    exact (hlast bslash hc).2 rfl

/-- Stripping the `curl ` prefix from the canonical formatted command. -/
theorem stripCurlPrefix_fmtF (u m : Str) (hs : List (Str × Str)) (bo : Option Str) :
    stripCurlPrefix (fmtF u m hs bo) = fmtTail u m hs bo := by
  apply stripCurlPrefix_curl
  intro c hc
  rw [fmtTail_head? u m hs bo] at hc
  injection hc with hc
  rw [← hc]; decide

/-- On well-behaved components the formatter emits exactly the canonical
formatted command. -/
theorem format_eq_fmtF {p : ParsedCurl}
    (hu : plainStr p.url = true) (hm : methodOk p.method = true)
    (hhs : ∀ kv ∈ p.headers, headerOk kv = true) (hb : bodyOk p.body = true) :
    formatParsedCurlToCommand p = fmtF p.url p.method p.headers p.body := by
  obtain ⟨hmne, hmc⟩ := methodOk_spec hm
  have hmapfix : p.method.map upperAscii = p.method :=
    map_fixed (fun c hc => (hmc c hc).2)
  have hescu : escapeSingleQuotes p.url = p.url :=
    escapeSingleQuotes_eq_self (plainStr_ne_squote hu)
  have hflat : p.headers.flatMap (fun kv => chars " -H " ++ squote ::
      (kv.1 ++ chars ": " ++ escapeSingleQuotes kv.2 ++ [squote]))
        = p.headers.flatMap hChunk := by
    apply flatMap_congr
    intro kv hkv
    rw [escapeSingleQuotes_eq_self (plainStr_ne_squote (headerOk_spec (hhs kv hkv)).2.2.2)]
    rfl
  cases hbody : p.body with
  | none =>
    simp only [formatParsedCurlToCommand, hbody]
    rw [format_headers_foldl, hescu, hmapfix, hflat]
    by_cases hg : p.method = chars "GET"
    · have hif : ∀ (a b : Str),
          (if p.method ≠ [] && p.method ≠ chars "GET" then a else b) = b := by
        intro a b
        apply if_neg
        simp only [Bool.and_eq_true, decide_eq_true_eq]
        intro h
        exact h.2 hg
      rw [hif]
      show _ = chars "curl " ++ ((squote :: (p.url ++ [squote])) ++ mPart p.method
        ++ p.headers.flatMap hChunk ++ dPart none)
      rw [show mPart p.method = [] from by unfold mPart; rw [if_neg (not_not_intro hg)],
          show dPart none = [] from rfl]
      simp [List.append_assoc]
    · have hif : ∀ (a b : Str),
          (if p.method ≠ [] && p.method ≠ chars "GET" then a else b) = a := by
        intro a b
        apply if_pos
        simp only [Bool.and_eq_true, decide_eq_true_eq]
        exact ⟨hmne, hg⟩
      rw [hif]
      show _ = chars "curl " ++ ((squote :: (p.url ++ [squote])) ++ mPart p.method
        ++ p.headers.flatMap hChunk ++ dPart none)
      rw [show mPart p.method = chars " -X " ++ p.method from by
            unfold mPart; rw [if_pos hg],
          show dPart none = [] from rfl]
      simp [List.append_assoc]
  | some b =>
    rw [hbody] at hb
    simp only [bodyOk, Bool.and_eq_true, Bool.not_eq_true'] at hb
    have hbne : b ≠ [] := by
      intro he
      have := hb.1
      rw [he] at this
      exact absurd this (by decide)
    have hescb : escapeSingleQuotes b = b :=
      escapeSingleQuotes_eq_self (plainStr_ne_squote hb.2)
    simp only [formatParsedCurlToCommand, hbody]
    rw [if_pos hbne]
    rw [format_headers_foldl, hescu, hmapfix, hflat, hescb]
    by_cases hg : p.method = chars "GET"
    · have hif : ∀ (a b : Str),
          (if p.method ≠ [] && p.method ≠ chars "GET" then a else b) = b := by
        intro a b
        apply if_neg
        simp only [Bool.and_eq_true, decide_eq_true_eq]
        intro h
        exact h.2 hg
      rw [hif]
      show _ = chars "curl " ++ ((squote :: (p.url ++ [squote])) ++ mPart p.method
        ++ p.headers.flatMap hChunk ++ dPart (some b))
      rw [show mPart p.method = [] from by unfold mPart; rw [if_neg (not_not_intro hg)],
          show dPart (some b) = chars " -d " ++ squote :: (b ++ [squote]) from rfl]
      simp [List.append_assoc]
    · have hif : ∀ (a b : Str),
          (if p.method ≠ [] && p.method ≠ chars "GET" then a else b) = a := by
        intro a b
        apply if_pos
        simp only [Bool.and_eq_true, decide_eq_true_eq]
        exact ⟨hmne, hg⟩
      rw [hif]
      show _ = chars "curl " ++ ((squote :: (p.url ++ [squote])) ++ mPart p.method
        ++ p.headers.flatMap hChunk ++ dPart (some b))
      rw [show mPart p.method = chars " -X " ++ p.method from by
            unfold mPart; rw [if_pos hg],
          show dPart (some b) = chars " -d " ++ squote :: (b ++ [squote]) from rfl]
      simp [List.append_assoc]

/-- No dash in a cons cell. -/
theorem not_dash_cons {c : Char} {l : Str} (h1 : ¬(c = '-')) (h2 : '-' ∉ l) :
    '-' ∉ c :: l := by
  intro hm
  rcases List.mem_cons.mp hm with h | h
  · exact h1 h.symm
  · exact h2 h

/-- No dash in an append. -/
theorem not_dash_append {a b : Str} (h1 : '-' ∉ a) (h2 : '-' ∉ b) : '-' ∉ a ++ b := by
  intro hm
  rcases List.mem_append.mp hm with h | h
  · exact h1 h
  · exact h2 h

/-- Plain strings contain no dash. -/
theorem not_dash_plain {l : Str} (h : plainStr l = true) : '-' ∉ l :=
  fun hm => (plainStr_spec h _ hm).2.2 rfl

/-- The quoted URL block contains no dash. -/
theorem nodash_A0 {u : Str} (hu : plainStr u = true) :
    '-' ∉ squote :: (u ++ [squote]) :=
  not_dash_cons (by decide) (not_dash_append (not_dash_plain hu) (by decide))

/-- Unfolding the method matcher on a dash-led string. -/
theorem matchMethodAt_cons_cons (x : Char) (rest : Str) :
    matchMethodAt ('-' :: x :: rest) =
      (if x = 'X' || x = 'x' then
        if (rest.takeWhile jsIsSpace).isEmpty then none
        else if ((rest.drop (rest.takeWhile jsIsSpace).length).takeWhile isWordChar).isEmpty
          then none
          else some ('-' :: x :: (rest.takeWhile jsIsSpace
              ++ (rest.drop (rest.takeWhile jsIsSpace).length).takeWhile isWordChar),
            (rest.drop (rest.takeWhile jsIsSpace).length).takeWhile isWordChar)
      else none) := rfl

/-- The method matcher fails unless the string starts with a dash. -/
theorem matchMethodAt_none_head {c : Char} (rest : Str) (h : ¬(c = '-')) :
    matchMethodAt (c :: rest) = none := by
  unfold matchMethodAt
  split
  · rename_i x r heq
    injection heq with h1 _
    exact absurd h1 h
  · rfl

/-- The method matcher fails when the dash is not followed by `X`/`x`. -/
theorem matchMethodAt_dash_nonX {x : Char} (hx : ¬(x = 'X' ∨ x = 'x')) (rest : Str) :
    matchMethodAt ('-' :: x :: rest) = none := by
  rw [matchMethodAt_cons_cons]
  rw [if_neg (by simp only [Bool.or_eq_true, decide_eq_true_eq]; exact hx)]

/-- One search step over a non-matching head. -/
theorem findMethod_cons_none {c : Char} {rest : Str}
    (h : matchMethodAt (c :: rest) = none) :
    findMethod (c :: rest) = findMethod rest := by
  simp only [findMethod, h]

/-- The search stops at a matching position. -/
theorem findMethod_cons_some {c : Char} {rest : Str} {r : Str × Str}
    (h : matchMethodAt (c :: rest) = some r) : findMethod (c :: rest) = some r := by
  simp only [findMethod, h]

/-- The method search passes over any dash-free region. -/
theorem findMethod_skip : ∀ {a : Str}, '-' ∉ a → ∀ (b : Str),
    findMethod (a ++ b) = findMethod b := by
  intro a
  induction a with
  | nil => intro _ b; rfl
  | cons c rest ih =>
    intro h b
    rw [List.cons_append,
        findMethod_cons_none (matchMethodAt_none_head _
          (fun he => h (by rw [he]; exact List.mem_cons_self _ _)))]
    exact ih (fun hm => h (List.mem_cons_of_mem _ hm)) b

/-- The method search fails on a dash-free string. -/
theorem findMethod_none_of_nodash {l : Str} (h : '-' ∉ l) : findMethod l = none := by
  have h0 := findMethod_skip h []
  rw [List.append_nil] at h0
  rw [h0]
  rfl

/-- The method matcher succeeds on `-X ` followed by a well-behaved method
and a tail that does not begin with a word character. -/
theorem matchMethodAt_X {m tail : Str} (hm : methodOk m = true)
    (htail : ∀ c, tail.head? = some c → isWordChar c = false) :
    matchMethodAt (chars "-X " ++ (m ++ tail)) = some (chars "-X " ++ m, m) := by
  obtain ⟨hmne, hmc⟩ := methodOk_spec hm
  show matchMethodAt ('-' :: 'X' :: (' ' :: (m ++ tail))) = some (chars "-X " ++ m, m)
  rw [matchMethodAt_cons_cons]
  rw [if_pos (by decide)]
  have hmt : (m ++ tail).takeWhile jsIsSpace = [] := by
    apply takeWhile_eq_nil
    intro c hc
    cases hm0 : m with
    | nil => exact absurd hm0 hmne
    | cons d t =>
      rw [hm0, List.cons_append] at hc
      injection hc with hc
      exact hc ▸ isWordChar_not_space (hmc d (by rw [hm0]; exact List.mem_cons_self _ _)).1
  have hws : (' ' :: (m ++ tail)).takeWhile jsIsSpace = [' '] := by
    rw [List.takeWhile_cons, if_pos (by decide : jsIsSpace ' ' = true), hmt]
  rw [hws]
  rw [show ([' '] : Str).isEmpty = false from rfl]
  simp only [Bool.false_eq_true, if_false]
  rw [show (' ' :: (m ++ tail)).drop ([' '] : Str).length = m ++ tail from rfl]
  have hw : (m ++ tail).takeWhile isWordChar = m := by
    rw [takeWhile_append_all (fun c hc => (hmc c hc).1) tail, takeWhile_eq_nil htail,
        List.append_nil]
  rw [hw]
  have hmE : m.isEmpty = false := by
    cases hm0 : m with
    | nil => exact absurd hm0 hmne
    | cons d t => rfl
  rw [hmE]
  simp only [Bool.false_eq_true, if_false]
  rfl

/-- The method search passes over one formatted header chunk. -/
theorem findMethod_skip_hChunk {kv : Str × Str} (hkv : headerOk kv = true) (b : Str) :
    findMethod (hChunk kv ++ b) = findMethod b := by
  obtain ⟨hk, hkp, -, hvp⟩ := headerOk_spec hkv
  rw [show hChunk kv ++ b
      = ' ' :: ('-' :: 'H' :: ((' ' :: squote :: (kv.1 ++ chars ": " ++ kv.2 ++ [squote])) ++ b))
      from rfl]
  rw [findMethod_cons_none (matchMethodAt_none_head _ (by decide))]
  rw [findMethod_cons_none (matchMethodAt_dash_nonX (by decide) _)]
  rw [show 'H' :: ((' ' :: squote :: (kv.1 ++ chars ": " ++ kv.2 ++ [squote])) ++ b)
      = ('H' :: ' ' :: squote :: (kv.1 ++ chars ": " ++ kv.2 ++ [squote])) ++ b from rfl]
  apply findMethod_skip
  apply not_dash_cons (by decide)
  apply not_dash_cons (by decide)
  apply not_dash_cons (by decide)
  exact not_dash_append
    (not_dash_append (not_dash_append (not_dash_plain hkp) (by decide)) (not_dash_plain hvp))
    (by decide)

/-- The method search passes over the whole header block. -/
theorem findMethod_hblock : ∀ {hs : List (Str × Str)}, (∀ kv ∈ hs, headerOk kv = true) →
    ∀ (b : Str), findMethod (hs.flatMap hChunk ++ b) = findMethod b := by
  intro hs
  induction hs with
  | nil => intro _ b; rfl
  | cons kv rest ih =>
    intro h b
    rw [List.flatMap_cons, List.append_assoc,
        findMethod_skip_hChunk (h kv (List.mem_cons_self _ _))]
    exact ih (fun kv hkv => h kv (List.mem_cons_of_mem _ hkv)) b

/-- The method search fails on the body part. -/
theorem findMethod_dPart {bo : Option Str} (hb : bodyOk bo = true) :
    findMethod (dPart bo) = none := by
  cases bo with
  | none => rfl
  | some b =>
    simp only [bodyOk, Bool.and_eq_true] at hb
    show findMethod (chars " -d " ++ squote :: (b ++ [squote])) = none
    rw [show chars " -d " ++ squote :: (b ++ [squote])
        = ' ' :: ('-' :: 'd' :: (' ' :: squote :: (b ++ [squote]))) from rfl]
    rw [findMethod_cons_none (matchMethodAt_none_head _ (by decide))]
    rw [findMethod_cons_none (matchMethodAt_dash_nonX (by decide) _)]
    apply findMethod_none_of_nodash
    apply not_dash_cons (by decide)
    apply not_dash_cons (by decide)
    apply not_dash_cons (by decide)
    exact not_dash_append (not_dash_plain hb.2) (by decide)

/-- No method match in the canonical formatted tail when the method is
`GET`. -/
theorem findMethod_fmtTail_GET {u : Str} (hu : plainStr u = true)
    {hs : List (Str × Str)} (hhs : ∀ kv ∈ hs, headerOk kv = true)
    {bo : Option Str} (hb : bodyOk bo = true) :
    findMethod (fmtTail u (chars "GET") hs bo) = none := by
  unfold fmtTail
  rw [show mPart (chars "GET") = [] from by unfold mPart; rw [if_neg (not_not_intro rfl)],
      List.append_nil, List.append_assoc, findMethod_skip (nodash_A0 hu),
      findMethod_hblock hhs, findMethod_dPart hb]

/-- The method match in the canonical formatted tail for a non-`GET`
method. -/
theorem findMethod_fmtTail_X {u m : Str} (hu : plainStr u = true) (hm : methodOk m = true)
    (hg : m ≠ chars "GET") {hs : List (Str × Str)} (hhs : ∀ kv ∈ hs, headerOk kv = true)
    {bo : Option Str} (hb : bodyOk bo = true) :
    findMethod (fmtTail u m hs bo) = some (chars "-X " ++ m, m) := by
  have htail : ∀ c, (hs.flatMap hChunk ++ dPart bo).head? = some c →
      isWordChar c = false := by
    intro c hc
    cases hs0 : hs with
    | cons kv rest =>
      rw [hs0, List.flatMap_cons, List.append_assoc] at hc
      have hc' : some ' ' = some c := hc
      injection hc' with hc'
      rw [← hc']; decide
    | nil =>
      rw [hs0] at hc
      simp only [List.flatMap_nil, List.nil_append] at hc
      cases bo with
      | none => exact absurd hc (by simp [dPart])
      | some b =>
        have hc' : some ' ' = some c := hc
        injection hc' with hc'
        rw [← hc']; decide
  unfold fmtTail
  rw [show mPart m = chars " -X " ++ m from by unfold mPart; rw [if_pos hg]]
  rw [show chars " -X " = ' ' :: chars "-X " from rfl]
  rw [show (squote :: (u ++ [squote])) ++ (' ' :: chars "-X " ++ m) ++ hs.flatMap hChunk
        ++ dPart bo
      = ((squote :: (u ++ [squote])) ++ [' '])
        ++ (chars "-X " ++ (m ++ (hs.flatMap hChunk ++ dPart bo))) from by
        simp [List.append_assoc]]
  have hnd : '-' ∉ (squote :: (u ++ [squote])) ++ [' '] :=
    not_dash_append (nodash_A0 hu) (by decide)
  rw [findMethod_skip hnd]
  exact findMethod_cons_some (matchMethodAt_X hm htail)

/-- Unfolding `replaceFirstSub` at a cons cell. -/
theorem replaceFirstSub_cons (pat repl : Str) (c : Char) (rest : Str) :
    replaceFirstSub pat repl (c :: rest)
      = if isPrefixL pat (c :: rest) then repl ++ (c :: rest).drop pat.length
        else c :: replaceFirstSub pat repl rest := rfl

/-- Replacement passes over a dash-free region when the pattern starts with
a dash. -/
theorem replaceFirstSub_skip {pat repl : Str} (hp : pat.head? = some '-') :
    ∀ {a : Str}, '-' ∉ a → ∀ (b : Str),
      replaceFirstSub pat repl (a ++ b) = a ++ replaceFirstSub pat repl b := by
  intro a
  induction a with
  | nil => intro _ b; rfl
  | cons c rest ih =>
    intro h b
    rw [List.cons_append, replaceFirstSub_cons]
    have hnp : isPrefixL pat (c :: (rest ++ b)) = false := by
      cases hpat : pat with
      | nil => rw [hpat] at hp; exact absurd hp (by decide)
      | cons p0 pt =>
        rw [hpat] at hp
        injection hp with hp
        cases hpf : isPrefixL (p0 :: pt) (c :: (rest ++ b)) with
        | false => rfl
        | true =>
          have hpre := isPrefixL_iff.mp hpf
          rw [List.cons_prefix_cons] at hpre
          have hcd : c = '-' := hpre.1.symm.trans hp
          exact (h (by rw [hcd]; exact List.mem_cons_self _ _)).elim
    rw [hnp]
    simp only [Bool.false_eq_true, if_false]
    rw [ih (fun hm => h (List.mem_cons_of_mem _ hm)) b]
    rfl

/-- Replacement erases a leading pattern occurrence. -/
theorem replaceFirstSub_head (pat repl b : Str) (hne : pat ≠ []) :
    replaceFirstSub pat repl (pat ++ b) = repl ++ b := by
  cases hpat : pat with
  | nil => exact absurd hpat hne
  | cons p0 pt =>
    rw [List.cons_append, replaceFirstSub_cons]
    rw [if_pos (isPrefixL_iff.mpr ⟨b, by rw [List.cons_append]⟩)]
    rw [show p0 :: (pt ++ b) = (p0 :: pt) ++ b from rfl, List.drop_left]

/-- Quotes are not whitespace. -/
theorem isQuote_not_space {q : Char} (h : isQuote q = true) : jsIsSpace q = false := by
  rcases (by simpa [isQuote] using h : q = squote ∨ q = dquote) with rfl | rfl <;> decide

/-- The header matcher fails unless the string starts with a dash. -/
theorem matchHeaderAt_none_head {c : Char} (rest : Str) (h : ¬(c = '-')) :
    matchHeaderAt (c :: rest) = none := by
  unfold matchHeaderAt
  split
  · rename_i r heq
    injection heq with h1 _
    exact absurd h1 h
  · rfl

/-- The header matcher fails when the dash is not followed by `H`. -/
theorem matchHeaderAt_dash_nonH {x : Char} (rest : Str) (hx : ¬(x = 'H')) :
    matchHeaderAt ('-' :: x :: rest) = none := by
  unfold matchHeaderAt
  split
  · rename_i r heq
    injection heq with h1 heq2
    injection heq2 with h2 _
    exact absurd h2 hx
  · rfl

/-- A successful header match starts at `-H` and reports a matched text
starting with `-H`. -/
theorem matchHeaderAt_some_head : ∀ {l full cap : Str},
    matchHeaderAt l = some (full, cap) →
    ∃ r t, l = '-' :: 'H' :: r ∧ full = '-' :: 'H' :: t := by
  intro l full cap h
  unfold matchHeaderAt at h
  split at h
  · rename_i rest
    split at h
    · exact absurd h (by simp)
    · split at h
      · rename_i q rest2 heq2
        split at h
        · split at h
          · exact absurd h (by simp)
          · split at h
            · rename_i q2 t2 heq3
              split at h
              · injection h with h
                rw [Prod.mk.injEq] at h
                exact ⟨rest, _, rfl, h.1.symm⟩
              · exact absurd h (by simp)
            · exact absurd h (by simp)
        · exact absurd h (by simp)
      · exact absurd h (by simp)
  · exact absurd h (by simp)

/-- Fuel above the input length is irrelevant to the header scan. -/
theorem scanHeadersAux_fuel : ∀ (fuel : Nat), ∀ (l : Str), l.length ≤ fuel →
    scanHeadersAux fuel l = scanHeaders l := by
  intro fuel
  induction fuel using Nat.strong_induction_on with
  | _ fuel ih =>
    intro l hl
    cases l with
    | nil => cases fuel with
      | zero => rfl
      | succ f => rfl
    | cons c rest =>
      cases fuel with
      | zero => exact absurd hl (by simp)
      | succ f =>
        have hrest : rest.length ≤ f := Nat.succ_le_succ_iff.mp hl
        cases hmh : matchHeaderAt (c :: rest) with
        | none =>
          rw [show scanHeadersAux (f + 1) (c :: rest) = (match matchHeaderAt (c :: rest) with
              | some (full, cap) =>
                (full, cap) :: scanHeadersAux f ((c :: rest).drop full.length)
              | none => scanHeadersAux f rest) from rfl, hmh]
          rw [show scanHeaders (c :: rest) = (match matchHeaderAt (c :: rest) with
              | some (full, cap) =>
                (full, cap) :: scanHeadersAux rest.length ((c :: rest).drop full.length)
              | none => scanHeadersAux rest.length rest) from rfl, hmh]
          rw [ih f (Nat.lt_succ_self f) rest hrest]
          rfl
        | some r =>
          obtain ⟨full, cap⟩ := r
          obtain ⟨rr, t, -, hfull⟩ := matchHeaderAt_some_head hmh
          rw [show scanHeadersAux (f + 1) (c :: rest) = (match matchHeaderAt (c :: rest) with
              | some (full, cap) =>
                (full, cap) :: scanHeadersAux f ((c :: rest).drop full.length)
              | none => scanHeadersAux f rest) from rfl, hmh]
          rw [show scanHeaders (c :: rest) = (match matchHeaderAt (c :: rest) with
              | some (full, cap) =>
                (full, cap) :: scanHeadersAux rest.length ((c :: rest).drop full.length)
              | none => scanHeadersAux rest.length rest) from rfl, hmh]
          have hd : ((c :: rest).drop full.length).length ≤ rest.length := by
            rw [List.length_drop, hfull]
            simp only [List.length_cons]
            omega
          show (full, cap) :: scanHeadersAux f ((c :: rest).drop full.length)
              = (full, cap) :: scanHeadersAux rest.length ((c :: rest).drop full.length)
          rw [ih f (Nat.lt_succ_self f) _ (le_trans hd hrest)]
          rw [ih rest.length (Nat.lt_succ_of_le hrest) _ hd]

/-- One scan step over a non-matching head. -/
theorem scanHeaders_cons_none {c : Char} {rest : Str}
    (h : matchHeaderAt (c :: rest) = none) :
    scanHeaders (c :: rest) = scanHeaders rest := by
  rw [show scanHeaders (c :: rest) = (match matchHeaderAt (c :: rest) with
      | some (full, cap) => (full, cap) :: scanHeadersAux rest.length ((c :: rest).drop full.length)
      | none => scanHeadersAux rest.length rest) from rfl, h]
  rfl

/-- One scan step at a matching position. -/
theorem scanHeaders_match_some {l full cap : Str}
    (h : matchHeaderAt l = some (full, cap)) :
    scanHeaders l = (full, cap) :: scanHeaders (l.drop full.length) := by
  obtain ⟨rr, t, heq, hfull⟩ := matchHeaderAt_some_head h
  subst heq
  rw [show scanHeaders ('-' :: 'H' :: rr) = (match matchHeaderAt ('-' :: 'H' :: rr) with
      | some (full, cap) =>
        (full, cap) :: scanHeadersAux ('H' :: rr).length (('-' :: 'H' :: rr).drop full.length)
      | none => scanHeadersAux ('H' :: rr).length ('H' :: rr)) from rfl, h]
  show (full, cap) :: scanHeadersAux ('H' :: rr).length (('-' :: 'H' :: rr).drop full.length)
      = (full, cap) :: scanHeaders (('-' :: 'H' :: rr).drop full.length)
  rw [scanHeadersAux_fuel ('H' :: rr).length _ (by
    rw [List.length_drop, hfull]
    simp only [List.length_cons]
    omega)]

/-- The header scan passes over any dash-free region. -/
theorem scanHeaders_skip : ∀ {a : Str}, '-' ∉ a → ∀ (b : Str),
    scanHeaders (a ++ b) = scanHeaders b := by
  intro a
  induction a with
  | nil => intro _ b; rfl
  | cons c rest ih =>
    intro h b
    rw [List.cons_append,
        scanHeaders_cons_none (matchHeaderAt_none_head _
          (fun he => h (by rw [he]; exact List.mem_cons_self _ _)))]
    exact ih (fun hm => h (List.mem_cons_of_mem _ hm)) b

/-- The header scan finds nothing in a dash-free string. -/
theorem scanHeaders_nil_of_nodash {l : Str} (h : '-' ∉ l) : scanHeaders l = [] := by
  have h0 := scanHeaders_skip h []
  rw [List.append_nil] at h0
  rw [h0]
  rfl

/-- The header scan finds nothing in the body part. -/
theorem scanHeaders_dPart {bo : Option Str} (hb : bodyOk bo = true) :
    scanHeaders (dPart bo) = [] := by
  cases bo with
  | none => rfl
  | some b =>
    simp only [bodyOk, Bool.and_eq_true] at hb
    show scanHeaders (chars " -d " ++ squote :: (b ++ [squote])) = []
    rw [show chars " -d " ++ squote :: (b ++ [squote])
        = ' ' :: ('-' :: 'd' :: (' ' :: squote :: (b ++ [squote]))) from rfl]
    rw [scanHeaders_cons_none (matchHeaderAt_none_head _ (by decide))]
    rw [scanHeaders_cons_none (matchHeaderAt_dash_nonH _ (by decide))]
    apply scanHeaders_nil_of_nodash
    apply not_dash_cons (by decide)
    apply not_dash_cons (by decide)
    apply not_dash_cons (by decide)
    exact not_dash_append (not_dash_plain hb.2) (by decide)

/-- Unfolding the header matcher after `-H ` and an opening quote. -/
theorem matchHeaderAt_ws_quote (q : Char) (rest2 : Str) (hq : isQuote q = true) :
    matchHeaderAt ('-' :: 'H' :: (' ' :: q :: rest2)) =
      (if (rest2.takeWhile (fun c => !isQuote c)).isEmpty then none
       else
        match rest2.drop (rest2.takeWhile (fun c => !isQuote c)).length with
        | q2 :: _ =>
          if isQuote q2 then
            some ('-' :: 'H' :: (' ' :: q :: (rest2.takeWhile (fun c => !isQuote c) ++ [q2])),
                  rest2.takeWhile (fun c => !isQuote c))
          else none
        | [] => none) := by
  have hws : ((' ' :: q :: rest2).takeWhile jsIsSpace) = [' '] := by
    rw [List.takeWhile_cons, if_pos (by decide : jsIsSpace ' ' = true)]
    rw [takeWhile_eq_nil (fun c hc => by
      injection hc with hc
      exact hc ▸ isQuote_not_space hq)]
  show (if ((' ' :: q :: rest2).takeWhile jsIsSpace).isEmpty then none
       else
        match (' ' :: q :: rest2).drop ((' ' :: q :: rest2).takeWhile jsIsSpace).length with
        | q0 :: rest3 =>
          if isQuote q0 then
            if (rest3.takeWhile (fun c => !isQuote c)).isEmpty then none
            else
              match rest3.drop (rest3.takeWhile (fun c => !isQuote c)).length with
              | q2 :: _ =>
                if isQuote q2 then
                  some ('-' :: 'H' ::
                          ((' ' :: q :: rest2).takeWhile jsIsSpace ++
                            q0 :: (rest3.takeWhile (fun c => !isQuote c) ++ [q2])),
                        rest3.takeWhile (fun c => !isQuote c))
                else none
              | [] => none
          else none
        | [] => none) = _
  rw [hws]
  rw [show ([' '] : Str).isEmpty = false from rfl]
  simp only [Bool.false_eq_true, if_false]
  rw [show (' ' :: q :: rest2).drop ([' '] : Str).length = q :: rest2 from rfl]
  show (if isQuote q then
        if (rest2.takeWhile (fun c => !isQuote c)).isEmpty then none
        else
          match rest2.drop (rest2.takeWhile (fun c => !isQuote c)).length with
          | q2 :: _ =>
            if isQuote q2 then
              some ('-' :: 'H' :: ([' '] ++ q :: (rest2.takeWhile (fun c => !isQuote c) ++ [q2])),
                    rest2.takeWhile (fun c => !isQuote c))
            else none
          | [] => none
      else none) = _
  rw [if_pos hq]
  rfl

/-- The header matcher on one formatted header followed by anything. -/
theorem matchHeaderAt_format {kv : Str × Str} (hkv : headerOk kv = true) (b : Str) :
    matchHeaderAt (hFull kv ++ b) = some (hFull kv, hCap kv) := by
  obtain ⟨hk, hkp, -, hvp⟩ := headerOk_spec hkv
  show matchHeaderAt
      ('-' :: 'H' :: (' ' :: squote :: ((kv.1 ++ chars ": " ++ kv.2 ++ [squote]) ++ b)))
    = some (hFull kv, hCap kv)
  rw [matchHeaderAt_ws_quote squote _ (by decide)]
  rw [show (kv.1 ++ chars ": " ++ kv.2 ++ [squote]) ++ b
      = (kv.1 ++ chars ": " ++ kv.2) ++ (squote :: b) from by simp [List.append_assoc]]
  have hall : ∀ c ∈ kv.1 ++ chars ": " ++ kv.2, (!isQuote c) = true := by
    intro c hc
    rcases List.mem_append.mp hc with hc | hc
    · rcases List.mem_append.mp hc with hc | hc
      · simp [(plainStr_spec hkp c hc).2.1]
      · exact (by decide : ∀ c ∈ chars ": ", (!isQuote c) = true) c hc
    · simp [(plainStr_spec hvp c hc).2.1]
  have hcontent : ((kv.1 ++ chars ": " ++ kv.2) ++ (squote :: b)).takeWhile
      (fun c => !isQuote c) = kv.1 ++ chars ": " ++ kv.2 := by
    rw [takeWhile_append_all hall (squote :: b),
        takeWhile_eq_nil (fun c hc => by
          injection hc with hc
          rw [← hc]; decide),
        List.append_nil]
  rw [hcontent]
  have hne : (kv.1 ++ chars ": " ++ kv.2).isEmpty = false := by
    cases hk0 : kv.1 with
    | nil => exact absurd hk0 hk
    | cons d t => rfl
  rw [hne]
  simp only [Bool.false_eq_true, if_false]
  rw [List.drop_left]
  show (if isQuote squote then
      some ('-' :: 'H' :: (' ' :: squote :: ((kv.1 ++ chars ": " ++ kv.2) ++ [squote])),
            kv.1 ++ chars ": " ++ kv.2)
    else none) = some (hFull kv, hCap kv)
  rw [if_pos (by decide)]
  rfl

/-- The header scan over the formatted header block followed by a
scan-empty remainder. -/
theorem scanHeaders_flatMap : ∀ {hs : List (Str × Str)},
    (∀ kv ∈ hs, headerOk kv = true) → ∀ {d : Str}, scanHeaders d = [] →
    scanHeaders (hs.flatMap hChunk ++ d) = hs.map (fun kv => (hFull kv, hCap kv)) := by
  intro hs
  induction hs with
  | nil =>
    intro _ d hd
    rw [List.flatMap_nil, List.nil_append, hd]
    rfl
  | cons kv rest ih =>
    intro h d hd
    rw [List.flatMap_cons, List.append_assoc]
    rw [show hChunk kv ++ (rest.flatMap hChunk ++ d)
        = ' ' :: (hFull kv ++ (rest.flatMap hChunk ++ d)) from rfl]
    rw [scanHeaders_cons_none (matchHeaderAt_none_head _ (by decide))]
    rw [scanHeaders_match_some (matchHeaderAt_format (h kv (List.mem_cons_self _ _)) _)]
    rw [List.drop_left]
    rw [ih (fun kv hkv => h kv (List.mem_cons_of_mem _ hkv)) hd]
    rfl

/-- Processing one formatted header capture stores the key/value pair. -/
theorem processHeader_format {headers : List (Str × Str)} {kv : Str × Str}
    (hkv : headerOk kv = true) :
    processHeader headers (hCap kv) = jsObjSet kv.1 kv.2 headers := by
  obtain ⟨hk, hkp, hkc, hvp⟩ := headerOk_spec hkv
  unfold processHeader hCap
  rw [show kv.1 ++ chars ": " ++ kv.2 = kv.1 ++ ':' :: (' ' :: kv.2) from by
    rw [List.append_assoc]; rfl]
  rw [findIdx?_colon kv.1 hkc (' ' :: kv.2)]
  show (if 0 < kv.1.length then
      jsObjSet (trimL ((kv.1 ++ ':' :: (' ' :: kv.2)).take kv.1.length))
        (trimL ((kv.1 ++ ':' :: (' ' :: kv.2)).drop (kv.1.length + 1))) headers
    else headers) = jsObjSet kv.1 kv.2 headers
  rw [if_pos (List.length_pos.mpr hk)]
  rw [List.take_left]
  have hdrop : (kv.1 ++ ':' :: (' ' :: kv.2)).drop (kv.1.length + 1) = ' ' :: kv.2 := by
    rw [show kv.1 ++ ':' :: (' ' :: kv.2) = (kv.1 ++ [':']) ++ (' ' :: kv.2) from by simp,
        show kv.1.length + 1 = (kv.1 ++ [':']).length from by simp,
        List.drop_left]
  rw [hdrop]
  rw [trimL_of_no_space (plainStr_no_space hkp)]
  have htv : trimL (' ' :: kv.2) = kv.2 := by
    show trimEndL ((' ' :: kv.2).dropWhile jsIsSpace) = kv.2
    rw [List.dropWhile_cons, if_pos (by decide : jsIsSpace ' ' = true),
        dropWhile_eq_self (fun c hc => (plainStr_spec hvp c (mem_of_head? hc)).1)]
    exact trimEndL_eq_self (fun c hc => (plainStr_spec hvp c (mem_of_getLast? hc)).1)
  rw [htv]

/-- Setting a fresh key appends the pair. -/
theorem jsObjSet_append {k v : Str} : ∀ {hs : List (Str × Str)},
    (∀ kv ∈ hs, ¬(kv.1 = k)) → jsObjSet k v hs = hs ++ [(k, v)] := by
  intro hs
  induction hs with
  | nil => intro _; rfl
  | cons kv rest ih =>
    intro h
    obtain ⟨k0, v0⟩ := kv
    show (if k0 = k then (k0, v) :: rest else (k0, v0) :: jsObjSet k v rest) = _
    rw [if_neg (h (k0, v0) (List.mem_cons_self _ _))]
    rw [ih (fun kv hkv => h kv (List.mem_cons_of_mem _ hkv))]
    rfl

/-- Running the header loop over the formatted matches collects the headers
in order and leaves one space per erased header in the command. -/
theorem applyHeaderMatches_run : ∀ {hs : List (Str × Str)},
    (∀ kv ∈ hs, headerOk kv = true) → (hs.map Prod.fst).Nodup →
    ∀ (d : Str) (acc : List (Str × Str)) (g : Str), '-' ∉ g →
    (∀ kv0 ∈ acc, ∀ kv ∈ hs, ¬(kv0.1 = kv.1)) →
    applyHeaderMatches (hs.map (fun kv => (hFull kv, hCap kv)))
        (acc, g ++ hs.flatMap hChunk ++ d)
      = (acc ++ hs, g ++ List.replicate hs.length ' ' ++ d) := by
  intro hs
  induction hs with
  | nil =>
    intro _ _ d acc g _ _
    simp [applyHeaderMatches]
  | cons kv rest ih =>
    intro h hnd d acc g hg hacc
    rw [List.map_cons]
    rw [show applyHeaderMatches
          ((hFull kv, hCap kv) :: rest.map (fun kv => (hFull kv, hCap kv)))
          (acc, g ++ (kv :: rest).flatMap hChunk ++ d)
        = applyHeaderMatches (rest.map (fun kv => (hFull kv, hCap kv)))
            (processHeader acc (hCap kv),
             replaceFirstSub (hFull kv) [] (g ++ (kv :: rest).flatMap hChunk ++ d)) from rfl]
    have hcmd : replaceFirstSub (hFull kv) [] (g ++ (kv :: rest).flatMap hChunk ++ d)
        = (g ++ [' ']) ++ rest.flatMap hChunk ++ d := by
      rw [List.flatMap_cons]
      rw [show g ++ (hChunk kv ++ rest.flatMap hChunk) ++ d
          = (g ++ [' ']) ++ (hFull kv ++ (rest.flatMap hChunk ++ d)) from by
            rw [show hChunk kv = ' ' :: hFull kv from rfl]
            simp [List.append_assoc]]
      rw [replaceFirstSub_skip (show (hFull kv).head? = some '-' from rfl)
            (not_dash_append hg (by decide)),
          replaceFirstSub_head _ _ _ (by
            intro h0
            exact absurd (List.append_eq_nil.mp h0).1 (by decide))]
      simp [List.append_assoc]
    rw [hcmd]
    rw [processHeader_format (h kv (List.mem_cons_self _ _))]
    rw [jsObjSet_append (fun kv0 hkv0 => hacc kv0 hkv0 kv (List.mem_cons_self _ _))]
    rw [ih (fun kv' hkv' => h kv' (List.mem_cons_of_mem _ hkv'))
        (by rw [List.map_cons] at hnd; exact (List.nodup_cons.mp hnd).2)
        d (acc ++ [(kv.1, kv.2)]) (g ++ [' ']) (not_dash_append hg (by decide))
        (by
          intro kv0 hkv0 kv' hkv'
          rcases List.mem_append.mp hkv0 with hkv0 | hkv0
          · exact hacc kv0 hkv0 kv' (List.mem_cons_of_mem _ hkv')
          · rcases List.mem_singleton.mp hkv0 with rfl
            intro heq
            rw [List.map_cons] at hnd
            exact (List.nodup_cons.mp hnd).1 (by
              rw [show ((kv.1, kv.2) : Str × Str).1 = kv.1 from rfl] at heq
              rw [heq]
              exact List.mem_map_of_mem _ hkv'))]
    have h1 : (acc ++ [(kv.1, kv.2)]) ++ rest = acc ++ kv :: rest := by simp
    have h2 : (g ++ [' ']) ++ List.replicate rest.length ' ' ++ d
        = g ++ List.replicate (kv :: rest).length ' ' ++ d := by
      rw [show (kv :: rest).length = rest.length + 1 from rfl, List.replicate_succ]
      simp [List.append_assoc]
    rw [h1, h2]

/-- `parseCurl` in terms of its stage functions. -/
theorem parseCurl_eq_pc (x : Str) : parseCurl x =
    { url := pcUrl (pcClean
        (pcBody (pcHdr (pcMethod (stripCurlPrefix (normalizeCurlCommand x))).2).2).2),
      method := (pcMethod (stripCurlPrefix (normalizeCurlCommand x))).1,
      headers := (pcHdr (pcMethod (stripCurlPrefix (normalizeCurlCommand x))).2).1,
      body := (pcBody (pcHdr (pcMethod (stripCurlPrefix (normalizeCurlCommand x))).2).2).1,
      originalCurl := normalizeCurlCommand x } := rfl

/-- `dropWhile` passes over a block of satisfying characters. -/
theorem dropWhile_append_all {p : Char → Bool} : ∀ {a : Str}, (∀ c ∈ a, p c = true) →
    ∀ (b : Str), (a ++ b).dropWhile p = b.dropWhile p := by
  intro a
  induction a with
  | nil => intro _ b; rfl
  | cons c rest ih =>
    intro h b
    rw [List.cons_append, List.dropWhile_cons, h c (List.mem_cons_self _ _)]
    simp only [if_true]
    exact ih (fun c hc => h c (List.mem_cons_of_mem _ hc)) b

/-- `takeWhile` keeps a fully satisfying list. -/
theorem takeWhile_all {p : Char → Bool} {l : Str} (h : ∀ c ∈ l, p c = true) :
    l.takeWhile p = l := by
  have h0 := takeWhile_append_all h []
  simpa using h0

/-- `trimEndL` removes exactly one trailing space after a non-space end. -/
theorem trimEndL_concat_space {l : Str}
    (h : ∀ c, l.getLast? = some c → jsIsSpace c = false) :
    trimEndL (l ++ [' ']) = l := by
  unfold trimEndL
  rw [List.reverse_append]
  rw [show ([' '] : Str).reverse ++ l.reverse = ' ' :: l.reverse from rfl]
  rw [List.dropWhile_cons, if_pos (by decide : jsIsSpace ' ' = true)]
  rw [dropWhile_eq_self (fun c hc => h c (by rw [← List.head?_reverse]; exact hc))]
  exact List.reverse_reverse l

/-- Splitting the empty string yields one empty fragment. -/
theorem jsSplitWsAux_nil : ∀ (fuel : Nat), jsSplitWsAux fuel [] = [[]] := by
  intro fuel
  cases fuel with
  | zero => rfl
  | succ f => rfl

/-- Splitting a whitespace-free non-empty string yields one fragment. -/
theorem jsSplitWs_no_space {a : Str} (ha : a ≠ [])
    (hans : ∀ c ∈ a, (!jsIsSpace c) = true) : jsSplitWs a = [a] := by
  cases ha0 : a with
  | nil => exact absurd ha0 ha
  | cons c0 a' =>
    rw [ha0] at hans
    show jsSplitWsAux (a'.length + 1) (c0 :: a') = [c0 :: a']
    rw [show jsSplitWsAux (a'.length + 1) (c0 :: a')
        = (match (c0 :: a').dropWhile (fun c => !jsIsSpace c) with
           | [] => [(c0 :: a').takeWhile (fun c => !jsIsSpace c)]
           | _ :: rest => (c0 :: a').takeWhile (fun c => !jsIsSpace c)
               :: jsSplitWsAux a'.length (rest.dropWhile jsIsSpace)) from rfl]
    rw [List.dropWhile_eq_nil_iff.mpr (fun c hc => hans c hc)]
    show [(c0 :: a').takeWhile (fun c => !jsIsSpace c)] = [c0 :: a']
    rw [takeWhile_all hans]

/-- Splitting a token followed by a run of spaces yields the token and one
trailing empty fragment. -/
theorem jsSplitWs_token_spaces {a : Str} (ha : a ≠ [])
    (hans : ∀ c ∈ a, (!jsIsSpace c) = true)
    {w : Str} (hw : ∀ c ∈ w, c = ' ') :
    jsSplitWs (a ++ (' ' :: w)) = [a, []] := by
  cases ha0 : a with
  | nil => exact absurd ha0 ha
  | cons c0 a' =>
    rw [ha0] at hans
    show jsSplitWsAux ((a' ++ (' ' :: w)).length + 1) ((c0 :: a') ++ (' ' :: w)) = [c0 :: a', []]
    rw [show jsSplitWsAux ((a' ++ (' ' :: w)).length + 1) ((c0 :: a') ++ (' ' :: w))
        = (match ((c0 :: a') ++ (' ' :: w)).dropWhile (fun c => !jsIsSpace c) with
           | [] => [((c0 :: a') ++ (' ' :: w)).takeWhile (fun c => !jsIsSpace c)]
           | _ :: rest => ((c0 :: a') ++ (' ' :: w)).takeWhile (fun c => !jsIsSpace c)
               :: jsSplitWsAux (a' ++ (' ' :: w)).length (rest.dropWhile jsIsSpace)) from rfl]
    rw [dropWhile_append_all hans]
    rw [show (' ' :: w).dropWhile (fun c => !jsIsSpace c) = ' ' :: w from by
      apply dropWhile_eq_self
      intro c hc
      injection hc with hc
      rw [← hc]; decide]
    show ((c0 :: a') ++ (' ' :: w)).takeWhile (fun c => !jsIsSpace c)
        :: jsSplitWsAux (a' ++ (' ' :: w)).length (w.dropWhile jsIsSpace) = [c0 :: a', []]
    rw [takeWhile_append_all hans]
    rw [takeWhile_eq_nil (fun c hc => by injection hc with hc; rw [← hc]; decide)]
    rw [List.append_nil]
    rw [List.dropWhile_eq_nil_iff.mpr (fun c hc => by rw [hw c hc]; decide)]
    rw [jsSplitWsAux_nil]

/-- A token starting with a quote is not a standalone flag. -/
theorem standaloneFlags_not_contains {l : Str} (h : l.head? = some squote) :
    standaloneFlags.contains l = false := by
  cases hl : l with
  | nil => rw [hl] at h; exact absurd h (by decide)
  | cons c rest =>
    rw [hl] at h
    injection h with h
    subst h
    cases hc : standaloneFlags.contains (squote :: rest) with
    | false => rfl
    | true =>
      have hmem : squote :: rest ∈ standaloneFlags := by
        simpa using hc
      have hhd := (by decide : ∀ f ∈ standaloneFlags, f.head? = some '-') _ hmem
      injection hhd with hhd
      exact absurd hhd (by decide)

/-- The clean command of a formatted URL block followed by spaces. -/
theorem cleanCommand_shape {u : Str} (hu : plainStr u = true) :
    ∀ {w : Str}, (∀ c ∈ w, c = ' ') →
    trimL (joinWith (chars " ")
      ((jsSplitWs ((squote :: (u ++ [squote])) ++ w)).filter
        (fun t => !standaloneFlags.contains t))) = squote :: (u ++ [squote]) := by
  have hans : ∀ c ∈ squote :: (u ++ [squote]), (!jsIsSpace c) = true := by
    intro c hc
    rcases List.mem_cons.mp hc with rfl | hc
    · decide
    · rcases List.mem_append.mp hc with hc | hc
      · simp [(plainStr_spec hu c hc).1]
      · rcases List.mem_singleton.mp hc with rfl; decide
  have hnosp : ∀ c ∈ squote :: (u ++ [squote]), jsIsSpace c = false := by
    intro c hc
    have := hans c hc
    rwa [Bool.not_eq_true'] at this
  intro w hw
  cases hw0 : w with
  | nil =>
    rw [List.append_nil, jsSplitWs_no_space (by simp) hans]
    rw [show ([squote :: (u ++ [squote])].filter (fun t => !standaloneFlags.contains t))
        = [squote :: (u ++ [squote])] from by
      simp only [List.filter_cons, List.filter_nil,
        standaloneFlags_not_contains
          (show (squote :: (u ++ [squote])).head? = some squote from rfl)]
      rfl]
    rw [show joinWith (chars " ") [squote :: (u ++ [squote])] = squote :: (u ++ [squote])
        from rfl]
    exact trimL_of_no_space hnosp
  | cons c0 w' =>
    rw [hw0] at hw
    have hc0 : c0 = ' ' := hw c0 (List.mem_cons_self _ _)
    subst hc0
    rw [jsSplitWs_token_spaces (by simp) hans (fun c hc => hw c (List.mem_cons_of_mem _ hc))]
    rw [show ([squote :: (u ++ [squote]), ([] : Str)].filter
          (fun t => !standaloneFlags.contains t))
        = [squote :: (u ++ [squote]), ([] : Str)] from by
      simp only [List.filter_cons, List.filter_nil,
        standaloneFlags_not_contains
          (show (squote :: (u ++ [squote])).head? = some squote from rfl)]
      rfl]
    rw [show joinWith (chars " ") [squote :: (u ++ [squote]), ([] : Str)]
        = (squote :: (u ++ [squote])) ++ chars " " ++ [] from rfl]
    rw [List.append_nil]
    show trimL ((squote :: (u ++ [squote])) ++ [' ']) = squote :: (u ++ [squote])
    unfold trimL
    rw [trimStartL_eq_self (fun c hc => by
      rw [show ((squote :: (u ++ [squote])) ++ [' ']).head? = some squote from rfl] at hc
      injection hc with hc
      rw [← hc]; decide)]
    apply trimEndL_concat_space
    intro c hc
    rw [show (squote :: (u ++ [squote])).getLast? = ((squote :: u) ++ [squote]).getLast?
          from by rw [show squote :: (u ++ [squote]) = (squote :: u) ++ [squote] by simp],
        getLast?_concat] at hc
    injection hc with hc
    rw [← hc]; decide

/-- The quoted-URL matcher on the formatted URL block. -/
theorem matchQuotedUrl_A0 {u : Str} (hu : plainStr u = true) :
    matchQuotedUrl (squote :: (u ++ [squote])) = some u := by
  show (if isQuote squote then
      if ((u ++ [squote]).takeWhile (· ≠ squote)).length < (u ++ [squote]).length
      then some ((u ++ [squote]).takeWhile (· ≠ squote)) else none
    else none) = some u
  rw [if_pos (by decide : isQuote squote = true)]
  have hcap : (u ++ [squote]).takeWhile (· ≠ squote) = u := by
    rw [takeWhile_append_all (fun c hc => by
          simp only [decide_eq_true_eq]
          exact plainStr_ne_squote hu c hc) [squote],
        takeWhile_eq_nil (fun c hc => by
          injection hc with hc
          rw [← hc]; simp),
        List.append_nil]
  rw [hcap]
  rw [if_pos (by rw [List.length_append]; simp)]

/-- A dash-initial pattern is no prefix of a non-dash-initial string. -/
theorem isPrefixL_dash_false {pat : Str} (hp : pat.head? = some '-') {c : Char}
    (h : ¬(c = '-')) (rest : Str) : isPrefixL pat (c :: rest) = false := by
  cases hpat : pat with
  | nil => rw [hpat] at hp; exact absurd hp (by decide)
  | cons p0 pt =>
    rw [hpat] at hp
    injection hp with hp
    cases hpf : isPrefixL (p0 :: pt) (c :: rest) with
    | false => rfl
    | true =>
      have hpre := isPrefixL_iff.mp hpf
      rw [List.cons_prefix_cons] at hpre
      exact absurd (hpre.1.symm.trans hp) h

/-- The body matcher fails unless the string starts with a dash. -/
theorem matchBodyAt_none_head {c : Char} (rest : Str) (h : ¬(c = '-')) :
    matchBodyAt (c :: rest) = none := by
  show ((if isPrefixL (chars "-d") (c :: rest) then matchQuotedArgAfter 2 (c :: rest) else none) <|>
    (if isPrefixL (chars "--data") (c :: rest) then matchQuotedArgAfter 6 (c :: rest) else none) <|>
    (if isPrefixL (chars "-d") (c :: rest) then matchBareArgAfter 2 (c :: rest) else none) <|>
    (if isPrefixL (chars "--data") (c :: rest) then matchBareArgAfter 6 (c :: rest) else none))
    = none
  rw [isPrefixL_dash_false (show (chars "-d").head? = some '-' from rfl) h rest,
      isPrefixL_dash_false (show (chars "--data").head? = some '-' from rfl) h rest]
  rfl

/-- One body-search step over a non-matching head. -/
theorem findBody_cons_none {c : Char} {rest : Str}
    (h : matchBodyAt (c :: rest) = none) : findBody (c :: rest) = findBody rest := by
  show (matchBodyAt (c :: rest) <|> findBody rest) = findBody rest
  rw [h]
  rfl

/-- The body search stops at a matching position. -/
theorem findBody_cons_some {c : Char} {rest : Str} {r : Str × Str}
    (h : matchBodyAt (c :: rest) = some r) : findBody (c :: rest) = some r := by
  show (matchBodyAt (c :: rest) <|> findBody rest) = some r
  rw [h]
  rfl

/-- The body search passes over any dash-free region. -/
theorem findBody_skip : ∀ {a : Str}, '-' ∉ a → ∀ (b : Str),
    findBody (a ++ b) = findBody b := by
  intro a
  induction a with
  | nil => intro _ b; rfl
  | cons c rest ih =>
    intro h b
    rw [List.cons_append,
        findBody_cons_none (matchBodyAt_none_head _
          (fun he => h (by rw [he]; exact List.mem_cons_self _ _)))]
    exact ih (fun hm => h (List.mem_cons_of_mem _ hm)) b

/-- The body search fails on a dash-free string. -/
theorem findBody_none_of_nodash {l : Str} (h : '-' ∉ l) : findBody l = none := by
  have h0 := findBody_skip h []
  rw [List.append_nil] at h0
  rw [h0]
  rfl

/-- The quoted-argument branch on a formatted body. -/
theorem matchQuotedArgAfter_2_format {b : Str} (hbne : b ≠ []) (hbp : plainStr b = true) :
    matchQuotedArgAfter 2 ('-' :: 'd' :: (' ' :: squote :: (b ++ [squote])))
      = some (chars "-d " ++ squote :: (b ++ [squote]), b) := by
  have h1 : (('-' :: 'd' :: (' ' :: squote :: (b ++ [squote]))).drop 2)
      = ' ' :: squote :: (b ++ [squote]) := rfl
  have h2 : ((' ' :: squote :: (b ++ [squote])).takeWhile jsIsSpace) = [' '] := by
    rw [List.takeWhile_cons, if_pos (by decide : jsIsSpace ' ' = true),
        takeWhile_eq_nil (fun c hc => by injection hc with hc; rw [← hc]; decide)]
  have h3 : (b ++ [squote]).takeWhile (fun c => !isQuote c) = b := by
    rw [takeWhile_append_all (fun c hc => by simp [(plainStr_spec hbp c hc).2.1]) [squote],
        takeWhile_eq_nil (fun c hc => by injection hc with hc; rw [← hc]; decide),
        List.append_nil]
  have h4 : b.isEmpty = false := by
    cases hb0 : b with
    | nil => exact absurd hb0 hbne
    | cons d t => rfl
  simp only [matchQuotedArgAfter, h1, h2, h3, h4, List.isEmpty_cons, Bool.false_eq_true,
    if_false, List.length_cons, List.length_nil, List.drop_succ_cons, List.drop_zero,
    List.drop_left, List.take_succ_cons, List.take_zero]
  rw [if_pos (by decide : isQuote squote = true)]
  rfl

/-- The body matcher on a formatted body argument. -/
theorem matchBodyAt_format {b : Str} (hbne : b ≠ []) (hbp : plainStr b = true) :
    matchBodyAt ('-' :: 'd' :: (' ' :: squote :: (b ++ [squote])))
      = some (chars "-d " ++ squote :: (b ++ [squote]), b) := by
  show ((if isPrefixL (chars "-d") ('-' :: 'd' :: (' ' :: squote :: (b ++ [squote]))) then
        matchQuotedArgAfter 2 ('-' :: 'd' :: (' ' :: squote :: (b ++ [squote]))) else none) <|>
    (if isPrefixL (chars "--data") ('-' :: 'd' :: (' ' :: squote :: (b ++ [squote]))) then
        matchQuotedArgAfter 6 ('-' :: 'd' :: (' ' :: squote :: (b ++ [squote]))) else none) <|>
    (if isPrefixL (chars "-d") ('-' :: 'd' :: (' ' :: squote :: (b ++ [squote]))) then
        matchBareArgAfter 2 ('-' :: 'd' :: (' ' :: squote :: (b ++ [squote]))) else none) <|>
    (if isPrefixL (chars "--data") ('-' :: 'd' :: (' ' :: squote :: (b ++ [squote]))) then
        matchBareArgAfter 6 ('-' :: 'd' :: (' ' :: squote :: (b ++ [squote]))) else none))
    = some (chars "-d " ++ squote :: (b ++ [squote]), b)
  rw [show isPrefixL (chars "-d") ('-' :: 'd' :: (' ' :: squote :: (b ++ [squote]))) = true
        from rfl,
      show isPrefixL (chars "--data") ('-' :: 'd' :: (' ' :: squote :: (b ++ [squote]))) = false
        from rfl]
  simp only [if_true, Bool.false_eq_true, if_false]
  rw [matchQuotedArgAfter_2_format hbne hbp]
  rfl

/-- Erasing a pattern from itself leaves nothing. -/
theorem replaceFirstSub_self (pat : Str) (hne : pat ≠ []) :
    replaceFirstSub pat [] pat = [] := by
  have h0 := replaceFirstSub_head pat [] [] hne
  rw [List.append_nil] at h0
  simpa using h0

/-- Space runs contain no dash. -/
theorem not_dash_replicate {n : Nat} : '-' ∉ List.replicate n ' ' := by
  intro hm
  have := List.eq_of_mem_replicate hm
  exact absurd this (by decide)

/-- Erasing the matched method from the formatted tail. -/
theorem methodRemove_fmtTail {u m : Str} (hu : plainStr u = true)
    (hg : m ≠ chars "GET") {hs : List (Str × Str)} {bo : Option Str} :
    replaceFirstSub (chars "-X " ++ m) [] (fmtTail u m hs bo)
      = (squote :: (u ++ [squote])) ++ [' '] ++ hs.flatMap hChunk ++ dPart bo := by
  unfold fmtTail
  rw [show mPart m = chars " -X " ++ m from by unfold mPart; rw [if_pos hg]]
  rw [show chars " -X " = ' ' :: chars "-X " from rfl]
  rw [show (squote :: (u ++ [squote])) ++ (' ' :: chars "-X " ++ m) ++ hs.flatMap hChunk
        ++ dPart bo
      = ((squote :: (u ++ [squote])) ++ [' '])
        ++ ((chars "-X " ++ m) ++ (hs.flatMap hChunk ++ dPart bo)) from by
        simp [List.append_assoc]]
  rw [replaceFirstSub_skip (show (chars "-X " ++ m).head? = some '-' from rfl)
        (not_dash_append (nodash_A0 hu) (by decide))]
  rw [replaceFirstSub_head _ _ _ (by
    intro h0
    exact absurd (List.append_eq_nil.mp h0).1 (by decide))]
  simp [List.append_assoc]

/-- The method stage on a formatted `GET` command. -/
theorem pcMethod_fmtTail_GET {u : Str} (hu : plainStr u = true)
    {hs : List (Str × Str)} (hhs : ∀ kv ∈ hs, headerOk kv = true)
    {bo : Option Str} (hb : bodyOk bo = true) :
    pcMethod (fmtTail u (chars "GET") hs bo)
      = (chars "GET", fmtTail u (chars "GET") hs bo) := by
  unfold pcMethod
  rw [findMethod_fmtTail_GET hu hhs hb]

/-- The method stage on a formatted non-`GET` command. -/
theorem pcMethod_fmtTail_X {u m : Str} (hu : plainStr u = true) (hm : methodOk m = true)
    (hg : m ≠ chars "GET") {hs : List (Str × Str)} (hhs : ∀ kv ∈ hs, headerOk kv = true)
    {bo : Option Str} (hb : bodyOk bo = true) :
    pcMethod (fmtTail u m hs bo)
      = (m, (squote :: (u ++ [squote])) ++ [' '] ++ hs.flatMap hChunk ++ dPart bo) := by
  unfold pcMethod
  rw [findMethod_fmtTail_X hu hm hg hhs hb]
  show (m.map upperAscii, replaceFirstSub (chars "-X " ++ m) [] (fmtTail u m hs bo)) = _
  rw [map_fixed (fun c hc => ((methodOk_spec hm).2 c hc).2),
      methodRemove_fmtTail hu hg]

/-- The header stage on the formatted header block behind a dash-free
prefix. -/
theorem pcHdr_block {g : Str} (hg : '-' ∉ g) {hs : List (Str × Str)}
    (hhs : ∀ kv ∈ hs, headerOk kv = true) (hnd : (hs.map Prod.fst).Nodup)
    {bo : Option Str} (hb : bodyOk bo = true) :
    pcHdr (g ++ hs.flatMap hChunk ++ dPart bo)
      = (hs, g ++ List.replicate hs.length ' ' ++ dPart bo) := by
  unfold pcHdr
  rw [show g ++ hs.flatMap hChunk ++ dPart bo = g ++ (hs.flatMap hChunk ++ dPart bo)
      from List.append_assoc _ _ _]
  rw [scanHeaders_skip hg, scanHeaders_flatMap hhs (scanHeaders_dPart hb)]
  rw [show g ++ (hs.flatMap hChunk ++ dPart bo) = g ++ hs.flatMap hChunk ++ dPart bo
      from (List.append_assoc _ _ _).symm]
  rw [applyHeaderMatches_run hhs hnd (dPart bo) [] g hg
      (fun kv0 h0 => absurd h0 (List.not_mem_nil _))]
  rw [List.nil_append]

/-- The body stage with no body present. -/
theorem pcBody_none {g : Str} (hg : '-' ∉ g) :
    pcBody (g ++ dPart none) = (none, g ++ dPart none) := by
  unfold pcBody
  rw [show g ++ dPart none = g ++ ([] : Str) from rfl, List.append_nil,
      findBody_none_of_nodash hg]

/-- The body stage on a formatted body behind a dash-free prefix. -/
theorem pcBody_some {g : Str} (hg : '-' ∉ g) {b : Str} (hbne : b ≠ [])
    (hbp : plainStr b = true) :
    pcBody (g ++ dPart (some b)) = (some b, g ++ [' ']) := by
  unfold pcBody
  rw [show g ++ dPart (some b)
      = (g ++ [' ']) ++ ('-' :: 'd' :: (' ' :: squote :: (b ++ [squote]))) from by
        rw [show dPart (some b)
            = ' ' :: ('-' :: 'd' :: (' ' :: squote :: (b ++ [squote]))) from rfl]
        simp [List.append_assoc]]
  rw [findBody_skip (not_dash_append hg (by decide))]
  rw [findBody_cons_some (matchBodyAt_format hbne hbp)]
  show (some b, replaceFirstSub (chars "-d " ++ squote :: (b ++ [squote])) []
      ((g ++ [' ']) ++ ('-' :: 'd' :: (' ' :: squote :: (b ++ [squote]))))) = (some b, g ++ [' '])
  rw [replaceFirstSub_skip
        (show (chars "-d " ++ squote :: (b ++ [squote])).head? = some '-' from rfl)
        (not_dash_append hg (by decide))]
  rw [show ('-' :: 'd' :: (' ' :: squote :: (b ++ [squote])))
      = chars "-d " ++ squote :: (b ++ [squote]) from rfl]
  rw [replaceFirstSub_self _ (by
    intro h0
    exact absurd (List.append_eq_nil.mp h0).1 (by decide))]
  rw [List.append_nil]

/-- The cleanup stage on the formatted URL block followed by spaces. -/
theorem pcClean_A0 {u : Str} (hu : plainStr u = true) {w : Str}
    (hw : ∀ c ∈ w, c = ' ') :
    pcClean ((squote :: (u ++ [squote])) ++ w) = squote :: (u ++ [squote]) := by
  unfold pcClean
  exact cleanCommand_shape hu hw

/-- The URL stage on the formatted URL block. -/
theorem pcUrl_A0 {u : Str} (hu : plainStr u = true) :
    pcUrl (squote :: (u ++ [squote])) = u := by
  unfold pcUrl
  rw [matchQuotedUrl_A0 hu]
  show trimL u = u
  exact trimL_of_no_space (plainStr_no_space hu)

set_option maxHeartbeats 2000000 in
/-- Parsing the canonical formatted command recovers all four components. -/
theorem parseCurl_fmtF {u m : Str} {hs : List (Str × Str)} {bo : Option Str}
    (hu : plainStr u = true) (hm : methodOk m = true)
    (hhs : ∀ kv ∈ hs, headerOk kv = true) (hnd : (hs.map Prod.fst).Nodup)
    (hb : bodyOk bo = true) :
    parseCurl (fmtF u m hs bo)
      = { url := u, method := m, headers := hs, body := bo,
          originalCurl := fmtF u m hs bo } := by
  have hc0 : stripCurlPrefix (normalizeCurlCommand (fmtF u m hs bo)) = fmtTail u m hs bo := by
    rw [normalize_fmtF hu hm hhs hb, stripCurlPrefix_fmtF]
  rw [parseCurl_eq_pc, hc0, normalize_fmtF hu hm hhs hb, ParsedCurl.mk.injEq]
  clear hc0
  by_cases hg : m = chars "GET"
  · subst hg
    have hft : fmtTail u (chars "GET") hs bo
        = (squote :: (u ++ [squote])) ++ hs.flatMap hChunk ++ dPart bo := by
      unfold fmtTail
      rw [show mPart (chars "GET") = [] from by unfold mPart; rw [if_neg (not_not_intro rfl)],
          List.append_nil]
    have h1 := pcMethod_fmtTail_GET hu hhs hb
    have h1a : (pcMethod (fmtTail u (chars "GET") hs bo)).1 = chars "GET" := by rw [h1]
    have h1b : (pcMethod (fmtTail u (chars "GET") hs bo)).2
        = (squote :: (u ++ [squote])) ++ hs.flatMap hChunk ++ dPart bo := by
      rw [h1]
      exact hft
    have h2 : pcHdr (pcMethod (fmtTail u (chars "GET") hs bo)).2
        = (hs, (squote :: (u ++ [squote])) ++ List.replicate hs.length ' ' ++ dPart bo) := by
      rw [h1b]
      exact pcHdr_block (nodash_A0 hu) hhs hnd hb
    have h2a : (pcHdr (pcMethod (fmtTail u (chars "GET") hs bo)).2).1 = hs := by rw [h2]
    have h2b : (pcHdr (pcMethod (fmtTail u (chars "GET") hs bo)).2).2
        = (squote :: (u ++ [squote])) ++ List.replicate hs.length ' ' ++ dPart bo := by
      rw [h2]
    cases bo with
    | none =>
      have h3 : pcBody (pcHdr (pcMethod (fmtTail u (chars "GET") hs none)).2).2
          = (none, (squote :: (u ++ [squote])) ++ List.replicate hs.length ' '
              ++ dPart none) := by
        rw [h2b]
        exact pcBody_none (not_dash_append (nodash_A0 hu) not_dash_replicate)
      have h3a : (pcBody (pcHdr (pcMethod (fmtTail u (chars "GET") hs none)).2).2).1
          = none := by rw [h3]
      have h3b : (pcBody (pcHdr (pcMethod (fmtTail u (chars "GET") hs none)).2).2).2
          = (squote :: (u ++ [squote])) ++ List.replicate hs.length ' ' := by
        rw [h3]
        show (squote :: (u ++ [squote])) ++ List.replicate hs.length ' ' ++ dPart none = _
        rw [show dPart none = ([] : Str) from rfl, List.append_nil]
      refine ⟨?_, h1a, h2a, h3a, rfl⟩
      rw [h3b, pcClean_A0 hu (fun c hc => List.eq_of_mem_replicate hc), pcUrl_A0 hu]
    | some b =>
      have hb' := hb
      simp only [bodyOk, Bool.and_eq_true, Bool.not_eq_true'] at hb'
      have hbne : b ≠ [] := by
        intro he
        have := hb'.1
        rw [he] at this
        exact absurd this (by decide)
      have hbp : plainStr b = true := hb'.2
      have h3 : pcBody (pcHdr (pcMethod (fmtTail u (chars "GET") hs (some b))).2).2
          = (some b, ((squote :: (u ++ [squote])) ++ List.replicate hs.length ' ')
              ++ [' ']) := by
        rw [h2b]
        exact pcBody_some (not_dash_append (nodash_A0 hu) not_dash_replicate) hbne hbp
      have h3a : (pcBody (pcHdr (pcMethod (fmtTail u (chars "GET") hs (some b))).2).2).1
          = some b := by rw [h3]
      have h3b : (pcBody (pcHdr (pcMethod (fmtTail u (chars "GET") hs (some b))).2).2).2
          = ((squote :: (u ++ [squote])) ++ List.replicate hs.length ' ') ++ [' '] := by
        rw [h3]
      refine ⟨?_, h1a, h2a, h3a, rfl⟩
      rw [h3b,
          List.append_assoc,
          pcClean_A0 hu (fun c hc => by
            rcases List.mem_append.mp hc with hc | hc
            · exact List.eq_of_mem_replicate hc
            · exact List.mem_singleton.mp hc),
          pcUrl_A0 hu]
  · have h1 := pcMethod_fmtTail_X hu hm hg hhs hb
    have h1a : (pcMethod (fmtTail u m hs bo)).1 = m := by rw [h1]
    have h1b : (pcMethod (fmtTail u m hs bo)).2
        = (squote :: (u ++ [squote])) ++ [' '] ++ hs.flatMap hChunk ++ dPart bo := by
      rw [h1]
    have h2 : pcHdr (pcMethod (fmtTail u m hs bo)).2
        = (hs, ((squote :: (u ++ [squote])) ++ [' ']) ++ List.replicate hs.length ' '
            ++ dPart bo) := by
      rw [h1b]
      exact pcHdr_block (not_dash_append (nodash_A0 hu) (by decide)) hhs hnd hb
    have h2a : (pcHdr (pcMethod (fmtTail u m hs bo)).2).1 = hs := by rw [h2]
    have h2b : (pcHdr (pcMethod (fmtTail u m hs bo)).2).2
        = ((squote :: (u ++ [squote])) ++ [' ']) ++ List.replicate hs.length ' '
            ++ dPart bo := by
      rw [h2]
    have hgnd : '-' ∉ (squote :: (u ++ [squote])) ++ [' '] :=
      not_dash_append (nodash_A0 hu) (by decide)
    cases bo with
    | none =>
      have h3 : pcBody (pcHdr (pcMethod (fmtTail u m hs none)).2).2
          = (none, ((squote :: (u ++ [squote])) ++ [' ']) ++ List.replicate hs.length ' '
              ++ dPart none) := by
        rw [h2b]
        exact pcBody_none (not_dash_append hgnd not_dash_replicate)
      have h3a : (pcBody (pcHdr (pcMethod (fmtTail u m hs none)).2).2).1 = none := by
        rw [h3]
      have h3b : (pcBody (pcHdr (pcMethod (fmtTail u m hs none)).2).2).2
          = (squote :: (u ++ [squote])) ++ ([' '] ++ List.replicate hs.length ' ') := by
        rw [h3]
        show ((squote :: (u ++ [squote])) ++ [' ']) ++ List.replicate hs.length ' '
            ++ dPart none = _
        rw [show dPart none = ([] : Str) from rfl, List.append_nil, List.append_assoc]
      refine ⟨?_, h1a, h2a, h3a, rfl⟩
      rw [h3b,
          pcClean_A0 hu (fun c hc => by
            rcases List.mem_append.mp hc with hc | hc
            · exact List.mem_singleton.mp hc
            · exact List.eq_of_mem_replicate hc),
          pcUrl_A0 hu]
    | some b =>
      have hb' := hb
      simp only [bodyOk, Bool.and_eq_true, Bool.not_eq_true'] at hb'
      have hbne : b ≠ [] := by
        intro he
        have := hb'.1
        rw [he] at this
        exact absurd this (by decide)
      have hbp : plainStr b = true := hb'.2
      have h3 : pcBody (pcHdr (pcMethod (fmtTail u m hs (some b))).2).2
          = (some b, (((squote :: (u ++ [squote])) ++ [' '])
              ++ List.replicate hs.length ' ') ++ [' ']) := by
        rw [h2b]
        exact pcBody_some (not_dash_append hgnd not_dash_replicate) hbne hbp
      have h3a : (pcBody (pcHdr (pcMethod (fmtTail u m hs (some b))).2).2).1
          = some b := by rw [h3]
      have h3b : (pcBody (pcHdr (pcMethod (fmtTail u m hs (some b))).2).2).2
          = (((squote :: (u ++ [squote])) ++ [' ']) ++ List.replicate hs.length ' ')
              ++ [' '] := by
        rw [h3]
      refine ⟨?_, h1a, h2a, h3a, rfl⟩
      rw [h3b,
          show (((squote :: (u ++ [squote])) ++ [' ']) ++ List.replicate hs.length ' ')
              ++ [' ']
            = (squote :: (u ++ [squote]))
              ++ ([' '] ++ List.replicate hs.length ' ' ++ [' ']) from by
            simp [List.append_assoc],
          pcClean_A0 hu (fun c hc => by
            rcases List.mem_append.mp hc with hc | hc
            · rcases List.mem_append.mp hc with hc | hc
              · exact List.mem_singleton.mp hc
              · exact List.eq_of_mem_replicate hc
            · exact List.mem_singleton.mp hc),
          pcUrl_A0 hu]

/-- Projection of a literal `ParsedCurl`: the URL. -/
theorem mk_url (a b : Str) (c : List (Str × Str)) (d : Option Str) (e : Str) :
    (ParsedCurl.mk a b c d e).url = a := rfl

/-- Projection of a literal `ParsedCurl`: the method. -/
theorem mk_method (a b : Str) (c : List (Str × Str)) (d : Option Str) (e : Str) :
    (ParsedCurl.mk a b c d e).method = b := rfl

/-- Projection of a literal `ParsedCurl`: the headers. -/
theorem mk_headers (a b : Str) (c : List (Str × Str)) (d : Option Str) (e : Str) :
    (ParsedCurl.mk a b c d e).headers = c := rfl

/-- Projection of a literal `ParsedCurl`: the body. -/
theorem mk_body (a b : Str) (c : List (Str × Str)) (d : Option Str) (e : Str) :
    (ParsedCurl.mk a b c d e).body = d := rfl

/-- C7 counterexample: the URL `http://x/a'b` contains a single quote; the
formatter shell-escapes it, and on re-parse the lazy quoted-URL capture
stops at the escape quote, so the re-parsed URL `http://x/a` differs from
the original parse. -/
theorem c7_counterexample :
    (parseCurl (formatParsedCurlToCommand (parseCurl (chars "curl http://x/a'b")))).url
      ≠ (parseCurl (chars "curl http://x/a'b")).url := by decide

/-- C7 (amended): `formatParsedCurlToCommand` after `parseCurl` re-parses to
a template with the same method, URL, headers and body whenever the parsed
components are well-behaved: URL, header keys/values and body free of
whitespace, quotes and dashes; method a non-empty upper-case word; header
keys non-empty, colon-free and pairwise distinct; body absent or non-empty.
For arbitrary commands the round trip can change the URL (see the
counterexample with an embedded quote). -/
theorem c7_format_reparse_equivalence (x : Str)
    (hu : plainStr (parseCurl x).url = true)
    (hm : methodOk (parseCurl x).method = true)
    (hhs : ∀ kv ∈ (parseCurl x).headers, headerOk kv = true)
    (hnd : ((parseCurl x).headers.map Prod.fst).Nodup)
    (hb : bodyOk (parseCurl x).body = true) :
    (parseCurl (formatParsedCurlToCommand (parseCurl x))).method = (parseCurl x).method ∧
    (parseCurl (formatParsedCurlToCommand (parseCurl x))).url = (parseCurl x).url ∧
    (parseCurl (formatParsedCurlToCommand (parseCurl x))).headers = (parseCurl x).headers ∧
    (parseCurl (formatParsedCurlToCommand (parseCurl x))).body = (parseCurl x).body := by
  rw [format_eq_fmtF hu hm hhs hb]
  rw [parseCurl_fmtF hu hm hhs hnd hb]
  exact ⟨mk_method _ _ _ _ _, mk_url _ _ _ _ _, mk_headers _ _ _ _ _, mk_body _ _ _ _ _⟩

/-- C7 witness: a `POST` command with one header and a body satisfies every
hypothesis, and the theorem yields the URL round trip on it. -/
theorem c7_witness :
    plainStr (parseCurl c7SampleCmd).url = true ∧
    methodOk (parseCurl c7SampleCmd).method = true ∧
    (∀ kv ∈ (parseCurl c7SampleCmd).headers, headerOk kv = true) ∧
    ((parseCurl c7SampleCmd).headers.map Prod.fst).Nodup ∧
    bodyOk (parseCurl c7SampleCmd).body = true ∧
    (parseCurl (formatParsedCurlToCommand (parseCurl c7SampleCmd))).url
      = (parseCurl c7SampleCmd).url :=
  ⟨by decide, by decide, by decide, by decide, by decide,
   (c7_format_reparse_equivalence c7SampleCmd (by decide) (by decide) (by decide)
      (by decide) (by decide)).2.1⟩

end RRC
